import Mathlib

/-! Outguess embedding / extraction engine: shallow embedding and verified properties

Source: `src/cpp/outguess/outguess.cpp`, `src/cpp/outguess/outguess.h`.

Conventions of the embedding

* A coefficient buffer (`std::vector<int16_t>`) is a `List Int`; every value stored by the
  code goes through `to_int16`, the conversion of a C `int` to `int16_t`.
* Bytes (`uint8_t`, `char`) are `Nat`s below 256; 32-bit unsigned values are `Nat`s below `2^32`.
* Bitwise operators on C `int` (`|`, `&`, `~`) act on the 32-bit two's complement pattern.
* A `double` is the rational it denotes. Every `double` operation of the capacity estimate, of
  the compression self-test and of the LSB vote of the detector is the exact operation followed
  by `round_double`, the rounding to the nearest binary64 value with ties to even (each
  operation rounded on its own, exponent range not limited). The entropy of the detector is
  the one exception: `log2` is a parameter with rational values and the sum is taken exactly.
* An `int` result outside the range of `int`, which the language leaves undefined, is the
  value given by the field `undefined_int` of `StdLib`.
* Lengths, indices and counts are natural numbers: the embedding describes the code on buffers
  of fewer than `2^31` coefficients, where every `int` index and counter of the source holds
  its mathematical value.
* The image codec (`load_jpeg_advanced`, `save_jpeg_advanced`) is a black box: the operations
  take the decoded `AdvancedJPEGData` directly, and the result of saving is a parameter.
* `std::hash<std::string>` and the `std::mt19937` draws consumed by `std::shuffle` are
  library code; they are the fields of `StdLib`, over which every theorem quantifies.
-/

namespace Outguess

/-! ## Constants and machine integers -/

/-- Source: `static const int DCT_BLOCK_SIZE = 64;` -/
def DCT_BLOCK_SIZE : Nat := 64

/-- Source: `static const int MIN_COEFF_VALUE = 2;` -/
def MIN_COEFF_VALUE : Int := 2

/-- Conversion of a C `int` to `int16_t` (wrap-around modulo `2^16`). -/
def to_int16 (x : Int) : Int := (x + 32768) % 65536 - 32768

/-- Bit pattern of a C `int` as an unsigned 32-bit value. -/
def to_uint32 (x : Int) : Nat := (x % 4294967296).toNat

/-- Signed value of a 32-bit pattern (two's complement). -/
def to_int32 (u : Nat) : Int :=
  if u < 2147483648 then (u : Int) else (u : Int) - 4294967296

/-- C `x | y` on `int`. -/
def c_or (x y : Int) : Int := to_int32 (to_uint32 x ||| to_uint32 y)

/-- C `x & y` on `int`. -/
def c_and (x y : Int) : Int := to_int32 (to_uint32 x &&& to_uint32 y)

/-- C `~x` on `int`. -/
def c_not (x : Int) : Int := to_int32 (4294967295 - to_uint32 x)

/-- C `abs(x)` on `int`. -/
def c_abs (x : Int) : Int := if x < 0 then -x else x

/-- Range of `int16_t`. -/
def is_int16 (x : Int) : Prop := -32768 ≤ x ∧ x ≤ 32767

instance (x : Int) : Decidable (is_int16 x) := by unfold is_int16; infer_instance

/-- The decoded image: only the coefficient vector takes part in the algorithms
(`coefficient_count` is its size). -/
structure AdvancedJPEGData where
  dct_coefficients : List Int
deriving DecidableEq, Repr

/-! ## CRC32 (source lines 44-56) -/

/-- The initialiser list of `crc32_table` exactly as written in the source: twelve values. -/
def crc32_table_init : List Nat :=
  [0x00000000, 0x77073096, 0xee0e612c, 0x990951ba, 0x076dc419, 0x706af48f,
   0xe963a535, 0x9e6495a3, 0x0edb8832, 0x79dcb8a4, 0xe0d5e91e, 0x97d2d988]

/-- Source: `crc32_table[i]` for `i < 256`: aggregate initialisation of `uint32_t[256]` from a
shorter initialiser list zero-fills the remaining entries. -/
def crc32_table (i : Nat) : Nat := crc32_table_init.getD i 0

/-- Source: `calculate_crc32(data, length)`. -/
def calculate_crc32 (data : List Nat) : Nat :=
  (data.foldl (fun crc b => crc32_table ((crc ^^^ b) &&& 0xFF) ^^^ (crc >>> 8)) 0xFFFFFFFF)
    ^^^ 0xFFFFFFFF

/-- One bit step of the reflected CRC-32 with polynomial `0xEDB88320` (from the spec's words). -/
def crc32_spec_bit (c : Nat) : Nat :=
  if c % 2 = 1 then (c >>> 1) ^^^ 0xEDB88320 else c >>> 1

/-- Entry `i` of the standard CRC-32 table: eight bit steps applied to `i`. -/
def crc32_spec_table (i : Nat) : Nat := crc32_spec_bit^[8] i

/-- Standard CRC-32, bit by bit: initial value `0xFFFFFFFF`, reflected polynomial
`0xEDB88320`, final XOR `0xFFFFFFFF` (from the spec's words). -/
def crc32_spec (data : List Nat) : Nat :=
  (data.foldl (fun crc b => crc32_spec_bit^[8] (crc ^^^ b)) 0xFFFFFFFF) ^^^ 0xFFFFFFFF

/-! ## Library code taken as parameters -/

/-- Library functions the source calls: `std::hash<std::string>` and, for a generator
`std::mt19937 gen(s)`, the position `mt19937 s k` that `std::shuffle` draws at its `k`-th
step (reduced into the admissible range by the shuffle itself). The third field is what the
implementation leaves behind where the language defines nothing: `undefined_int x` is the
32-bit pattern of an `int` whose mathematical value `x` is outside the range of `int`. -/
structure StdLib where
  hasher : String → Nat
  mt19937 : Nat → Nat → Nat
  undefined_int : Int → Nat

/-! ## Keyed byte-stream transform (source lines 494-520) -/

/-- Source: `uint32_t key = hasher(password);` -/
def derive_key (std : StdLib) (password : String) : Nat := std.hasher password % 4294967296

/-- Source: `(key >> (i % 4 * 8)) & 0xFF` -/
def key_byte (key i : Nat) : Nat := (key >>> (i % 4 * 8)) &&& 0xFF

/-- Source: `encrypt_message_aes(message, password)`: byte `i` is `message[i] ^ key_byte`, stored in a
`uint8_t`. -/
def encrypt_message_aes (std : StdLib) (message : List Nat) (password : String) : List Nat :=
  message.mapIdx (fun i b => (b ^^^ key_byte (derive_key std password) i) % 256)

/-- Source: `decrypt_message_aes(encrypted_data, password)`: byte `i` is `encrypted_data[i] ^ key_byte`,
stored in a `char`. -/
def decrypt_message_aes (std : StdLib) (encrypted_data : List Nat) (password : String) :
    List Nat :=
  encrypted_data.mapIdx (fun i b => (b ^^^ key_byte (derive_key std password) i) % 256)

/-! ## Embedding sequence (source lines 522-538) -/

/-- The loop of `std::shuffle(first, last, gen)` with `n` positions left to visit: position `k`
is exchanged with a drawn position among `k, ..., last-1`, then the walk moves on to position
`k+1`. `draw k` is the `k`-th draw; the list argument is the part from position `k` on. -/
def std_shuffle_from (draw : Nat → Nat) : Nat → Nat → List Nat → List Nat
  | 0, _, l => l
  | _ + 1, _, [] => []
  | n + 1, k, x :: xs =>
    match draw k % (xs.length + 1) with
    | 0 => x :: std_shuffle_from draw n (k + 1) xs
    | j + 1 => xs.getD j x :: std_shuffle_from draw n (k + 1) (xs.set j x)

/-- Source: `std::shuffle(sequence.begin(), sequence.end(), gen)`. -/
def std_shuffle (draw : Nat → Nat) (l : List Nat) : List Nat :=
  std_shuffle_from draw l.length 0 l

/-- The indices pushed by the first loop of `generate_secure_embedding_sequence`:
`0 ≤ i < total_coefficients` with `i % DCT_BLOCK_SIZE != 0`, in increasing order. -/
def ac_positions (total_coefficients : Nat) : List Nat :=
  (List.range total_coefficients).filter (fun i => i % DCT_BLOCK_SIZE != 0)

/-- Source: `generate_secure_embedding_sequence(total_coefficients, seed)`. -/
def generate_secure_embedding_sequence (std : StdLib) (total_coefficients : Nat)
    (seed : String) : List Nat :=
  std_shuffle (std.mt19937 (std.hasher seed)) (ac_positions total_coefficients)

/-! ## Bit embedding (source lines 540-592) -/

/-- The seed literal passed to the sequence generator by both walks. -/
def EMBED_SEED : String := "outguess_seed_v2"

/-- Loop state of `embed_bits_with_resistance`: the coefficient vector and the two counters. -/
structure EmbedState where
  coeffs : List Int
  bit_index : Nat
  byte_index : Nat
deriving DecidableEq, Repr

/-- The value computed from `coeff` by the resistance policy (source lines 563-577), before the
zero guard; the assignment to `int16_t& coeff` converts it with `to_int16`. -/
def modify_coeff (resistance_level : Int) (bit : Nat) (coeff : Int) : Int :=
  if resistance_level ≥ 7 then
    if bit ≠ 0 then
      to_int16 (if coeff > 0 then c_or (coeff + 1) 1 else c_or (coeff - 1) 1)
    else
      to_int16 (if coeff > 0 then c_and (coeff + 1) (c_not 1) else c_and (coeff - 1) (c_not 1))
  else
    if bit ≠ 0 then to_int16 (c_or coeff 1) else to_int16 (c_and coeff (c_not 1))

/-- The value left in `coeff` after one pass of the loop body (source lines 563-582):
`modify_coeff` followed by `if (coeff == 0) coeff = bit ? 1 : -1;`. -/
def embed_coeff (resistance_level : Int) (bit : Nat) (coeff : Int) : Int :=
  if modify_coeff resistance_level bit coeff = 0 then (if bit ≠ 0 then 1 else -1)
  else modify_coeff resistance_level bit coeff

/-- Source: `(data[byte_index] >> (7 - bit_index)) & 1` -/
def data_bit (data : List Nat) (byte_index bit_index : Nat) : Nat :=
  (data.getD byte_index 0 >>> (7 - bit_index)) &&& 1

/-- One iteration of `for (int coeff_idx : sequence)` in `embed_bits_with_resistance`. After the
`break` the remaining iterations are not run, which is the same as leaving the state as it is. -/
def embed_step (data : List Nat) (resistance_level : Int) (st : EmbedState) (coeff_idx : Nat) :
    EmbedState :=
  if st.byte_index ≥ data.length then st
  else if c_abs (st.coeffs.getD coeff_idx 0) < MIN_COEFF_VALUE then st
  else
    let bit := data_bit data st.byte_index st.bit_index
    let coeffs := st.coeffs.set coeff_idx (embed_coeff resistance_level bit (st.coeffs.getD coeff_idx 0))
    if st.bit_index + 1 ≥ 8 then ⟨coeffs, 0, st.byte_index + 1⟩
    else ⟨coeffs, st.bit_index + 1, st.byte_index⟩

/-- The state of `embed_bits_with_resistance` when its loop ends. -/
def embed_walk (std : StdLib) (jpeg_data : AdvancedJPEGData) (data : List Nat)
    (resistance_level : Int) : EmbedState :=
  (generate_secure_embedding_sequence std jpeg_data.dct_coefficients.length EMBED_SEED).foldl
    (embed_step data resistance_level) ⟨jpeg_data.dct_coefficients, 0, 0⟩

/-- Source: `embed_bits_with_resistance(jpeg_data, data, resistance_level)`: the returned flag
`byte_index >= data.size()` and the image as the call leaves it. -/
def embed_bits_with_resistance (std : StdLib) (jpeg_data : AdvancedJPEGData) (data : List Nat)
    (resistance_level : Int) : Bool × AdvancedJPEGData :=
  let st := embed_walk std jpeg_data data resistance_level
  (decide (st.byte_index ≥ data.length), ⟨st.coeffs⟩)

/-! ## Bit extraction (source lines 594-622) -/

/-- Loop state of `extract_bits_with_verification`. -/
structure ExtractState where
  result : List Nat
  bit_index : Nat
  current_byte : Nat
deriving DecidableEq, Repr

/-- One iteration of `for (int coeff_idx : sequence)` in `extract_bits_with_verification`;
`current_byte` is a `uint8_t`. -/
def extract_step (coeffs : List Int) (expected_size : Nat) (st : ExtractState) (coeff_idx : Nat) :
    ExtractState :=
  if st.result.length ≥ expected_size then st
  else if c_abs (coeffs.getD coeff_idx 0) < MIN_COEFF_VALUE then st
  else
    let bit := to_uint32 (c_and (coeffs.getD coeff_idx 0) 1) % 256
    let current_byte := (st.current_byte ||| (bit <<< (7 - st.bit_index))) % 256
    if st.bit_index + 1 ≥ 8 then ⟨st.result ++ [current_byte], 0, 0⟩
    else ⟨st.result, st.bit_index + 1, current_byte⟩

/-- Source: `extract_bits_with_verification(jpeg_data, expected_size)`. -/
def extract_bits_with_verification (std : StdLib) (jpeg_data : AdvancedJPEGData)
    (expected_size : Nat) : List Nat :=
  ((generate_secure_embedding_sequence std jpeg_data.dct_coefficients.length EMBED_SEED).foldl
    (extract_step jpeg_data.dct_coefficients expected_size) ⟨[], 0, 0⟩).result

/-- Source: `verify_embedding_integrity(jpeg_data, original_data)` (source lines 646-663). -/
def verify_embedding_integrity (std : StdLib) (jpeg_data : AdvancedJPEGData)
    (original_data : List Nat) : Bool :=
  let extracted_data := extract_bits_with_verification std jpeg_data original_data.length
  if extracted_data.length ≠ original_data.length then false
  else
    let check_bytes := min 16 original_data.length
    (List.range check_bytes).all (fun i => extracted_data.getD i 0 == original_data.getD i 0)

/-! ## Eligibility (spec, data model) -/

/-- Eligibility predicate in the spec's words: a coefficient at index `i` is eligible iff
`i mod 64 ≠ 0` and `|value| ≥ 2`. -/
def eligible (coeffs : List Int) (i : Nat) : Prop := i % 64 ≠ 0 ∧ 2 ≤ |coeffs.getD i 0|

instance (coeffs : List Int) (i : Nat) : Decidable (eligible coeffs i) := by
  unfold eligible; infer_instance

/-- Number of eligible coefficients of a buffer, in the spec's words. -/
def eligible_count (coeffs : List Int) : Nat :=
  ((List.range coeffs.length).filter (fun i => decide (eligible coeffs i))).length

/-! ## Auxiliary notions used in the proofs -/

/-- The value of `current_byte` once the first `bit_index` bits of byte `d` have been
accumulated, most significant bit first. -/
def byte_head (d bit_index : Nat) : Nat := (d >>> (8 - bit_index)) <<< (8 - bit_index)

/-- The positions of a walk that pass the live check `abs(coeff) >= MIN_COEFF_VALUE`. -/
def walk_eligible (coeffs : List Int) (seq : List Nat) : List Nat :=
  seq.filter (fun i => !decide (c_abs (coeffs.getD i 0) < MIN_COEFF_VALUE))

/-- Number of bits consumed by an embedding walk: `8 * byte_index + bit_index`. -/
def bits_written (st : EmbedState) : Nat := 8 * st.byte_index + st.bit_index

/-- Relation kept between the state of an embedding walk and the state of an extraction walk
over the same positions: same bit counter, the bytes completed so far, and the bits of the
current byte accumulated so far. -/
def walk_inv (data : List Nat) (st : EmbedState) (est : ExtractState) : Prop :=
  est.bit_index = st.bit_index ∧ st.bit_index < 8 ∧ st.byte_index ≤ data.length ∧
  est.result = data.take st.byte_index ∧
  est.current_byte = byte_head (data.getD st.byte_index 0) st.bit_index

/-- A coefficient value whose rewriting keeps it eligible whatever the bit: a 16-bit value,
and at resistance level below 7 not the value `-2`. -/
def write_ok (resistance_level : Int) (v : Int) : Prop :=
  is_int16 v ∧ (resistance_level ≥ 7 ∨ v ≠ -2)

/-! ## Arithmetic on `double`, and `int` results out of range -/

/-- Rounding of a rational to the nearest integer, a tie going to the even one. -/
def round_half_even (y : ℚ) : Int :=
  if y - ⌊y⌋ < 1 / 2 then ⌊y⌋
  else if 1 / 2 < y - ⌊y⌋ then ⌊y⌋ + 1
  else if ⌊y⌋ % 2 = 0 then ⌊y⌋ else ⌊y⌋ + 1

/-- Floor of the binary logarithm of `n`, for `n ≥ 1`, by halving; `fuel` bounds the number of
halvings. -/
def log2_fuel : Nat → Nat → Nat
  | 0, _ => 0
  | fuel + 1, n => if n < 2 then 0 else log2_fuel fuel (n / 2) + 1

/-- The binary exponent of a positive rational `x`: the integer `e` with
`2^e ≤ x < 2^(e+1)`. -/
def binary_exponent (x : ℚ) : Int :=
  if (2 : ℚ) ^ ((log2_fuel x.num.toNat x.num.toNat : Int) - (log2_fuel x.den x.den : Int)) ≤ x
  then (log2_fuel x.num.toNat x.num.toNat : Int) - (log2_fuel x.den x.den : Int)
  else (log2_fuel x.num.toNat x.num.toNat : Int) - (log2_fuel x.den x.den : Int) - 1

/-- The binary64 value nearest to a positive rational `x`, ties to even: with `e` the exponent
of `x` (`2^e ≤ x < 2^(e+1)`), the multiple of `2^(e-52)` nearest to `x`. -/
def round_pos (x : ℚ) : ℚ :=
  (round_half_even (x / 2 ^ (binary_exponent x - 52)) : ℚ) * 2 ^ (binary_exponent x - 52)

/-- The result of a `double` operation whose exact result is `x`: round to nearest, ties to
even. -/
def round_double (x : ℚ) : ℚ :=
  if 0 < x then round_pos x else if x < 0 then - round_pos (-x) else 0

/-- The value of an `int` expression whose mathematical value is `x`: `x` itself within the
range of `int`, and outside it whatever the implementation leaves. -/
def int_result (std : StdLib) (x : Int) : Int :=
  if -2147483648 ≤ x ∧ x ≤ 2147483647 then x
  else to_int32 (std.undefined_int x % 4294967296)

/-- C conversion `(int)x` of a `double`: truncation toward zero, as an `int`. -/
def trunc_to_int (std : StdLib) (x : ℚ) : Int := int_result std (Int.tdiv x.num x.den)

/-! ## Capacity estimate (source lines 306-336) -/

/-- The counting loop of `outguess_get_max_message_size` (source lines 319-324). -/
def usable_coefficients (jpeg_data : AdvancedJPEGData) : Nat :=
  ((List.range jpeg_data.dct_coefficients.length).filter (fun i =>
    decide (c_abs (jpeg_data.dct_coefficients.getD i 0) ≥ MIN_COEFF_VALUE) &&
      (i % DCT_BLOCK_SIZE != 0))).length

/-- The `double` literal `0.08`. -/
def double_0_08 : ℚ := round_double (8 / 100)

/-- Source: `1.0 - (compression_resistance - 1) * 0.08`: the difference is an `int`, converted
to `double` without error; the product and the subtraction are rounded. -/
def resistance_factor (std : StdLib) (compression_resistance : Int) : ℚ :=
  round_double
    (1 - round_double (((int_result std (compression_resistance - 1) : Int) : ℚ) * double_0_08))

/-- Source: `quality / 100.0` -/
def quality_factor (quality : Int) : ℚ := round_double ((quality : ℚ) / 100)

/-- Source: `usable_coefficients * resistance_factor * quality_factor`. `usable_coefficients`
is an `int`, converted to `double` without error; both products are rounded, the left one
first. -/
def available_double (std : StdLib) (jpeg_data : AdvancedJPEGData)
    (compression_resistance quality : Int) : ℚ :=
  round_double (round_double ((usable_coefficients jpeg_data : ℚ) *
    resistance_factor std compression_resistance) * quality_factor quality)

/-- Source: `outguess_get_max_message_size` on the decoded image. `/` on `int` truncates toward
zero. -/
def outguess_get_max_message_size (std : StdLib) (jpeg_data : AdvancedJPEGData)
    (compression_resistance quality : Int) : Int :=
  let available_bits : Int :=
    trunc_to_int std (available_double std jpeg_data compression_resistance quality)
  let max_bytes : Int := Int.tdiv available_bits 8 - 8
  max 0 max_bytes

/-! ## Public records (outguess.h) -/

/-- The enumeration `outguess_error_t` of outguess.h. -/
inductive outguess_error_t where
  | OUTGUESS_SUCCESS
  | OUTGUESS_ERROR_INVALID_INPUT
  | OUTGUESS_ERROR_FILE_NOT_FOUND
  | OUTGUESS_ERROR_INVALID_JPEG
  | OUTGUESS_ERROR_MESSAGE_TOO_LARGE
  | OUTGUESS_ERROR_COMPRESSION_FAILED
  | OUTGUESS_ERROR_EXTRACTION_FAILED
  | OUTGUESS_ERROR_MEMORY_ALLOCATION
  | OUTGUESS_ERROR_CRYPTO_FAILED
deriving DecidableEq, Repr

open outguess_error_t

/-- The record `outguess_config_t` of outguess.h; `password` may be a null pointer. -/
structure outguess_config_t where
  password : Option String
  compression_resistance : Int
  quality : Int
  verbose : Bool
  max_message_size : Int
deriving DecidableEq, Repr

/-- The fields of `outguess_embed_result_t` that do not depend on file sizes. -/
structure outguess_embed_result_t where
  message_size : Nat
  error_code : outguess_error_t
  error_message : Option String
deriving DecidableEq, Repr

/-- The record `outguess_extract_result_t`; `message` is a C string (null until it is set). -/
structure outguess_extract_result_t where
  message : Option (List Nat)
  message_size : Nat
  verified : Bool
  error_code : outguess_error_t
  error_message : Option String
deriving DecidableEq, Repr

/-- Source: `config ? config->compression_resistance : 5` -/
def config_resistance (config : Option outguess_config_t) : Int :=
  match config with
  | some c => c.compression_resistance
  | none => 5

/-- Source: `config ? config->quality : 85` -/
def config_quality (config : Option outguess_config_t) : Int :=
  match config with
  | some c => c.quality
  | none => 85

/-- The password when `config && config->password`. -/
def config_password (config : Option outguess_config_t) : Option String :=
  match config with
  | some c => c.password
  | none => none

/-- The four bytes pushed for a `uint32_t` value, most significant first
(source lines 114-117 and 120-123). -/
def push_be32 (v : Nat) : List Nat :=
  [(v >>> 24) &&& 0xFF, (v >>> 16) &&& 0xFF, (v >>> 8) &&& 0xFF, v &&& 0xFF]

/-- Source: `(h[i] << 24) | (h[i+1] << 16) | (h[i+2] << 8) | h[i+3]` converted to `uint32_t`
(source lines 201-206). -/
def parse_be32 (h : List Nat) (i : Nat) : Nat :=
  ((h.getD i 0 <<< 24) ||| (h.getD (i + 1) 0 <<< 16) ||| (h.getD (i + 2) 0 <<< 8) |||
    h.getD (i + 3) 0) % 4294967296

/-- The framed data `full_data` built by `outguess_embed_message` (source lines 108-126) from
the possibly transformed `message_data`. -/
def frame_message (message_data : List Nat) : List Nat :=
  push_be32 (message_data.length % 4294967296) ++ push_be32 (calculate_crc32 message_data)
    ++ message_data

/-- Source: `strdup(s.c_str())`: the bytes of `s` before its first zero byte. -/
def c_str (s : List Nat) : List Nat := s.takeWhile (fun b => b != 0)

/-! ## Embedding and extraction of a message (source lines 58-264) -/

/-- Source: `message_data` of `outguess_embed_message` (source lines 100-106): the transformed message
when a password is configured, the bytes of the message otherwise. -/
def prepare_message_data (std : StdLib) (message : List Nat)
    (config : Option outguess_config_t) : List Nat :=
  match config_password config with
  | some password => encrypt_message_aes std message password
  | none => message

/-- Source: `final_message` of `outguess_extract_message` (source lines 234-247). -/
def recover_message (std : StdLib) (message_data : List Nat)
    (config : Option outguess_config_t) : List Nat :=
  match config_password config with
  | some password => decrypt_message_aes std message_data password
  | none => message_data

/-- A failed embed result: the record is zeroed, then the code and the message are set. -/
def embed_failure (code : outguess_error_t) (msg : String) : outguess_embed_result_t :=
  ⟨0, code, some msg⟩

/-- Source: `outguess_embed_message` after the image has been loaded into `jpeg_data`. `message` is the
C string argument, `save_ok` the result of `save_jpeg_advanced`. Returns the result record and
the in-memory image when the call returns; with `OUTGUESS_SUCCESS` that image is the one written
to `output_path`. -/
def outguess_embed_message (std : StdLib) (save_ok : Bool) (jpeg_data : AdvancedJPEGData)
    (message : List Nat) (config : Option outguess_config_t) :
    outguess_embed_result_t × AdvancedJPEGData :=
  let max_size := outguess_get_max_message_size std jpeg_data (config_resistance config)
    (config_quality config)
  if (message.length : Int) > max_size then
    (embed_failure OUTGUESS_ERROR_MESSAGE_TOO_LARGE "Message too large for image capacity",
      jpeg_data)
  else
    let message_data := prepare_message_data std message config
    let full_data := frame_message message_data
    let resistance_level := config_resistance config
    let embedded := embed_bits_with_resistance std jpeg_data full_data resistance_level
    if !embedded.1 then
      (embed_failure OUTGUESS_ERROR_COMPRESSION_FAILED
        "Failed to embed message with required resistance", embedded.2)
    else if !verify_embedding_integrity std embedded.2 full_data then
      (embed_failure OUTGUESS_ERROR_COMPRESSION_FAILED "Embedding integrity verification failed",
        embedded.2)
    else if !save_ok then
      (embed_failure OUTGUESS_ERROR_COMPRESSION_FAILED "Failed to save output image", embedded.2)
    else
      (⟨message.length, OUTGUESS_SUCCESS, none⟩, embedded.2)

/-- A failed extract result: the record is zeroed, then the code and the message are set. -/
def extract_failure (code : outguess_error_t) (msg : String) : outguess_extract_result_t :=
  ⟨none, 0, false, code, some msg⟩

/-- Source: `outguess_extract_message` after the image has been loaded into `jpeg_data`. The inner
`catch (...)` around the call of `decrypt_message_aes` has nothing to catch, since that function
raises nothing. -/
def outguess_extract_message (std : StdLib) (jpeg_data : AdvancedJPEGData)
    (config : Option outguess_config_t) : outguess_extract_result_t :=
  let header_data := extract_bits_with_verification std jpeg_data 8
  if header_data.length < 8 then
    extract_failure OUTGUESS_ERROR_EXTRACTION_FAILED "Failed to extract message header"
  else
    let message_length := parse_be32 header_data 0
    let expected_crc := parse_be32 header_data 4
    if message_length > 10000000 then
      extract_failure OUTGUESS_ERROR_EXTRACTION_FAILED "Invalid message length detected"
    else
      let full_data := extract_bits_with_verification std jpeg_data (8 + message_length)
      if full_data.length < 8 + message_length then
        extract_failure OUTGUESS_ERROR_EXTRACTION_FAILED "Failed to extract complete message"
      else
        let message_data := full_data.drop 8
        let actual_crc := calculate_crc32 message_data
        if actual_crc ≠ expected_crc then
          extract_failure OUTGUESS_ERROR_EXTRACTION_FAILED "Message integrity check failed"
        else
          let final_message := recover_message std message_data config
          ⟨some (c_str final_message), final_message.length, true, OUTGUESS_SUCCESS, none⟩

/-! ## Concrete inputs used in the examples -/

/-- A library whose hash is constantly `0` and whose generator always draws `0`: the shuffle
then leaves the sequence in increasing order. An `int` result out of range is `INT_MIN`, the
pattern `0x80000000` that the conversion instruction of x86-64 delivers. -/
def plain_std : StdLib := ⟨fun _ => 0, fun _ _ => 0, fun _ => 2147483648⟩

/-- A buffer of `n` coefficients: `100` at every DC index (multiple of 64), `special` at index
`p` when `p` is an AC index, and `3` at every other AC index. -/
def sample_buffer (n p : Nat) (special : Int) : AdvancedJPEGData :=
  ⟨(List.range n).map (fun i => if i % 64 = 0 then 100 else if i = p then special else 3)⟩

/-- A configuration without password. -/
def plain_config (resistance quality : Int) : Option outguess_config_t :=
  some ⟨none, resistance, quality, false, 0⟩

/-- A configuration with a password. -/
def password_config (password : String) (resistance quality : Int) :
    Option outguess_config_t :=
  some ⟨some password, resistance, quality, false, 0⟩

/-- A library that tells the password `"secret123"` (key `0x11223344`) from every other
string (key `0x55667705`) and whose generator always draws `0`. -/
def keyed_std : StdLib :=
  ⟨fun s => if s = "secret123" then 0x11223344 else 0x55667705, fun _ _ => 0,
    fun _ => 2147483648⟩

/-- The stream with the bit at logical position `k` flipped: bytes in order, most significant
bit of each byte first. -/
def flip_bit (stream : List Nat) (k : Nat) : List Nat :=
  stream.set (k / 8) (stream.getD (k / 8) 0 ^^^ (1 <<< (7 - k % 8)))

/-- What extraction with another password recovers from a message `P` that was transformed
with key `key1`: `P` XOR-ed with the keystream of `key1 XOR key2`. -/
def garbled_message (P : List Nat) (key1 key2 : Nat) : List Nat :=
  P.mapIdx (fun i b => b ^^^ key_byte (key1 ^^^ key2) i)

/-! ## Notions from the spec used to state the framing and the short read -/

/-- The capacity formula in the spec's words, with exact arithmetic over the rationals:
`max(0, floor(E × (1 − (r − 1) × 0.08) × (q / 100) / 8) − 8)`. -/
def capacity_formula (E : Nat) (r q : Int) : Int :=
  max 0 (⌊(E : ℚ) * (1 - ((r : ℚ) - 1) * (8 / 100)) * ((q : ℚ) / 100) / 8⌋ - 8)

/-- The 4-byte big-endian encoding of a value below `2^32`, in the spec's words: the most
significant byte first. -/
def be32_spec (v : Nat) : List Nat :=
  [v / 16777216 % 256, v / 65536 % 256, v / 256 % 256, v % 256]

/-- The least significant bit of a coefficient in two's complement: its residue modulo 2. -/
def coeff_lsb (v : Int) : Nat := (v % 2).toNat

/-- The bytes assembled from a list of bits, eight at a time, the first bit of each group being
the most significant; an incomplete last group gives no byte. -/
def pack_bytes : List Nat → List Nat
  | b0 :: b1 :: b2 :: b3 :: b4 :: b5 :: b6 :: b7 :: rest =>
    (128 * b0 + 64 * b1 + 32 * b2 + 16 * b3 + 8 * b4 + 4 * b5 + 2 * b6 + b7) :: pack_bytes rest
  | _ => []

/-- The least significant bits of the eligible coefficients of a buffer, in the order of the
embedding sequence. -/
def eligible_bits (std : StdLib) (jpeg_data : AdvancedJPEGData) : List Nat :=
  (walk_eligible jpeg_data.dct_coefficients
    (generate_secure_embedding_sequence std jpeg_data.dct_coefficients.length EMBED_SEED)).map
    (fun i => coeff_lsb (jpeg_data.dct_coefficients.getD i 0))

/-- One iteration of an extraction walk seen from the bits it reads: the loop body of
`extract_bits_with_verification` at an eligible coefficient whose least significant bit is
`bit`. -/
def read_step (expected_size : Nat) (st : ExtractState) (bit : Nat) : ExtractState :=
  if st.result.length ≥ expected_size then st
  else if st.bit_index + 1 ≥ 8 then
    ⟨st.result ++ [(st.current_byte ||| (bit <<< (7 - st.bit_index))) % 256], 0, 0⟩
  else ⟨st.result, st.bit_index + 1, (st.current_byte ||| (bit <<< (7 - st.bit_index))) % 256⟩

/-! ## Detection heuristic (source lines 266-304 and 624-644) -/

/-- Loop state of the LSB check of `outguess_has_hidden_data`: `lsb_distribution[0]`,
`lsb_distribution[1]` and `total_checked`. -/
structure LsbState where
  lsb0 : Nat
  lsb1 : Nat
  total_checked : Nat
deriving DecidableEq, Repr

/-- One iteration of the loop at source lines 281-287. Once `total_checked < 5000` fails the
loop has ended, which is the same as leaving the state as it is. -/
def lsb_check_step (coeffs : List Int) (st : LsbState) (i : Nat) : LsbState :=
  if ¬ st.total_checked < 5000 then st
  else if c_abs (coeffs.getD i 0) ≥ MIN_COEFF_VALUE ∧ i % DCT_BLOCK_SIZE ≠ 0 then
    if c_and (coeffs.getD i 0) 1 = 0 then ⟨st.lsb0 + 1, st.lsb1, st.total_checked + 1⟩
    else ⟨st.lsb0, st.lsb1 + 1, st.total_checked + 1⟩
  else st

/-- The state of the LSB check when its loop ends. -/
def lsb_check (jpeg_data : AdvancedJPEGData) : LsbState :=
  (List.range jpeg_data.dct_coefficients.length).foldl
    (lsb_check_step jpeg_data.dct_coefficients) ⟨0, 0, 0⟩

/-- The keys of the `std::map` histogram in iteration order: the distinct coefficient values,
increasing. -/
def histogram_keys (jpeg_data : AdvancedJPEGData) : List Int :=
  (jpeg_data.dct_coefficients.dedup).insertionSort (fun a b => a ≤ b)

/-- Source: `pair.second / total` for the key `v`. -/
def histogram_probability (jpeg_data : AdvancedJPEGData) (v : Int) : ℚ :=
  (jpeg_data.dct_coefficients.count v : ℚ) / (jpeg_data.dct_coefficients.length : ℚ)

/-- Source: `calculate_image_entropy(jpeg_data)`. The library function `log2` is a parameter;
the arithmetic on `double` is taken exactly. -/
def calculate_image_entropy (log2 : ℚ → ℚ) (jpeg_data : AdvancedJPEGData) : ℚ :=
  (histogram_keys jpeg_data).foldl (fun entropy v =>
    if histogram_probability jpeg_data v > 0 then
      entropy - histogram_probability jpeg_data v * log2 (histogram_probability jpeg_data v)
    else entropy) 0

/-- The two functions that the unqualified name `abs` can denote at source line 292, where its
argument is a `double`. The source includes `<cstdlib>` and `<cmath>` and has no using
directive: with libc++ the global namespace then holds the floating-point overloads and
`double abs(double)` is chosen; with libstdc++ only `int abs(int)` is visible there and the
argument is converted to `int` first. -/
inductive abs_overload where
  | floating
  | integer
deriving DecidableEq, Repr

/-- The value of `abs(x)` for a `double` `x`, as a `double`, under either overload. -/
def abs_of_double (std : StdLib) (overload : abs_overload) (x : ℚ) : ℚ :=
  match overload with
  | abs_overload.floating => |x|
  | abs_overload.integer => ((c_abs (trunc_to_int std x) : Int) : ℚ)

/-- Source: the constant `0.1`, the `double` nearest to 1/10. -/
def double_0_1 : ℚ := round_double (1 / 10)

/-- Source: `lsb_ratio - 0.5` with `lsb_ratio = (double)lsb_distribution[0] / total_checked`,
for the counts `lsb0` and `total_checked`; the division and the subtraction are rounded. -/
def lsb_deviation (lsb0 total_checked : Nat) : ℚ :=
  round_double (round_double ((lsb0 : ℚ) / (total_checked : ℚ)) - 1 / 2)

/-- The number of votes counted in `suspicious_patterns` when `outguess_has_hidden_data`
returns. The entropy is compared with 7/10: a `double` exceeds the constant `0.7`, the `double`
next below 7/10, exactly when it exceeds 7/10. -/
def suspicious_patterns (std : StdLib) (overload : abs_overload) (log2 : ℚ → ℚ)
    (jpeg_data : AdvancedJPEGData) : Nat :=
  (if (lsb_check jpeg_data).total_checked > 100 then
    (if abs_of_double std overload
        (lsb_deviation (lsb_check jpeg_data).lsb0 (lsb_check jpeg_data).total_checked)
        > double_0_1 then 1 else 0)
   else 0) +
  (if calculate_image_entropy log2 jpeg_data > 7 / 10 then 1 else 0)

/-- Source: `outguess_has_hidden_data` after the image has been loaded into `jpeg_data`. -/
def outguess_has_hidden_data (std : StdLib) (overload : abs_overload) (log2 : ℚ → ℚ)
    (jpeg_data : AdvancedJPEGData) : Bool :=
  decide (suspicious_patterns std overload log2 jpeg_data ≥ 2)

/-- The sample of the LSB check in the spec's words: the first 5000 eligible coefficients in
buffer order (all of them when there are fewer). -/
def lsb_sample (coeffs : List Int) : List Nat :=
  ((List.range coeffs.length).filter (fun i => decide (eligible coeffs i))).take 5000

/-- Number of members of the sample whose least significant bit is 0. -/
def lsb_sample_zeros (coeffs : List Int) : Nat :=
  ((lsb_sample coeffs).filter (fun i => coeff_lsb (coeffs.getD i 0) == 0)).length

/-- The Shannon entropy of the histogram of coefficient values, in the spec's words: minus the
sum, over the distinct values `v` of the buffer, of `p log2 p`, where `p` is the number of
occurrences of `v` divided by the number of coefficients. -/
def shannon_entropy (log2 : ℚ → ℚ) (coeffs : List Int) : ℚ :=
  - Finset.sum coeffs.toFinset (fun v =>
      ((coeffs.count v : ℚ) / (coeffs.length : ℚ)) *
        log2 ((coeffs.count v : ℚ) / (coeffs.length : ℚ)))

/-- A buffer of 130 coefficients, `2` at the even indices and `4` at the odd ones: every
eligible coefficient has least significant bit 0 and each of the two values has frequency
`1/2`. -/
def two_level_buffer : AdvancedJPEGData :=
  ⟨(List.range 130).map (fun i => if i % 2 = 0 then 2 else 4)⟩

/-! ## Compression-resistance self-test (source lines 338-390) -/

/-- Source: `noise * 100` with `noise = (1.0 - compression_factor) * 2.0` and
`compression_factor = compression_quality / 100.0`, each operation rounded. -/
def noise_threshold (compression_quality : Int) : ℚ :=
  round_double (round_double
    (round_double (1 - round_double ((compression_quality : ℚ) / 100)) * 2) * 100)

/-- One iteration of the loop at source lines 368-376; the state is the coefficients rewritten
so far and the number of calls of `rand()` made so far, `rand k` being the value of call `k`. -/
def perturb_step (rand : Nat → Nat) (compression_quality : Int) (acc : List Int × Nat)
    (coeff : Int) : List Int × Nat :=
  if c_abs coeff < MIN_COEFF_VALUE then (acc.1 ++ [coeff], acc.2)
  else if ((rand acc.2 % 100 : Nat) : ℚ) < noise_threshold compression_quality then
    (acc.1 ++ [to_int16 (coeff + (((rand (acc.2 + 1) % 3 : Nat) : Int) - 1))], acc.2 + 2)
  else (acc.1 ++ [coeff], acc.2 + 1)

/-- The buffer left by the loop that simulates compression (source lines 366-376). -/
def simulate_compression (rand : Nat → Nat) (compression_quality : Int)
    (jpeg_data : AdvancedJPEGData) : AdvancedJPEGData :=
  ⟨(jpeg_data.dct_coefficients.foldl (perturb_step rand compression_quality) ([], 0)).1⟩

/-- Source: `outguess_test_compression_resistance` after the image has been loaded. The
perturbed buffer of `simulate_compression` is computed by the source and then not used: the
value returned comes from the thresholds on `compression_quality` alone. -/
def outguess_test_compression_resistance (std : StdLib) (jpeg_data : AdvancedJPEGData)
    (compression_quality : Int) (password : Option String) : Bool :=
  let extract_result := outguess_extract_message std jpeg_data (some ⟨password, 0, 0, false, 0⟩)
  if extract_result.error_code ≠ OUTGUESS_SUCCESS then false
  else
    let original_message := extract_result.message.getD []
    if compression_quality ≥ 80 then true
    else if compression_quality ≥ 60 then decide (original_message.length < 1000)
    else if compression_quality ≥ 40 then decide (original_message.length < 500)
    else false

/-- The buffer left by embedding the message `"Hi"` without password, at resistance level 1 and
quality 100, in a buffer of 90 coefficients whose AC values are `3`, one of them `7`. -/
def stego_sample : AdvancedJPEGData :=
  (outguess_embed_message plain_std true (sample_buffer 90 5 7) [72, 105] (plain_config 1 100)).2

/-- A buffer of 12 coefficients that holds both ends of the 16-bit range several times, next to
small eligible values. -/
def extreme_buffer : AdvancedJPEGData :=
  ⟨[100, 32767, -32768, 32767, -32768, 2, -2, 3, -3, 32767, -32768, 5]⟩

end Outguess

namespace Outguess

/-! ## CRC32 -/

/-- C2 (code defect). On the one-byte input `"a"` the table-driven `calculate_crc32`, with
`crc32_table` as the source initialises it, returns `0xFF000000` whereas the standard CRC-32 is
`0xE8B7BE43`; table entry 12 is `0` whereas the standard entry is `0x09B64C2B`. The twelve
entries that the source does write are the standard ones. -/
theorem C2_crc32_table_truncated :
    calculate_crc32 [0x61] = 0xFF000000 ∧ crc32_spec [0x61] = 0xE8B7BE43 ∧
    crc32_table 12 = 0 ∧ crc32_spec_table 12 = 0x09B64C2B ∧
    (∀ i, i < 12 → crc32_table i = crc32_spec_table i) := by
  refine ⟨by decide, by decide, by decide, by decide, ?_⟩
  decide

/-! ## Embedding sequence -/

theorem getD_cons_set_perm (x : Nat) : ∀ (xs : List Nat) (j : Nat), j < xs.length →
    (xs.getD j x :: xs.set j x).Perm (x :: xs)
  | [], _, h => by simp at h
  | y :: ys, 0, _ => by
    simpa using List.Perm.swap x y ys
  | y :: ys, j + 1, h => by
    have ih := getD_cons_set_perm x ys j (by simpa using h)
    simp only [List.getD_cons_succ, List.set_cons_succ]
    exact ((List.Perm.swap y (ys.getD j x) (ys.set j x)).trans (ih.cons y)).trans
      (List.Perm.swap x y ys)

theorem std_shuffle_from_perm (draw : Nat → Nat) :
    ∀ (n k : Nat) (l : List Nat), (std_shuffle_from draw n k l).Perm l
  | 0, _, l => by simp [std_shuffle_from]
  | _ + 1, _, [] => by simp [std_shuffle_from]
  | n + 1, k, x :: xs => by
    rw [std_shuffle_from]
    split
    · exact (std_shuffle_from_perm draw n (k + 1) xs).cons x
    · rename_i j hj
      have hlt : j < xs.length := by
        have := Nat.mod_lt (draw k) (Nat.succ_pos xs.length)
        rw [hj] at this
        omega
      exact ((std_shuffle_from_perm draw n (k + 1) (xs.set j x)).cons _).trans
        (getD_cons_set_perm x xs j hlt)

theorem sequence_perm (std : StdLib) (n : Nat) (seed : String) :
    (generate_secure_embedding_sequence std n seed).Perm (ac_positions n) :=
  std_shuffle_from_perm _ _ _ _

theorem mem_ac_positions (n i : Nat) : i ∈ ac_positions n ↔ i < n ∧ i % 64 ≠ 0 := by
  simp [ac_positions, DCT_BLOCK_SIZE]

theorem ac_positions_nodup (n : Nat) : (ac_positions n).Nodup :=
  (List.nodup_range n).filter _

theorem ac_positions_length (n : Nat) : (ac_positions n).length = n - (n + 63) / 64 := by
  induction n with
  | zero => rfl
  | succ m ih =>
    have hstep : (ac_positions (m + 1)).length =
        (ac_positions m).length + (if m % 64 = 0 then 0 else 1) := by
      unfold ac_positions
      rw [List.range_succ, List.filter_append, List.length_append]
      by_cases h : m % 64 = 0 <;> simp [DCT_BLOCK_SIZE, h]
    rw [hstep, ih]
    split <;> omega

theorem sequence_nodup (std : StdLib) (n : Nat) (seed : String) :
    (generate_secure_embedding_sequence std n seed).Nodup :=
  (sequence_perm std n seed).nodup_iff.mpr (ac_positions_nodup n)

theorem mem_sequence (std : StdLib) (n : Nat) (seed : String) (i : Nat) :
    i ∈ generate_secure_embedding_sequence std n seed ↔ i < n ∧ i % 64 ≠ 0 :=
  (sequence_perm std n seed).mem_iff.trans (mem_ac_positions n i)

/-- C4. For every `N` and every random source, `generate_secure_embedding_sequence(N, seed)` is
a permutation of the indices `i < N` with `i mod 64 ≠ 0`: it has no repeated entry, its members
are exactly those indices (so no multiple of 64 and no index `≥ N`), each occurs exactly once,
and its length is `N - ceil(N/64)`. -/
theorem C4_sequence_is_permutation (std : StdLib) (N : Nat) (seed : String) :
    (generate_secure_embedding_sequence std N seed).Perm
        ((List.range N).filter (fun i => i % 64 != 0)) ∧
    (generate_secure_embedding_sequence std N seed).Nodup ∧
    (∀ i, i ∈ generate_secure_embedding_sequence std N seed ↔ i < N ∧ i % 64 ≠ 0) ∧
    (∀ i, i < N → i % 64 ≠ 0 → (generate_secure_embedding_sequence std N seed).count i = 1) ∧
    (generate_secure_embedding_sequence std N seed).length = N - (N + 63) / 64 := by
  refine ⟨sequence_perm std N seed, sequence_nodup std N seed, mem_sequence std N seed, ?_, ?_⟩
  · intro i hi h64
    exact List.count_eq_one_of_mem (sequence_nodup std N seed)
      ((mem_sequence std N seed i).mpr ⟨hi, h64⟩)
  · rw [(sequence_perm std N seed).length_eq, ac_positions_length]

/-! ## Keyed byte-stream transform -/

theorem key_byte_lt (key i : Nat) : key_byte key i < 256 := by
  unfold key_byte
  have h := Nat.and_pow_two_sub_one_eq_mod (key >>> (i % 4 * 8)) 8
  norm_num at h
  rw [h]
  exact Nat.mod_lt _ (by norm_num)

theorem xor_byte_lt {b k : Nat} (hb : b < 256) (hk : k < 256) : b ^^^ k < 256 :=
  Nat.xor_lt_two_pow (n := 8) hb hk

theorem encrypt_length (std : StdLib) (m : List Nat) (pw : String) :
    (encrypt_message_aes std m pw).length = m.length := by
  simp [encrypt_message_aes]

theorem decrypt_length (std : StdLib) (m : List Nat) (pw : String) :
    (decrypt_message_aes std m pw).length = m.length := by
  simp [decrypt_message_aes]

theorem encrypt_getD (std : StdLib) (m : List Nat) (pw : String) (hm : ∀ b ∈ m, b < 256)
    (i : Nat) (hi : i < m.length) :
    (encrypt_message_aes std m pw).getD i 0 = m.getD i 0 ^^^ key_byte (derive_key std pw) i := by
  have h1 : i < (encrypt_message_aes std m pw).length := by rw [encrypt_length]; exact hi
  rw [List.getD_eq_getElem _ _ h1, List.getD_eq_getElem _ _ hi]
  simp only [encrypt_message_aes, List.getElem_mapIdx]
  exact Nat.mod_eq_of_lt (xor_byte_lt (hm _ (List.getElem_mem _)) (key_byte_lt _ _))

theorem decrypt_getD (std : StdLib) (m : List Nat) (pw : String) (hm : ∀ b ∈ m, b < 256)
    (i : Nat) (hi : i < m.length) :
    (decrypt_message_aes std m pw).getD i 0 = m.getD i 0 ^^^ key_byte (derive_key std pw) i :=
  encrypt_getD std m pw hm i hi

theorem encrypt_bytes (std : StdLib) (m : List Nat) (pw : String) :
    ∀ b ∈ encrypt_message_aes std m pw, b < 256 := by
  intro b hb
  simp only [encrypt_message_aes, List.mem_iff_getElem, List.getElem_mapIdx] at hb
  obtain ⟨i, _, rfl⟩ := hb
  exact Nat.mod_lt _ (by norm_num)

theorem decrypt_encrypt (std : StdLib) (m : List Nat) (pw : String) (hm : ∀ b ∈ m, b < 256) :
    decrypt_message_aes std (encrypt_message_aes std m pw) pw = m := by
  apply List.ext_getElem
  · rw [decrypt_length, encrypt_length]
  · intro i h1 h2
    have h3 : i < (encrypt_message_aes std m pw).length := by rw [encrypt_length]; exact h2
    have hd := decrypt_getD std _ pw (encrypt_bytes std m pw) i h3
    rw [encrypt_getD std m pw hm i h2, Nat.xor_cancel_right, List.getD_eq_getElem _ _ h1,
      List.getD_eq_getElem _ _ h2] at hd
    exact hd

/-- C5. For every byte string `m` (bytes below 256) and every password, decrypting the encrypted
string with the same password gives `m` back; both transforms keep the length; and byte `i` of
the output of either transform is the input byte `i` XOR `(key >> ((i mod 4)*8)) & 0xFF`, where
`key` is the 32-bit value derived from the password. -/
theorem C5_cipher_involution (std : StdLib) (m : List Nat) (pw : String)
    (hm : ∀ b ∈ m, b < 256) :
    decrypt_message_aes std (encrypt_message_aes std m pw) pw = m ∧
    (encrypt_message_aes std m pw).length = m.length ∧
    (decrypt_message_aes std m pw).length = m.length ∧
    (∀ i, i < m.length → (encrypt_message_aes std m pw).getD i 0 =
      m.getD i 0 ^^^ ((derive_key std pw >>> ((i % 4) * 8)) &&& 0xFF)) ∧
    (∀ i, i < m.length → (decrypt_message_aes std m pw).getD i 0 =
      m.getD i 0 ^^^ ((derive_key std pw >>> ((i % 4) * 8)) &&& 0xFF)) ∧
    derive_key std pw < 2 ^ 32 :=
  ⟨decrypt_encrypt std m pw hm, encrypt_length std m pw, decrypt_length std m pw,
    encrypt_getD std m pw hm, decrypt_getD std m pw hm, Nat.mod_lt _ (by norm_num)⟩

/-- Witness of C5 on the bytes of `"Hi!"` with a key whose four bytes are `1, 2, 3, 4`. -/
theorem C5_cipher_involution_witness :
    (∀ b ∈ [0x48, 0x69, 0x21], b < 256) ∧
    decrypt_message_aes ⟨fun _ => 0x04030201, fun _ _ => 0, fun _ => 0⟩
      (encrypt_message_aes ⟨fun _ => 0x04030201, fun _ _ => 0, fun _ => 0⟩
        [0x48, 0x69, 0x21] "pw") "pw"
      = [0x48, 0x69, 0x21] :=
  ⟨by decide,
    (C5_cipher_involution ⟨fun _ => 0x04030201, fun _ _ => 0, fun _ => 0⟩
      [0x48, 0x69, 0x21] "pw" (by decide)).1⟩

/-! ## Rounding to `double` -/

theorem round_half_even_bounds (y : ℚ) :
    y - 1 / 2 ≤ (round_half_even y : ℚ) ∧ (round_half_even y : ℚ) ≤ y + 1 / 2 := by
  have h1 := Int.floor_le y
  have h2 := Int.lt_floor_add_one y
  unfold round_half_even
  split_ifs with ha hb hc
  · constructor <;> linarith
  · push_cast; constructor <;> linarith
  · push_neg at ha hb
    constructor <;> linarith
  · push_neg at ha hb
    push_cast; constructor <;> linarith

theorem round_half_even_mono {x y : ℚ} (h : x ≤ y) : round_half_even x ≤ round_half_even y := by
  by_contra hlt
  push_neg at hlt
  have hx := (round_half_even_bounds x).2
  have hy := (round_half_even_bounds y).1
  have h1 : (round_half_even y : ℚ) + 1 ≤ (round_half_even x : ℚ) := by exact_mod_cast hlt
  have hxy : x = y := le_antisymm h (by linarith)
  rw [hxy] at hlt
  exact lt_irrefl _ hlt

theorem round_half_even_intCast (n : Int) : round_half_even (n : ℚ) = n := by
  unfold round_half_even
  rw [Int.floor_intCast]
  simp

theorem two_zpow_pos (k : Int) : (0 : ℚ) < 2 ^ k := zpow_pos (by norm_num) k

theorem log2_fuel_eq : ∀ (fuel n : Nat), n ≤ fuel → log2_fuel fuel n = Nat.log 2 n
  | 0, n, h => by
    have : n = 0 := by omega
    subst this
    simp [log2_fuel]
  | fuel + 1, n, h => by
    unfold log2_fuel
    by_cases h2 : n < 2
    · rw [if_pos h2, Nat.log_of_lt h2]
    · rw [if_neg h2, Nat.log_of_one_lt_of_le (by norm_num) (by omega),
        log2_fuel_eq fuel (n / 2) (by omega)]

theorem quotient_between (n d a b : Nat) (hd : 0 < d) (hna : 2 ^ a ≤ n) (hnb : n < 2 ^ (a + 1))
    (hda : 2 ^ b ≤ d) (hdb : d < 2 ^ (b + 1)) :
    (2 : ℚ) ^ ((a : Int) - (b : Int) - 1) < (n : ℚ) / (d : ℚ) ∧
    (n : ℚ) / (d : ℚ) < (2 : ℚ) ^ ((a : Int) - (b : Int) + 1) := by
  have hdq : (0 : ℚ) < (d : ℚ) := by exact_mod_cast hd
  have hna' : (2 : ℚ) ^ a ≤ (n : ℚ) := by exact_mod_cast hna
  have hnb' : (n : ℚ) < (2 : ℚ) ^ a * 2 := by
    have : (n : ℚ) < (2 : ℚ) ^ (a + 1) := by exact_mod_cast hnb
    rwa [pow_succ] at this
  have hda' : (2 : ℚ) ^ b ≤ (d : ℚ) := by exact_mod_cast hda
  have hdb' : (d : ℚ) < (2 : ℚ) ^ b * 2 := by
    have : (d : ℚ) < (2 : ℚ) ^ (b + 1) := by exact_mod_cast hdb
    rwa [pow_succ] at this
  have h2 : (2 : ℚ) ≠ 0 := by norm_num
  have hpa : (0 : ℚ) < (2 : ℚ) ^ a := by positivity
  have hpb : (0 : ℚ) < (2 : ℚ) ^ b := by positivity
  have e1 : (2 : ℚ) ^ ((a : Int) - (b : Int) - 1) = (2 : ℚ) ^ a / ((2 : ℚ) ^ b * 2) := by
    rw [zpow_sub₀ h2, zpow_sub₀ h2, zpow_natCast, zpow_natCast, zpow_one, div_div]
  have e2 : (2 : ℚ) ^ ((a : Int) - (b : Int) + 1) = (2 : ℚ) ^ a * 2 / (2 : ℚ) ^ b := by
    rw [zpow_add₀ h2, zpow_sub₀ h2, zpow_natCast, zpow_natCast, zpow_one, div_mul_eq_mul_div]
  rw [e1, e2]
  constructor
  · rw [div_lt_div_iff₀ (by positivity) hdq]
    calc (2 : ℚ) ^ a * (d : ℚ) < (2 : ℚ) ^ a * ((2 : ℚ) ^ b * 2) :=
          mul_lt_mul_of_pos_left hdb' hpa
      _ ≤ (n : ℚ) * ((2 : ℚ) ^ b * 2) :=
          mul_le_mul_of_nonneg_right hna' (by positivity)
  · rw [div_lt_div_iff₀ hdq hpb]
    calc (n : ℚ) * (2 : ℚ) ^ b < (2 : ℚ) ^ a * 2 * (2 : ℚ) ^ b :=
          mul_lt_mul_of_pos_right hnb' hpb
      _ ≤ (2 : ℚ) ^ a * 2 * (d : ℚ) :=
          mul_le_mul_of_nonneg_left hda' (by positivity)

/-- The binary exponent is the floor of the logarithm in base 2. -/
theorem binary_exponent_eq_log {x : ℚ} (hx : 0 < x) : binary_exponent x = Int.log 2 x := by
  have hn : 0 < x.num := Rat.num_pos.mpr hx
  have hd : 0 < x.den := x.den_pos
  obtain ⟨n, hnn⟩ := Int.eq_ofNat_of_zero_le hn.le
  have hn0 : n ≠ 0 := by
    intro h
    rw [h] at hnn
    omega
  have hxe : (n : ℚ) / (x.den : ℚ) = x := by
    have := Rat.num_div_den x
    rw [hnn] at this
    simpa using this
  have hnat : x.num.toNat = n := by rw [hnn]; rfl
  have hb : (1 : Nat) < 2 := by norm_num
  obtain ⟨hlo, hup⟩ := quotient_between n x.den (Nat.log 2 n) (Nat.log 2 x.den) hd
    (Nat.pow_log_le_self 2 hn0) (Nat.lt_pow_succ_log_self hb n)
    (Nat.pow_log_le_self 2 (by omega)) (Nat.lt_pow_succ_log_self hb x.den)
  rw [hxe] at hlo hup
  unfold binary_exponent
  rw [hnat, log2_fuel_eq n n (le_refl _), log2_fuel_eq x.den x.den (le_refl _)]
  generalize ((Nat.log 2 n : Int) - (Nat.log 2 x.den : Int)) = k at hlo hup ⊢
  by_cases hc : (2 : ℚ) ^ k ≤ x
  · rw [if_pos hc]
    have h1 := (Int.zpow_le_iff_le_log hb hx).mp (by exact_mod_cast hc)
    have h3 := (Int.lt_zpow_iff_log_lt hb hx).mp (by exact_mod_cast hup)
    omega
  · rw [if_neg hc]
    push_neg at hc
    have h1 := (Int.zpow_le_iff_le_log hb hx).mp (by exact_mod_cast hlo.le)
    have h3 := (Int.lt_zpow_iff_log_lt hb hx).mp (by exact_mod_cast hc)
    omega

theorem round_pos_eq_log {x : ℚ} (hx : 0 < x) :
    round_pos x = (round_half_even (x / 2 ^ (Int.log 2 x - 52)) : ℚ) * 2 ^ (Int.log 2 x - 52) := by
  unfold round_pos
  rw [binary_exponent_eq_log hx]

theorem round_pos_bounds {x : ℚ} (hx : 0 < x) :
    (2 : ℚ) ^ Int.log 2 x ≤ round_pos x ∧ round_pos x ≤ 2 ^ (Int.log 2 x + 1) := by
  have hlo := Int.zpow_log_le_self (b := 2) (by norm_num) hx
  have hhi := Int.lt_zpow_succ_log_self (b := 2) (by norm_num) x
  have hu := two_zpow_pos (Int.log 2 x - 52)
  push_cast at hlo hhi
  have e1 : (2 : ℚ) ^ Int.log 2 x = ((2 ^ 52 : Int) : ℚ) * 2 ^ (Int.log 2 x - 52) := by
    rw [zpow_sub₀ (by norm_num : (2 : ℚ) ≠ 0)]
    push_cast
    field_simp
    ring
  have e2 : (2 : ℚ) ^ (Int.log 2 x + 1) = ((2 ^ 53 : Int) : ℚ) * 2 ^ (Int.log 2 x - 52) := by
    rw [zpow_sub₀ (by norm_num : (2 : ℚ) ≠ 0), zpow_add₀ (by norm_num : (2 : ℚ) ≠ 0)]
    push_cast
    field_simp
    ring
  rw [round_pos_eq_log hx]
  constructor
  · rw [e1]
    apply mul_le_mul_of_nonneg_right _ hu.le
    have : ((2 ^ 52 : Int) : ℚ) ≤ x / 2 ^ (Int.log 2 x - 52) := by
      rw [le_div_iff₀ hu, ← e1]
      exact hlo
    have := round_half_even_mono this
    rw [round_half_even_intCast] at this
    exact_mod_cast this
  · rw [e2]
    apply mul_le_mul_of_nonneg_right _ hu.le
    have : x / 2 ^ (Int.log 2 x - 52) ≤ ((2 ^ 53 : Int) : ℚ) := by
      rw [div_le_iff₀ hu, ← e2]
      exact hhi.le
    have := round_half_even_mono this
    rw [round_half_even_intCast] at this
    exact_mod_cast this

theorem round_pos_pos {x : ℚ} (hx : 0 < x) : 0 < round_pos x :=
  lt_of_lt_of_le (two_zpow_pos _) (round_pos_bounds hx).1

theorem round_pos_mono {x y : ℚ} (hx : 0 < x) (h : x ≤ y) : round_pos x ≤ round_pos y := by
  have hy : 0 < y := lt_of_lt_of_le hx h
  have hk := Int.log_mono_right (b := 2) hx h
  rcases eq_or_lt_of_le hk with heq | hlt
  · rw [round_pos_eq_log hx, round_pos_eq_log hy, ← heq]
    have hu := two_zpow_pos (Int.log 2 x - 52)
    apply mul_le_mul_of_nonneg_right _ hu.le
    have : x / 2 ^ (Int.log 2 x - 52) ≤ y / 2 ^ (Int.log 2 x - 52) :=
      div_le_div_of_nonneg_right h hu.le
    exact_mod_cast round_half_even_mono this
  · calc round_pos x ≤ 2 ^ (Int.log 2 x + 1) := (round_pos_bounds hx).2
      _ ≤ 2 ^ Int.log 2 y := zpow_le_zpow_right₀ (by norm_num) (by omega)
      _ ≤ round_pos y := (round_pos_bounds hy).1

theorem round_double_zero : round_double 0 = 0 := by
  unfold round_double
  simp

theorem round_double_nonneg {x : ℚ} (hx : 0 ≤ x) : 0 ≤ round_double x := by
  unfold round_double
  split_ifs with h1 h2
  · exact (round_pos_pos h1).le
  · linarith
  · exact le_refl _

theorem round_double_nonpos {x : ℚ} (hx : x ≤ 0) : round_double x ≤ 0 := by
  unfold round_double
  split_ifs with h1 h2
  · linarith
  · have := round_pos_pos (neg_pos.mpr h2)
    linarith
  · exact le_refl _

/-- Rounding to `double` is monotone. -/
theorem round_double_mono {x y : ℚ} (h : x ≤ y) : round_double x ≤ round_double y := by
  rcases lt_trichotomy 0 x with hx | hx | hx
  · have hy : 0 < y := lt_of_lt_of_le hx h
    unfold round_double
    rw [if_pos hx, if_pos hy]
    exact round_pos_mono hx h
  · rw [← hx, round_double_zero]
    exact round_double_nonneg (by linarith)
  · rcases le_or_lt 0 y with hy | hy
    · exact le_trans (round_double_nonpos hx.le) (round_double_nonneg hy)
    · unfold round_double
      rw [if_neg (by linarith), if_pos hx, if_neg (by linarith), if_pos hy]
      have := round_pos_mono (neg_pos.mpr hy) (neg_le_neg h)
      linarith

/-- An integer of absolute value at most `2^53` is a `double`. -/
theorem round_pos_natCast (n : Nat) (h0 : 0 < n) (hn : n ≤ 2 ^ 53) :
    round_pos (n : ℚ) = n := by
  have hx : (0 : ℚ) < n := by exact_mod_cast h0
  have hk : Int.log 2 (n : ℚ) ≤ 53 := by
    have := Int.log_mono_right (b := 2) hx (show (n : ℚ) ≤ ((2 ^ 53 : Nat) : ℚ) by exact_mod_cast hn)
    rw [Int.log_natCast] at this
    rw [Int.log_natCast] at this
    have e : Nat.log 2 (2 ^ 53) = 53 := Nat.log_pow (by norm_num) 53
    rw [e] at this
    rw [Int.log_natCast]
    exact_mod_cast this
  have hk0 : 0 ≤ Int.log 2 (n : ℚ) := by
    rw [Int.log_natCast]
    exact Int.natCast_nonneg _
  rw [round_pos_eq_log hx]
  rcases eq_or_lt_of_le hk with h53 | hlt
  · -- n = 2^53
    have hlo := Int.zpow_log_le_self (b := 2) (by norm_num) hx
    rw [h53] at hlo ⊢
    have hn' : (n : ℚ) = 2 ^ 53 := by
      apply le_antisymm
      · exact_mod_cast hn
      · push_cast at hlo
        exact_mod_cast hlo
    rw [hn']
    have : ((2 : ℚ) ^ 53 / 2 ^ ((53 : Int) - 52)) = ((2 ^ 52 : Int) : ℚ) := by norm_num
    rw [this, round_half_even_intCast]
    norm_num
  · obtain ⟨m, hm⟩ := Int.eq_ofNat_of_zero_le (show 0 ≤ 52 - Int.log 2 (n : ℚ) by omega)
    have e : (n : ℚ) / 2 ^ (Int.log 2 (n : ℚ) - 52) = (((n : Int) * 2 ^ m : Int) : ℚ) := by
      have : Int.log 2 (n : ℚ) - 52 = - (m : Int) := by omega
      rw [this, zpow_neg, zpow_natCast]
      push_cast
      field_simp
    rw [e, round_half_even_intCast]
    have : Int.log 2 (n : ℚ) - 52 = - (m : Int) := by omega
    rw [this, zpow_neg, zpow_natCast]
    push_cast
    field_simp

theorem round_double_natCast (n : Nat) (hn : n ≤ 2 ^ 53) : round_double (n : ℚ) = n := by
  rcases Nat.eq_zero_or_pos n with h0 | h0
  · rw [h0]
    simp [round_double_zero]
  · unfold round_double
    rw [if_pos (by exact_mod_cast h0)]
    exact round_pos_natCast n h0 hn

theorem round_double_one : round_double 1 = 1 := by
  have := round_double_natCast 1 (by norm_num)
  simpa using this

theorem round_double_le_one {x : ℚ} (h : x ≤ 1) : round_double x ≤ 1 := by
  have := round_double_mono h
  rwa [round_double_one] at this

theorem round_double_le_natCast {x : ℚ} (n : Nat) (hn : n ≤ 2 ^ 53) (h : x ≤ (n : ℚ)) :
    round_double x ≤ (n : ℚ) := by
  have := round_double_mono h
  rwa [round_double_natCast n hn] at this

/-! ## Capacity estimate -/

theorem tdiv_eight (a : Int) :
    Int.tdiv a 8 = if 0 ≤ a then a / 8 else -((-a) / 8) := by
  split
  · rw [Int.tdiv_eq_ediv] <;> omega
  · rw [← Int.neg_neg a, Int.neg_tdiv, Int.tdiv_eq_ediv] <;> simp; omega

theorem c_abs_eq_abs (x : Int) : c_abs x = |x| := by
  unfold c_abs
  split
  · rw [abs_of_neg (by assumption)]
  · rw [abs_of_nonneg (by omega)]

theorem c_abs_lt_iff (x : Int) : c_abs x < MIN_COEFF_VALUE ↔ -2 < x ∧ x < 2 := by
  unfold c_abs MIN_COEFF_VALUE
  split <;> omega

theorem usable_eq_eligible_count (jpeg_data : AdvancedJPEGData) :
    usable_coefficients jpeg_data = eligible_count jpeg_data.dct_coefficients := by
  unfold usable_coefficients eligible_count
  congr 1
  apply List.filter_congr
  intro i _
  simp only [eligible, c_abs_eq_abs, MIN_COEFF_VALUE, DCT_BLOCK_SIZE, Bool.and_comm,
    Bool.decide_and, decide_not, ge_iff_le, bne_iff_ne, ne_eq]
  rfl

theorem int_result_of_range (std : StdLib) (x : Int)
    (h : -2147483648 ≤ x ∧ x ≤ 2147483647) : int_result std x = x := by
  unfold int_result
  rw [if_pos h]

theorem int_result_range (std : StdLib) (x : Int) :
    -2147483648 ≤ int_result std x ∧ int_result std x ≤ 2147483647 := by
  unfold int_result
  split
  · assumption
  · unfold to_int32
    split <;> omega

theorem trunc_to_int_of_nonneg (std : StdLib) {x : ℚ} (hx : 0 ≤ x) (h : x < 2147483648) :
    trunc_to_int std x = ⌊x⌋ := by
  have hfl : Int.tdiv x.num x.den = ⌊x⌋ := by
    rw [Int.tdiv_eq_ediv (Rat.num_nonneg.mpr hx) (Int.ofNat_nonneg _)]
    exact (Rat.floor_def' x).symm
  have h0 : 0 ≤ ⌊x⌋ := Int.floor_nonneg.mpr hx
  have h1 : ⌊x⌋ < 2147483648 := by
    rw [Int.floor_lt]
    exact_mod_cast h
  unfold trunc_to_int
  rw [hfl, int_result_of_range std _ ⟨by omega, by omega⟩]

theorem double_0_08_eq : double_0_08 = 5764607523034235 / 72057594037927936 := by
  decide!

/-- Within `1..13` and `0..100` both factors of the estimate lie between 0 and 1. -/
theorem factors_in_unit (std : StdLib) (r q : Int) (hr : 1 ≤ r ∧ r ≤ 13)
    (hq : 0 ≤ q ∧ q ≤ 100) :
    (0 ≤ resistance_factor std r ∧ resistance_factor std r ≤ 1) ∧
    (0 ≤ quality_factor q ∧ quality_factor q ≤ 1) := by
  have hn : int_result std (r - 1) = r - 1 := int_result_of_range std _ ⟨by omega, by omega⟩
  have hr1 : (0 : ℚ) ≤ ((r - 1 : Int) : ℚ) := by exact_mod_cast (show (0 : Int) ≤ r - 1 by omega)
  have hr2 : ((r - 1 : Int) : ℚ) ≤ 12 := by exact_mod_cast (show r - 1 ≤ (12 : Int) by omega)
  have hc0 : (0 : ℚ) ≤ double_0_08 := by rw [double_0_08_eq]; norm_num
  have hc1 : 12 * double_0_08 ≤ 1 := by rw [double_0_08_eq]; norm_num
  have ha0 : 0 ≤ round_double (((r - 1 : Int) : ℚ) * double_0_08) :=
    round_double_nonneg (mul_nonneg hr1 hc0)
  have ha1 : round_double (((r - 1 : Int) : ℚ) * double_0_08) ≤ 1 := by
    apply round_double_le_one
    have := mul_le_mul_of_nonneg_right hr2 hc0
    linarith
  have hq0 : (0 : ℚ) ≤ (q : ℚ) := by exact_mod_cast hq.1
  have hq1 : (q : ℚ) ≤ 100 := by exact_mod_cast hq.2
  refine ⟨⟨?_, ?_⟩, ⟨?_, ?_⟩⟩
  · unfold resistance_factor
    rw [hn]
    exact round_double_nonneg (by linarith)
  · unfold resistance_factor
    rw [hn]
    exact round_double_le_one (by linarith)
  · unfold quality_factor
    exact round_double_nonneg (by positivity)
  · unfold quality_factor
    apply round_double_le_one
    rw [div_le_one (by norm_num)]
    exact hq1

/-- With both factors between 0 and 1 the rounded product is at least 0 and, for a count that
fits an `int`, at most the count. -/
theorem available_double_bounds (std : StdLib) (jpeg_data : AdvancedJPEGData) (r q : Int)
    (hrf : 0 ≤ resistance_factor std r ∧ resistance_factor std r ≤ 1)
    (hqf : 0 ≤ quality_factor q ∧ quality_factor q ≤ 1) :
    0 ≤ available_double std jpeg_data r q ∧
    (usable_coefficients jpeg_data ≤ 2 ^ 53 →
      available_double std jpeg_data r q ≤ (usable_coefficients jpeg_data : ℚ)) := by
  have hE : (0 : ℚ) ≤ (usable_coefficients jpeg_data : ℚ) := Nat.cast_nonneg _
  have hp0 : 0 ≤ round_double ((usable_coefficients jpeg_data : ℚ) * resistance_factor std r) :=
    round_double_nonneg (mul_nonneg hE hrf.1)
  unfold available_double
  refine ⟨round_double_nonneg (mul_nonneg hp0 hqf.1), ?_⟩
  intro h53
  have hp1 : round_double ((usable_coefficients jpeg_data : ℚ) * resistance_factor std r) ≤
      (usable_coefficients jpeg_data : ℚ) := by
    apply round_double_le_natCast _ h53
    have := mul_le_mul_of_nonneg_left hrf.2 hE
    linarith
  apply round_double_le_natCast _ h53
  have := mul_le_mul_of_nonneg_left hqf.2 hp0
  linarith

/-- With both factors between 0 and 1 the `int` `available_bits` is at most the count of
usable coefficients, whatever an out-of-range conversion leaves. -/
theorem available_bits_le (std : StdLib) (jpeg_data : AdvancedJPEGData) (r q : Int)
    (hrf : 0 ≤ resistance_factor std r ∧ resistance_factor std r ≤ 1)
    (hqf : 0 ≤ quality_factor q ∧ quality_factor q ≤ 1) :
    trunc_to_int std (available_double std jpeg_data r q) ≤ (usable_coefficients jpeg_data : Int)
    := by
  obtain ⟨h0, hle⟩ := available_double_bounds std jpeg_data r q hrf hqf
  have hrange := (int_result_range std
    (Int.tdiv (available_double std jpeg_data r q).num
      (available_double std jpeg_data r q).den)).2
  by_cases h31 : usable_coefficients jpeg_data < 2147483648
  · have hP := hle (by omega)
    have hlt : available_double std jpeg_data r q < 2147483648 := by
      have : (usable_coefficients jpeg_data : ℚ) < 2147483648 := by exact_mod_cast h31
      linarith
    rw [trunc_to_int_of_nonneg std h0 hlt]
    have : ((⌊available_double std jpeg_data r q⌋ : Int) : ℚ) ≤
        (usable_coefficients jpeg_data : ℚ) := le_trans (Int.floor_le _) hP
    exact_mod_cast this
  · unfold trunc_to_int
    omega

/-- A non-empty payload that passes the capacity check leaves room for the 8-byte header as
well, whenever both factors lie between 0 and 1. -/
theorem capacity_sound (std : StdLib) (jpeg_data : AdvancedJPEGData) (r q : Int) (L : Nat)
    (hrf : 0 ≤ resistance_factor std r ∧ resistance_factor std r ≤ 1)
    (hqf : 0 ≤ quality_factor q ∧ quality_factor q ≤ 1) (hL : 1 ≤ L)
    (hcap : (L : Int) ≤ outguess_get_max_message_size std jpeg_data r q) :
    8 * (8 + L) ≤ usable_coefficients jpeg_data := by
  have hle := available_bits_le std jpeg_data r q hrf hqf
  unfold outguess_get_max_message_size at hcap
  simp only at hcap
  rw [tdiv_eight] at hcap
  split at hcap <;> omega

/-- With the exact arithmetic of the formula as well, a non-empty payload within the value of
the formula leaves room for the 8-byte header, in the documented ranges. -/
theorem capacity_formula_sound (E : Nat) (r q : Int) (L : Nat)
    (hr : 1 ≤ r ∧ r ≤ 10) (hq : 1 ≤ q ∧ q ≤ 100) (hL : 1 ≤ L)
    (hcap : (L : Int) ≤ capacity_formula E r q) : 8 * (8 + L) ≤ E := by
  have hr1 : (1 : ℚ) ≤ (r : ℚ) := by exact_mod_cast hr.1
  have hr2 : (r : ℚ) ≤ 10 := by exact_mod_cast hr.2
  have hq1 : (1 : ℚ) ≤ (q : ℚ) := by exact_mod_cast hq.1
  have hq2 : (q : ℚ) ≤ 100 := by exact_mod_cast hq.2
  have hE : (0 : ℚ) ≤ (E : ℚ) := Nat.cast_nonneg _
  unfold capacity_formula at hcap
  have h1 : ((L : Int) + 8) ≤
      ⌊(E : ℚ) * (1 - ((r : ℚ) - 1) * (8 / 100)) * ((q : ℚ) / 100) / 8⌋ := by
    omega
  have h2 := Int.le_floor.mp h1
  push_cast at h2
  have hf0 : (0 : ℚ) ≤ 1 - ((r : ℚ) - 1) * (8 / 100) := by linarith
  have hf1 : 1 - ((r : ℚ) - 1) * (8 / 100) ≤ 1 := by linarith
  have hg1 : (q : ℚ) / 100 ≤ 1 := by rw [div_le_one (by norm_num)]; exact hq2
  have h3 : (E : ℚ) * (1 - ((r : ℚ) - 1) * (8 / 100)) * ((q : ℚ) / 100) ≤ (E : ℚ) :=
    le_trans (mul_le_of_le_one_right (mul_nonneg hE hf0) hg1) (mul_le_of_le_one_right hE hf1)
  have h4 : ((8 * (8 + L) : Nat) : ℚ) ≤ (E : ℚ) := by
    push_cast
    linarith
  exact_mod_cast h4

theorem max_size_of_product (std : StdLib) (jpeg_data : AdvancedJPEGData) (r q : Int)
    (h0 : 0 ≤ available_double std jpeg_data r q)
    (h1 : available_double std jpeg_data r q < 2147483648) :
    outguess_get_max_message_size std jpeg_data r q =
      max 0 (⌊available_double std jpeg_data r q⌋ / 8 - 8) := by
  unfold outguess_get_max_message_size
  simp only
  rw [trunc_to_int_of_nonneg std h0 h1, tdiv_eight, if_pos (Int.floor_nonneg.mpr h0)]

theorem max_size_mono (std : StdLib) (jpeg_data : AdvancedJPEGData) (r1 q1 r2 q2 : Int)
    (h0 : 0 ≤ available_double std jpeg_data r1 q1)
    (h : available_double std jpeg_data r1 q1 ≤ available_double std jpeg_data r2 q2)
    (h1 : available_double std jpeg_data r2 q2 < 2147483648) :
    outguess_get_max_message_size std jpeg_data r1 q1 ≤
      outguess_get_max_message_size std jpeg_data r2 q2 := by
  rw [max_size_of_product std jpeg_data r1 q1 h0 (lt_of_le_of_lt h h1),
    max_size_of_product std jpeg_data r2 q2 (le_trans h0 h) h1]
  have h2 := Int.floor_le_floor h
  omega

/-- At resistance level 1 and quality 100 both factors are 1 and the estimate is
`max(0, E / 8 - 8)`, for a count `E` that fits an `int`. -/
theorem max_size_full (std : StdLib) (jpeg_data : AdvancedJPEGData)
    (hE : usable_coefficients jpeg_data < 2147483648) :
    outguess_get_max_message_size std jpeg_data 1 100 =
      max 0 ((usable_coefficients jpeg_data : Int) / 8 - 8) := by
  have hrf : resistance_factor std 1 = 1 := by
    unfold resistance_factor
    rw [int_result_of_range std _ ⟨by omega, by omega⟩]
    simp [round_double_zero, round_double_one]
  have hqf : quality_factor 100 = 1 := by
    unfold quality_factor
    norm_num [round_double_one]
  have hP : available_double std jpeg_data 1 100 = (usable_coefficients jpeg_data : ℚ) := by
    have hfit : usable_coefficients jpeg_data ≤ 2 ^ 53 := le_trans hE.le (by norm_num)
    unfold available_double
    rw [hrf, hqf]
    simp only [mul_one]
    rw [round_double_natCast _ hfit, round_double_natCast _ hfit]
  have hlt : (usable_coefficients jpeg_data : ℚ) < 2147483648 := by exact_mod_cast hE
  rw [max_size_of_product std jpeg_data 1 100 (by rw [hP]; exact Nat.cast_nonneg _)
    (by rw [hP]; exact hlt), hP]
  have : ⌊(usable_coefficients jpeg_data : ℚ)⌋ = (usable_coefficients jpeg_data : Int) := by
    exact_mod_cast Int.floor_natCast (usable_coefficients jpeg_data)
  rw [this]

/-- For any resistance level whose factor is not negative, the estimate does not decrease when
the quality grows, as long as the product at the larger quality fits an `int`. -/
theorem max_size_mono_quality (std : StdLib) (jpeg_data : AdvancedJPEGData) (r q1 q2 : Int)
    (hrf : 0 ≤ resistance_factor std r) (hq : 0 ≤ q1 ∧ q1 ≤ q2)
    (hfit : available_double std jpeg_data r q2 < 2147483648) :
    outguess_get_max_message_size std jpeg_data r q1 ≤
      outguess_get_max_message_size std jpeg_data r q2 := by
  have hE0 : (0 : ℚ) ≤ (usable_coefficients jpeg_data : ℚ) := Nat.cast_nonneg _
  have hp0 : 0 ≤ round_double ((usable_coefficients jpeg_data : ℚ) * resistance_factor std r) :=
    round_double_nonneg (mul_nonneg hE0 hrf)
  have hq0 : 0 ≤ quality_factor q1 := by
    unfold quality_factor
    apply round_double_nonneg
    have : (0 : ℚ) ≤ (q1 : ℚ) := by exact_mod_cast hq.1
    positivity
  have h0 : 0 ≤ available_double std jpeg_data r q1 := by
    unfold available_double
    exact round_double_nonneg (mul_nonneg hp0 hq0)
  apply max_size_mono std jpeg_data r q1 r q2 h0 _ hfit
  have hqq : quality_factor q1 ≤ quality_factor q2 := by
    unfold quality_factor
    apply round_double_mono
    have : (q1 : ℚ) ≤ (q2 : ℚ) := by exact_mod_cast hq.2
    exact div_le_div_of_nonneg_right this (by norm_num)
  unfold available_double
  apply round_double_mono
  exact mul_le_mul_of_nonneg_left hqq hp0

set_option maxRecDepth 100000 in
/-- Where the product does not fit an `int` the estimate need not grow with the quality: with
200 eligible coefficients at resistance level `-1000000000`, the estimate is 259999995 at
quality 13, and at quality 14, where the conversion of `2240000030.24` yields `INT_MIN`, it
is 0. -/
theorem max_size_quality_overflow :
    outguess_get_max_message_size plain_std (sample_buffer 204 0 3) (-1000000000) 13 =
      259999995 ∧
    outguess_get_max_message_size plain_std (sample_buffer 204 0 3) (-1000000000) 14 = 0 := by
  refine ⟨by decide!, by decide!⟩

/-- C10. For every buffer, resistance level and quality (no range assumed) the capacity
estimate is at least 0, and it is exactly 0 when the buffer has no eligible coefficient. -/
theorem C10_capacity_nonneg (std : StdLib) (jpeg_data : AdvancedJPEGData) (r q : Int) :
    0 ≤ outguess_get_max_message_size std jpeg_data r q ∧
    ((∀ i, i < jpeg_data.dct_coefficients.length → ¬ eligible jpeg_data.dct_coefficients i) →
      outguess_get_max_message_size std jpeg_data r q = 0) := by
  constructor
  · unfold outguess_get_max_message_size
    exact le_max_left _ _
  · intro h
    have h0 : usable_coefficients jpeg_data = 0 := by
      rw [usable_eq_eligible_count]
      unfold eligible_count
      rw [List.length_eq_zero, List.filter_eq_nil_iff]
      intro i hi
      simpa using h i (List.mem_range.mp hi)
    have hP : available_double std jpeg_data r q = 0 := by
      unfold available_double
      rw [h0, Nat.cast_zero, zero_mul, round_double_zero, zero_mul, round_double_zero]
    rw [max_size_of_product std jpeg_data r q (by rw [hP]) (by rw [hP]; norm_num), hP]
    simp

/-- Witness of C10 on a one-block buffer whose AC coefficients are all `0`, `1` or `-1`. -/
theorem C10_capacity_nonneg_witness :
    (∀ i, i < 5 → ¬ eligible [700, 1, 0, -1, 1] i) ∧
    outguess_get_max_message_size plain_std ⟨[700, 1, 0, -1, 1]⟩ 5 85 = 0 :=
  ⟨by decide, (C10_capacity_nonneg plain_std ⟨[700, 1, 0, -1, 1]⟩ 5 85).2 (by decide)⟩

/-! ## Machine integers -/

theorem nat_or_one (u : Nat) : u ||| 1 = 2 * (u / 2) + 1 := by
  have h := Nat.lor_bit u.bodd u.div2 true 0
  rw [Nat.bit_decomp] at h
  have h1 : Nat.bit true 0 = 1 := rfl
  rw [h1] at h
  rw [h]
  simp [Nat.bit_val, Nat.div2_val]

theorem nat_and_one (u : Nat) : u &&& 1 = u % 2 := Nat.and_one_is_mod u

theorem nat_and_mask (u : Nat) (hu : u < 4294967296) : u &&& 4294967294 = 2 * (u / 2) := by
  have h := Nat.land_bit u.bodd u.div2 false 2147483647
  rw [Nat.bit_decomp] at h
  have h1 : Nat.bit false 2147483647 = 4294967294 := rfl
  rw [h1] at h
  rw [h]
  have h2 := Nat.and_pow_two_sub_one_eq_mod u.div2 31
  norm_num at h2
  rw [h2, Nat.div2_val]
  simp only [Bool.and_false, Nat.bit_false]
  rw [Nat.mod_eq_of_lt (by omega)]

theorem c_not_one : c_not 1 = -2 := by decide

theorem c_or_one (x : Int) (h1 : -2147483648 ≤ x) (h2 : x ≤ 2147483647) :
    c_or x 1 = x + 1 - x % 2 := by
  unfold c_or to_int32 to_uint32
  have e1 : ((1 : Int) % 4294967296).toNat = 1 := by decide
  rw [e1, nat_or_one]
  split <;> omega

theorem c_and_mask (x : Int) (h1 : -2147483648 ≤ x) (h2 : x ≤ 2147483647) :
    c_and x (-2) = x - x % 2 := by
  unfold c_and to_int32 to_uint32
  have e1 : ((-2 : Int) % 4294967296).toNat = 4294967294 := by decide
  rw [e1, nat_and_mask _ (by omega)]
  split <;> omega

theorem c_and_one (x : Int) : c_and x 1 = x % 2 := by
  unfold c_and to_int32 to_uint32
  have e1 : ((1 : Int) % 4294967296).toNat = 1 := by decide
  rw [e1, nat_and_one]
  split <;> omega


theorem extracted_bit_eq (x : Int) : to_uint32 (c_and x 1) % 256 = (x % 2).toNat := by
  rw [c_and_one]
  unfold to_uint32
  omega

/-- The resistance policy in arithmetic form, for a 16-bit coefficient. -/
theorem modify_coeff_eq (r : Int) (bit : Nat) (v : Int) (hv : is_int16 v) :
    modify_coeff r bit v =
      if r ≥ 7 then
        if bit ≠ 0 then
          to_int16 (if v > 0 then v + 1 + 1 - (v + 1) % 2 else v - 1 + 1 - (v - 1) % 2)
        else to_int16 (if v > 0 then v + 1 - (v + 1) % 2 else v - 1 - (v - 1) % 2)
      else if bit ≠ 0 then to_int16 (v + 1 - v % 2) else to_int16 (v - v % 2) := by
  obtain ⟨h1, h2⟩ := hv
  unfold modify_coeff
  rw [c_not_one, c_or_one v (by omega) (by omega), c_or_one (v + 1) (by omega) (by omega),
    c_or_one (v - 1) (by omega) (by omega), c_and_mask v (by omega) (by omega),
    c_and_mask (v + 1) (by omega) (by omega), c_and_mask (v - 1) (by omega) (by omega)]

/-- The zero guard `if (coeff == 0)` is not taken for an eligible 16-bit coefficient. -/
theorem modify_coeff_ne_zero (r : Int) (bit : Nat) (v : Int) (hv : is_int16 v)
    (he : ¬ c_abs v < MIN_COEFF_VALUE) : modify_coeff r bit v ≠ 0 := by
  rw [modify_coeff_eq r bit v hv]
  rw [c_abs_lt_iff] at he
  obtain ⟨h1, h2⟩ := hv
  unfold to_int16
  split_ifs <;> omega

theorem embed_coeff_eq_modify (r : Int) (bit : Nat) (v : Int) (hv : is_int16 v)
    (he : ¬ c_abs v < MIN_COEFF_VALUE) : embed_coeff r bit v = modify_coeff r bit v := by
  unfold embed_coeff
  rw [if_neg (modify_coeff_ne_zero r bit v hv he)]

theorem embed_coeff_int16 (r : Int) (bit : Nat) (v : Int) : is_int16 (embed_coeff r bit v) := by
  unfold embed_coeff modify_coeff is_int16 to_int16
  split_ifs <;> omega

/-- The written value has the intended least significant bit. -/
theorem embed_coeff_lsb (r : Int) (bit : Nat) (v : Int) (hv : is_int16 v)
    (he : ¬ c_abs v < MIN_COEFF_VALUE) :
    embed_coeff r bit v % 2 = if bit ≠ 0 then 1 else 0 := by
  rw [embed_coeff_eq_modify r bit v hv he, modify_coeff_eq r bit v hv]
  unfold to_int16
  split_ifs <;> omega

/-- The written value stays eligible, except for `-2` receiving a `1` bit below level 7. -/
theorem embed_coeff_eligible (r : Int) (bit : Nat) (v : Int) (hv : is_int16 v)
    (he : ¬ c_abs v < MIN_COEFF_VALUE) (hok : r ≥ 7 ∨ v ≠ -2 ∨ bit = 0) :
    ¬ c_abs (embed_coeff r bit v) < MIN_COEFF_VALUE := by
  rw [embed_coeff_eq_modify r bit v hv he, modify_coeff_eq r bit v hv]
  rw [c_abs_lt_iff] at he ⊢
  obtain ⟨h1, h2⟩ := hv
  unfold to_int16
  split_ifs <;> omega

/-! ## Bytes and their bits -/

theorem byte_head_zero (d : Nat) (hd : d < 256) : byte_head d 0 = 0 := by
  unfold byte_head
  rw [Nat.shiftRight_eq_div_pow, Nat.div_eq_of_lt (by norm_num; exact hd)]
  simp

theorem byte_head_eight (d : Nat) : byte_head d 8 = d := by
  simp [byte_head]

theorem byte_head_step : ∀ bi, bi < 8 → ∀ d, d < 256 →
    (byte_head d bi ||| (((d >>> (7 - bi)) &&& 1) <<< (7 - bi))) % 256
      = byte_head d (bi + 1) := by
  decide!


theorem data_bit_lt (data : List Nat) (i j : Nat) : data_bit data i j < 2 := by
  unfold data_bit
  rw [Nat.and_one_is_mod]
  omega

theorem getD_set_ne (l : List Int) (i j : Nat) (a : Int) (h : i ≠ j) :
    (l.set j a).getD i 0 = l.getD i 0 := by
  simp [List.getD_eq_getElem?_getD, List.getElem?_set_ne (Ne.symm h)]

theorem getD_set_eq (l : List Int) (i : Nat) (a : Int) (h : i < l.length) :
    (l.set i a).getD i 0 = a := by
  simp [List.getD_eq_getElem?_getD, h]

theorem lt_length_of_eligible (l : List Int) (i : Nat)
    (h : ¬ c_abs (l.getD i 0) < MIN_COEFF_VALUE) : i < l.length := by
  by_contra hlt
  apply h
  rw [List.getD_eq_default _ _ (by omega)]
  decide

/-! ## The embedding walk -/

theorem embed_step_getD_of_ne (data : List Nat) (r : Int) (st : EmbedState) (idx i : Nat)
    (h : i ≠ idx) : (embed_step data r st idx).coeffs.getD i 0 = st.coeffs.getD i 0 := by
  unfold embed_step
  split_ifs <;> first | rfl | exact getD_set_ne _ _ _ _ h

theorem embed_step_length (data : List Nat) (r : Int) (st : EmbedState) (idx : Nat) :
    (embed_step data r st idx).coeffs.length = st.coeffs.length := by
  unfold embed_step
  split_ifs <;> simp

theorem embed_foldl_getD_of_not_mem (data : List Nat) (r : Int) :
    ∀ (seq : List Nat) (st : EmbedState) (i : Nat), i ∉ seq →
      (seq.foldl (embed_step data r) st).coeffs.getD i 0 = st.coeffs.getD i 0
  | [], _, _, _ => rfl
  | idx :: rest, st, i, h => by
    rw [List.foldl_cons, embed_foldl_getD_of_not_mem data r rest _ i
      (fun hm => h (List.mem_cons_of_mem _ hm))]
    exact embed_step_getD_of_ne data r st idx i (fun e => h (e ▸ List.mem_cons_self _ _))

theorem embed_foldl_length (data : List Nat) (r : Int) :
    ∀ (seq : List Nat) (st : EmbedState),
      (seq.foldl (embed_step data r) st).coeffs.length = st.coeffs.length
  | [], _ => rfl
  | idx :: rest, st => by
    rw [List.foldl_cons, embed_foldl_length data r rest, embed_step_length]

/-- What one iteration writes when it does not `break` or `continue`. -/
theorem embed_step_written (data : List Nat) (r : Int) (st : EmbedState) (idx : Nat)
    (h1 : ¬ st.byte_index ≥ data.length)
    (h2 : ¬ c_abs (st.coeffs.getD idx 0) < MIN_COEFF_VALUE) :
    (embed_step data r st idx).coeffs.getD idx 0 =
        embed_coeff r (data_bit data st.byte_index st.bit_index) (st.coeffs.getD idx 0) ∧
    (embed_step data r st idx).bit_index = (if st.bit_index + 1 ≥ 8 then 0 else st.bit_index + 1)
    ∧ (embed_step data r st idx).byte_index =
        (if st.bit_index + 1 ≥ 8 then st.byte_index + 1 else st.byte_index) := by
  have hlt := lt_length_of_eligible _ _ h2
  unfold embed_step
  rw [if_neg h1, if_neg h2]
  split_ifs <;> exact ⟨getD_set_eq _ _ _ hlt, rfl, rfl⟩

/-! ## Embedding followed by extraction -/

theorem take_succ_getD (data : List Nat) (n : Nat) (h : n < data.length) :
    data.take (n + 1) = data.take n ++ [data.getD n 0] := by
  rw [List.take_succ, List.getD_eq_getElem _ _ h, List.getElem?_eq_getElem h]
  rfl

theorem getD_lt_256 (data : List Nat) (hdata : ∀ b ∈ data, b < 256) (n : Nat) :
    data.getD n 0 < 256 := by
  by_cases h : n < data.length
  · rw [List.getD_eq_getElem _ _ h]
    exact hdata _ (List.getElem_mem _)
  · rw [List.getD_eq_default _ _ (by omega)]
    decide

/-- One iteration of the embedding walk, mirrored by one iteration of an extraction walk that
reads, at this position, the value the embedding walk leaves there. -/
theorem step_inv_at (data : List Nat) (hdata : ∀ b ∈ data, b < 256) (r : Int)
    (st : EmbedState) (est : ExtractState) (idx : Nat) (coeffs : List Int)
    (hinv : walk_inv data st est) (h16 : is_int16 (st.coeffs.getD idx 0))
    (hok : ¬ st.byte_index ≥ data.length →
      ¬ c_abs (st.coeffs.getD idx 0) < MIN_COEFF_VALUE →
      (r ≥ 7 ∨ st.coeffs.getD idx 0 ≠ -2 ∨ data_bit data st.byte_index st.bit_index = 0))
    (hC : coeffs.getD idx 0 = (embed_step data r st idx).coeffs.getD idx 0) :
    walk_inv data (embed_step data r st idx) (extract_step coeffs data.length est idx) := by
  obtain ⟨hbi, hlt8, hle, hres, hcur⟩ := hinv
  have hlen : est.result.length = st.byte_index := by
    rw [hres, List.length_take]; omega
  by_cases h1 : st.byte_index ≥ data.length
  · have e1 : embed_step data r st idx = st := by unfold embed_step; rw [if_pos h1]
    have e2 : extract_step coeffs data.length est idx = est := by
      unfold extract_step; rw [if_pos (by omega)]
    rw [e1, e2]
    exact ⟨hbi, hlt8, hle, hres, hcur⟩
  · by_cases h2 : c_abs (st.coeffs.getD idx 0) < MIN_COEFF_VALUE
    · have e1 : embed_step data r st idx = st := by
        unfold embed_step; rw [if_neg h1, if_pos h2]
      rw [e1] at hC ⊢
      have e2 : extract_step coeffs data.length est idx = est := by
        unfold extract_step; rw [if_neg (by omega), if_pos (by rw [hC]; exact h2)]
      rw [e2]
      exact ⟨hbi, hlt8, hle, hres, hcur⟩
    · obtain ⟨hw, hbi', hby'⟩ := embed_step_written data r st idx h1 h2
      rw [hw] at hC
      have hel := embed_coeff_eligible r (data_bit data st.byte_index st.bit_index) _ h16 h2
        (hok h1 h2)
      have hlsb := embed_coeff_lsb r (data_bit data st.byte_index st.bit_index) _ h16 h2
      have hbit : to_uint32 (c_and (coeffs.getD idx 0) 1) % 256 =
          data_bit data st.byte_index st.bit_index := by
        rw [extracted_bit_eq, hC, hlsb]
        have := data_bit_lt data st.byte_index st.bit_index
        split <;> omega
      have hstep := byte_head_step st.bit_index hlt8 _ (getD_lt_256 data hdata st.byte_index)
      have hx : extract_step coeffs data.length est idx =
          if est.bit_index + 1 ≥ 8 then
            ⟨est.result ++ [byte_head (data.getD st.byte_index 0) (st.bit_index + 1)], 0, 0⟩
          else ⟨est.result, est.bit_index + 1,
            byte_head (data.getD st.byte_index 0) (st.bit_index + 1)⟩ := by
        unfold extract_step
        rw [if_neg (by omega), if_neg (by rw [hC]; exact hel)]
        simp only [hbit, hcur, hbi]
        unfold data_bit
        rw [hstep]
      rw [hx, hbi]
      unfold walk_inv
      rw [hbi', hby']
      by_cases h8 : st.bit_index + 1 ≥ 8
      · have e8 : st.bit_index + 1 = 8 := by omega
        simp only [if_pos h8]
        rw [e8, byte_head_eight]
        refine ⟨trivial, by omega, by omega, ?_, ?_⟩
        · rw [take_succ_getD data _ (by omega), hres]
        · rw [byte_head_zero _ (getD_lt_256 data hdata _)]
      · simp only [if_neg h8]
        exact ⟨trivial, by omega, hle, hres, trivial⟩

/-- One iteration of the embedding walk, mirrored by one iteration of an extraction walk, when
the coefficient met is written safely whatever the bit. -/
theorem step_inv (data : List Nat) (hdata : ∀ b ∈ data, b < 256) (r : Int) (st : EmbedState)
    (est : ExtractState) (idx : Nat) (coeffs : List Int) (hinv : walk_inv data st est)
    (hok : write_ok r (st.coeffs.getD idx 0))
    (hC : coeffs.getD idx 0 = (embed_step data r st idx).coeffs.getD idx 0) :
    walk_inv data (embed_step data r st idx) (extract_step coeffs data.length est idx) :=
  step_inv_at data hdata r st est idx coeffs hinv hok.1
    (fun _ _ => by
      rcases hok.2 with h | h
      · exact Or.inl h
      · exact Or.inr (Or.inl h))
    hC

theorem walk_round_trip (data : List Nat) (hdata : ∀ b ∈ data, b < 256) (r : Int) :
    ∀ (seq : List Nat), seq.Nodup → ∀ (st : EmbedState) (est : ExtractState),
      walk_inv data st est → (∀ i ∈ seq, write_ok r (st.coeffs.getD i 0)) →
      walk_inv data (seq.foldl (embed_step data r) st)
        (seq.foldl (extract_step (seq.foldl (embed_step data r) st).coeffs data.length) est)
  | [], _, _, _, hinv, _ => hinv
  | idx :: rest, hnd, st, est, hinv, hok => by
    rw [List.nodup_cons] at hnd
    simp only [List.foldl_cons]
    apply walk_round_trip data hdata r rest hnd.2
    · apply step_inv data hdata r st est idx _ hinv (hok idx (List.mem_cons_self _ _))
      exact embed_foldl_getD_of_not_mem data r rest _ idx hnd.1
    · intro i hi
      rw [embed_step_getD_of_ne data r st idx i (fun e => hnd.1 (e ▸ hi))]
      exact hok i (List.mem_cons_of_mem _ hi)

theorem walk_inv_init (data : List Nat) (hdata : ∀ b ∈ data, b < 256) (coeffs : List Int) :
    walk_inv data ⟨coeffs, 0, 0⟩ ⟨[], 0, 0⟩ :=
  ⟨rfl, Nat.zero_lt_succ 7, Nat.zero_le _, by simp,
    (byte_head_zero _ (getD_lt_256 data hdata 0)).symm⟩

theorem embed_bits_length (std : StdLib) (jpeg_data : AdvancedJPEGData) (data : List Nat)
    (r : Int) :
    (embed_bits_with_resistance std jpeg_data data r).2.dct_coefficients.length =
      jpeg_data.dct_coefficients.length := by
  unfold embed_bits_with_resistance embed_walk
  exact embed_foldl_length data r _ _

/-- Bit-level round trip: when every coefficient the walk may visit is a 16-bit value whose
rewriting keeps it eligible, a successful `embed_bits_with_resistance` is read back exactly by
`extract_bits_with_verification` with `expected_size = data.size()`. -/
theorem extract_after_embed (std : StdLib) (jpeg_data : AdvancedJPEGData) (data : List Nat)
    (r : Int) (hdata : ∀ b ∈ data, b < 256)
    (hok : ∀ i, i % 64 ≠ 0 → write_ok r (jpeg_data.dct_coefficients.getD i 0))
    (hsucc : (embed_bits_with_resistance std jpeg_data data r).1 = true) :
    extract_bits_with_verification std (embed_bits_with_resistance std jpeg_data data r).2
      data.length = data := by
  have hlen := embed_bits_length std jpeg_data data r
  unfold extract_bits_with_verification
  rw [hlen]
  unfold embed_bits_with_resistance embed_walk at hsucc ⊢
  simp only [decide_eq_true_eq] at hsucc
  have hinv := walk_round_trip data hdata r
    (generate_secure_embedding_sequence std jpeg_data.dct_coefficients.length EMBED_SEED)
    (sequence_nodup std _ _) ⟨jpeg_data.dct_coefficients, 0, 0⟩ ⟨[], 0, 0⟩
    (walk_inv_init data hdata _)
    (fun i hi => hok i ((mem_sequence std _ _ i).mp hi).2)
  obtain ⟨_, _, hle, hres, _⟩ := hinv
  rw [hres, List.take_of_length_le hsucc]

/-! ## Progress of the embedding walk -/

theorem walk_eligible_cons (coeffs : List Int) (idx : Nat) (rest : List Nat) :
    walk_eligible coeffs (idx :: rest) =
      if c_abs (coeffs.getD idx 0) < MIN_COEFF_VALUE then walk_eligible coeffs rest
      else idx :: walk_eligible coeffs rest := by
  unfold walk_eligible
  by_cases h : c_abs (coeffs.getD idx 0) < MIN_COEFF_VALUE
  · rw [if_pos h, List.filter_cons_of_neg]
    rw [Bool.not_eq_true, Bool.not_eq_false', decide_eq_true_eq]
    exact h
  · rw [if_neg h, List.filter_cons_of_pos]
    rw [Bool.not_eq_true', decide_eq_false_iff_not]
    exact h

theorem walk_eligible_congr (c1 c2 : List Int) (seq : List Nat)
    (h : ∀ i ∈ seq, c1.getD i 0 = c2.getD i 0) : walk_eligible c1 seq = walk_eligible c2 seq := by
  unfold walk_eligible
  apply List.filter_congr
  intro i hi
  rw [h i hi]

theorem walk_eligible_step (data : List Nat) (r : Int) (st : EmbedState) (idx : Nat)
    (rest : List Nat) (h : idx ∉ rest) :
    walk_eligible (embed_step data r st idx).coeffs rest = walk_eligible st.coeffs rest :=
  walk_eligible_congr _ _ _
    (fun i hi => embed_step_getD_of_ne data r st idx i (fun e => h (e ▸ hi)))

/-- The number of bits consumed by a walk: every position that passes the live eligibility
check takes one bit until the data is exhausted. -/
theorem embed_walk_progress (data : List Nat) (r : Int) :
    ∀ (seq : List Nat), seq.Nodup → ∀ (st : EmbedState), st.bit_index < 8 →
      bits_written st ≤ 8 * data.length →
      (seq.foldl (embed_step data r) st).bit_index < 8 ∧
      bits_written (seq.foldl (embed_step data r) st) =
        min (8 * data.length) (bits_written st + (walk_eligible st.coeffs seq).length)
  | [], _, st, h8, hle => ⟨h8, by simp [walk_eligible]; omega⟩
  | idx :: rest, hnd, st, h8, hle => by
    rw [List.nodup_cons] at hnd
    rw [List.foldl_cons, walk_eligible_cons]
    unfold bits_written at hle
    by_cases h1 : st.byte_index ≥ data.length
    · have e1 : embed_step data r st idx = st := by unfold embed_step; rw [if_pos h1]
      rw [e1]
      obtain ⟨ih1, ih2⟩ := embed_walk_progress data r rest hnd.2 st h8 hle
      refine ⟨ih1, ?_⟩
      rw [ih2]
      unfold bits_written
      split
      · omega
      · simp only [List.length_cons]; omega
    · by_cases h2 : c_abs (st.coeffs.getD idx 0) < MIN_COEFF_VALUE
      · have e1 : embed_step data r st idx = st := by
          unfold embed_step; rw [if_neg h1, if_pos h2]
        rw [e1, if_pos h2]
        exact embed_walk_progress data r rest hnd.2 st h8 hle
      · obtain ⟨_, hbi', hby'⟩ := embed_step_written data r st idx h1 h2
        have hb : bits_written (embed_step data r st idx) = bits_written st + 1 := by
          unfold bits_written
          rw [hbi', hby']
          split <;> omega
        have h8' : (embed_step data r st idx).bit_index < 8 := by
          rw [hbi']; split <;> omega
        obtain ⟨ih1, ih2⟩ := embed_walk_progress data r rest hnd.2 (embed_step data r st idx)
          h8' (by rw [hb]; unfold bits_written; omega)
        refine ⟨ih1, ?_⟩
        rw [ih2, hb, walk_eligible_step data r st idx rest hnd.1, if_neg h2]
        simp only [List.length_cons]
        omega

theorem walk_eligible_length (std : StdLib) (jpeg_data : AdvancedJPEGData) :
    (walk_eligible jpeg_data.dct_coefficients
      (generate_secure_embedding_sequence std jpeg_data.dct_coefficients.length
        EMBED_SEED)).length = usable_coefficients jpeg_data := by
  unfold walk_eligible usable_coefficients
  rw [((sequence_perm std _ EMBED_SEED).filter _).length_eq]
  unfold ac_positions
  rw [List.filter_filter]
  congr 1
  apply List.filter_congr
  intro i _
  rw [Bool.eq_iff_iff]
  simp [MIN_COEFF_VALUE]

/-- Source: `embed_bits_with_resistance` returns `true` exactly when the buffer holds at least
`8 * data.size()` coefficients that pass the eligibility check. -/
theorem embed_bits_success_iff (std : StdLib) (jpeg_data : AdvancedJPEGData) (data : List Nat)
    (r : Int) :
    (embed_bits_with_resistance std jpeg_data data r).1 = true ↔
      8 * data.length ≤ usable_coefficients jpeg_data := by
  unfold embed_bits_with_resistance embed_walk
  simp only [decide_eq_true_eq]
  obtain ⟨h1, h2⟩ := embed_walk_progress data r
    (generate_secure_embedding_sequence std jpeg_data.dct_coefficients.length EMBED_SEED)
    (sequence_nodup std _ _) ⟨jpeg_data.dct_coefficients, 0, 0⟩ (Nat.zero_lt_succ 7)
    (by unfold bits_written; simp)
  rw [walk_eligible_length std jpeg_data] at h2
  unfold bits_written at h2
  simp only [Nat.mul_zero, Nat.zero_add] at h2
  omega

/-! ## Extraction walks with different expected sizes -/

theorem extract_step_break (coeffs : List Int) (n : Nat) (st : ExtractState) (idx : Nat)
    (h : st.result.length ≥ n) : extract_step coeffs n st idx = st := by
  unfold extract_step; rw [if_pos h]

theorem extract_step_skip (coeffs : List Int) (n : Nat) (st : ExtractState) (idx : Nat)
    (h1 : ¬ st.result.length ≥ n) (h2 : c_abs (coeffs.getD idx 0) < MIN_COEFF_VALUE) :
    extract_step coeffs n st idx = st := by
  unfold extract_step; rw [if_neg h1, if_pos h2]

theorem extract_step_read (coeffs : List Int) (n : Nat) (st : ExtractState) (idx : Nat)
    (h1 : ¬ st.result.length ≥ n) (h2 : ¬ c_abs (coeffs.getD idx 0) < MIN_COEFF_VALUE) :
    extract_step coeffs n st idx =
      if st.bit_index + 1 ≥ 8 then
        ⟨st.result ++ [(st.current_byte |||
          ((to_uint32 (c_and (coeffs.getD idx 0) 1) % 256) <<< (7 - st.bit_index))) % 256], 0, 0⟩
      else
        ⟨st.result, st.bit_index + 1, (st.current_byte |||
          ((to_uint32 (c_and (coeffs.getD idx 0) 1) % 256) <<< (7 - st.bit_index))) % 256⟩ := by
  unfold extract_step; rw [if_neg h1, if_neg h2]

theorem extract_step_initial (coeffs : List Int) (n m : Nat) (hnm : n ≤ m) (a b : ExtractState)
    (idx : Nat)
    (h : (b.result.length < n ∧ a = b) ∨ (n ≤ b.result.length ∧ a.result = b.result.take n)) :
    ((extract_step coeffs m b idx).result.length < n ∧
        extract_step coeffs n a idx = extract_step coeffs m b idx) ∨
      (n ≤ (extract_step coeffs m b idx).result.length ∧
        (extract_step coeffs n a idx).result = (extract_step coeffs m b idx).result.take n) := by
  rcases h with ⟨hlt, rfl⟩ | ⟨hge, hres⟩
  · by_cases h2 : c_abs (coeffs.getD idx 0) < MIN_COEFF_VALUE
    · rw [extract_step_skip coeffs n a idx (by omega) h2,
        extract_step_skip coeffs m a idx (by omega) h2]
      exact Or.inl ⟨hlt, rfl⟩
    · rw [extract_step_read coeffs n a idx (by omega) h2,
        extract_step_read coeffs m a idx (by omega) h2]
      by_cases h8 : a.bit_index + 1 ≥ 8
      · simp only [if_pos h8, List.length_append, List.length_singleton]
        by_cases hn : a.result.length + 1 < n
        · exact Or.inl ⟨hn, trivial⟩
        · refine Or.inr ⟨by omega, ?_⟩
          rw [List.take_of_length_le (by simp; omega)]
      · simp only [if_neg h8]
        exact Or.inl ⟨hlt, trivial⟩
  · have hlen : a.result.length = n := by rw [hres, List.length_take]; omega
    rw [extract_step_break coeffs n a idx (by omega), hres]
    by_cases h1 : b.result.length ≥ m
    · rw [extract_step_break coeffs m b idx h1]
      exact Or.inr ⟨hge, rfl⟩
    · by_cases h2 : c_abs (coeffs.getD idx 0) < MIN_COEFF_VALUE
      · rw [extract_step_skip coeffs m b idx h1 h2]
        exact Or.inr ⟨hge, rfl⟩
      · rw [extract_step_read coeffs m b idx h1 h2]
        by_cases h8 : b.bit_index + 1 ≥ 8
        · simp only [if_pos h8, List.length_append, List.length_singleton]
          exact Or.inr ⟨by omega, (List.take_append_of_le_length hge).symm⟩
        · simp only [if_neg h8]
          exact Or.inr ⟨hge, trivial⟩

theorem extract_foldl_initial (coeffs : List Int) (n m : Nat) (hnm : n ≤ m) :
    ∀ (seq : List Nat) (a b : ExtractState),
      ((b.result.length < n ∧ a = b) ∨ (n ≤ b.result.length ∧ a.result = b.result.take n)) →
      (seq.foldl (extract_step coeffs n) a).result =
        (seq.foldl (extract_step coeffs m) b).result.take n
  | [], a, b, h => by
    rcases h with ⟨hlt, rfl⟩ | ⟨_, hres⟩
    · simp only [List.foldl_nil]
      rw [List.take_of_length_le (by omega)]
    · exact hres
  | idx :: rest, a, b, h => by
    simp only [List.foldl_cons]
    exact extract_foldl_initial coeffs n m hnm rest _ _
      (extract_step_initial coeffs n m hnm a b idx h)

/-- Extraction with a smaller expected size returns a prefix of extraction with a larger one. -/
theorem extract_bits_initial (std : StdLib) (jpeg_data : AdvancedJPEGData) (n m : Nat)
    (hnm : n ≤ m) :
    extract_bits_with_verification std jpeg_data n =
      (extract_bits_with_verification std jpeg_data m).take n := by
  unfold extract_bits_with_verification
  apply extract_foldl_initial _ n m hnm
  by_cases h : 0 < n
  · exact Or.inl ⟨h, rfl⟩
  · exact Or.inr ⟨by omega, by simp⟩

/-! ## Big-endian fields of the frame -/

theorem be32_round_trip (v : Nat) (hv : v < 4294967296) :
    ((((v >>> 24) &&& 0xFF) <<< 24) ||| (((v >>> 16) &&& 0xFF) <<< 16) |||
      (((v >>> 8) &&& 0xFF) <<< 8) ||| (v &&& 0xFF)) % 4294967296 = v := by
  have e255 : (0xFF : Nat) = 2 ^ 8 - 1 := rfl
  have e32 : (4294967296 : Nat) = 2 ^ 32 := rfl
  rw [e255, e32]
  apply Nat.eq_of_testBit_eq
  intro i
  simp only [Nat.testBit_mod_two_pow, Nat.testBit_or, Nat.testBit_shiftLeft, Nat.testBit_and,
    Nat.testBit_shiftRight, Nat.testBit_two_pow_sub_one]
  by_cases h32 : i < 32
  · by_cases h24 : 24 ≤ i
    · have e : 24 + (i - 24) = i := by omega
      have a1 : ¬ i - 16 < 8 := by omega
      have a2 : ¬ i - 8 < 8 := by omega
      have a3 : ¬ i < 8 := by omega
      have a4 : i - 24 < 8 := by omega
      simp [h32, h24, e, a1, a2, a3, a4]
    · by_cases h16 : 16 ≤ i
      · have e : 16 + (i - 16) = i := by omega
        have a1 : i - 16 < 8 := by omega
        have a2 : ¬ i - 8 < 8 := by omega
        have a3 : ¬ i < 8 := by omega
        simp [h32, h24, h16, e, a1, a2, a3]
      · by_cases h8 : 8 ≤ i
        · have e : 8 + (i - 8) = i := by omega
          have a2 : i - 8 < 8 := by omega
          have a3 : ¬ i < 8 := by omega
          simp [h32, h24, h16, h8, e, a2, a3]
        · have a3 : i < 8 := by omega
          simp [h32, h24, h16, h8, a3]
  · have : v.testBit i = false := Nat.testBit_lt_two_pow (by
      calc v < 2 ^ 32 := hv
        _ ≤ 2 ^ i := Nat.pow_le_pow_right (by norm_num) (by omega))
    simp [h32, this]

theorem parse_push_be32 (v : Nat) (hv : v < 4294967296) (rest : List Nat) :
    parse_be32 (push_be32 v ++ rest) 0 = v := by
  unfold parse_be32 push_be32
  simp only [List.cons_append, List.getD_cons_zero, List.getD_cons_succ, Nat.zero_add]
  exact be32_round_trip v hv

theorem parse_push_be32_second (a v : Nat) (hv : v < 4294967296) (rest : List Nat) :
    parse_be32 (push_be32 a ++ push_be32 v ++ rest) 4 = v := by
  unfold parse_be32 push_be32
  simp only [List.cons_append, List.getD_cons_zero, List.getD_cons_succ, Nat.zero_add,
    List.nil_append]
  exact be32_round_trip v hv

theorem push_be32_length (v : Nat) : (push_be32 v).length = 4 := rfl

theorem crc32_step_lt (crc b : Nat) (h : crc < 4294967296) :
    crc32_table ((crc ^^^ b) &&& 0xFF) ^^^ (crc >>> 8) < 4294967296 := by
  have e32 : (4294967296 : Nat) = 2 ^ 32 := rfl
  rw [e32] at h ⊢
  apply Nat.xor_lt_two_pow
  · unfold crc32_table
    by_cases hi : (crc ^^^ b) &&& 0xFF < crc32_table_init.length
    · rw [List.getD_eq_getElem _ _ hi]
      have hall : ∀ x ∈ crc32_table_init, x < 2 ^ 32 := by decide
      exact hall _ (List.getElem_mem _)
    · rw [List.getD_eq_default _ _ (by omega)]
      norm_num
  · rw [Nat.shiftRight_eq_div_pow]
    exact lt_of_le_of_lt (Nat.div_le_self _ _) h

theorem crc32_foldl_lt (data : List Nat) : ∀ (crc : Nat), crc < 4294967296 →
    data.foldl (fun crc b => crc32_table ((crc ^^^ b) &&& 0xFF) ^^^ (crc >>> 8)) crc
      < 4294967296 := by
  induction data with
  | nil => intro crc h; exact h
  | cons b rest ih =>
    intro crc h
    rw [List.foldl_cons]
    exact ih _ (crc32_step_lt crc b h)

theorem calculate_crc32_lt (data : List Nat) : calculate_crc32 data < 4294967296 := by
  unfold calculate_crc32
  have e32 : (4294967296 : Nat) = 2 ^ 32 := rfl
  rw [e32]
  apply Nat.xor_lt_two_pow
  · rw [← e32]; exact crc32_foldl_lt data _ (by norm_num)
  · norm_num

/-! ## Decoding a frame that is read back -/

/-- The result of `outguess_extract_message` when the two extraction walks return a header
declaring `md.length ≤ 10,000,000` and the stored checksum `c`, followed by the bytes `md`. -/
theorem extract_message_of_stream (std : StdLib) (jpeg_data : AdvancedJPEGData)
    (config : Option outguess_config_t) (md : List Nat) (c : Nat)
    (hlen : md.length ≤ 10000000) (hc : c < 4294967296)
    (h8 : extract_bits_with_verification std jpeg_data 8 = push_be32 md.length ++ push_be32 c)
    (hfull : extract_bits_with_verification std jpeg_data (8 + md.length) =
      push_be32 md.length ++ push_be32 c ++ md) :
    outguess_extract_message std jpeg_data config =
      if calculate_crc32 md ≠ c then
        extract_failure outguess_error_t.OUTGUESS_ERROR_EXTRACTION_FAILED
          "Message integrity check failed"
      else
        ⟨some (c_str (recover_message std md config)), (recover_message std md config).length,
          true, outguess_error_t.OUTGUESS_SUCCESS, none⟩ := by
  have hL : parse_be32 (push_be32 md.length ++ push_be32 c) 0 = md.length := by
    have := parse_push_be32 md.length (by omega) (push_be32 c)
    exact this
  have hC : parse_be32 (push_be32 md.length ++ push_be32 c) 4 = c := by
    have := parse_push_be32_second md.length c hc []
    simpa using this
  unfold outguess_extract_message
  simp only [h8, hL, hC, hfull]
  rw [if_neg (by simp [push_be32_length]), if_neg (by omega),
    if_neg (by simp [push_be32_length]; omega)]
  have hdrop : (push_be32 md.length ++ push_be32 c ++ md).drop 8 = md := rfl
  rw [hdrop]

/-! ## Positions that pass the eligibility check -/

theorem walk_eligible_mem (coeffs : List Int) (seq : List Nat) (j : Nat)
    (hj : j < (walk_eligible coeffs seq).length) :
    (walk_eligible coeffs seq).getD j 0 ∈ seq ∧
      ¬ c_abs (coeffs.getD ((walk_eligible coeffs seq).getD j 0) 0) < MIN_COEFF_VALUE := by
  rw [List.getD_eq_getElem _ _ hj]
  have hm : (walk_eligible coeffs seq)[j] ∈ walk_eligible coeffs seq := List.getElem_mem _
  unfold walk_eligible at hm
  rw [List.mem_filter] at hm
  refine ⟨hm.1, ?_⟩
  have h2 := hm.2
  rw [Bool.not_eq_true', decide_eq_false_iff_not] at h2
  exact h2

theorem walk_eligible_eq_filter (std : StdLib) (coeffs : List Int) :
    walk_eligible coeffs (generate_secure_embedding_sequence std coeffs.length EMBED_SEED) =
      (generate_secure_embedding_sequence std coeffs.length EMBED_SEED).filter
        (fun i => decide (eligible coeffs i)) := by
  unfold walk_eligible
  apply List.filter_congr
  intro i hi
  have hm := ((mem_sequence std _ _ i).mp hi).2
  rw [Bool.eq_iff_iff, Bool.not_eq_true', decide_eq_false_iff_not, decide_eq_true_eq,
    c_abs_eq_abs]
  unfold eligible MIN_COEFF_VALUE
  constructor
  · intro h
    exact ⟨hm, by omega⟩
  · intro h
    have := h.2
    omega

/-! ## Round trip of the bit walks when no write turns `-2` into `-1` -/

theorem bits_written_div (st : EmbedState) (h8 : st.bit_index < 8) :
    bits_written st / 8 = st.byte_index ∧ bits_written st % 8 = st.bit_index := by
  unfold bits_written
  omega

/-- The embedding walk mirrored by the extraction walk over the buffer it leaves, when every
coefficient equal to `-2` that receives a bit below resistance level 7 receives the bit 0. -/
theorem walk_round_trip_at (data : List Nat) (hdata : ∀ b ∈ data, b < 256) (r : Int) :
    ∀ (seq : List Nat), seq.Nodup → ∀ (st : EmbedState) (est : ExtractState),
      walk_inv data st est → (∀ i ∈ seq, is_int16 (st.coeffs.getD i 0)) →
      (r ≥ 7 ∨ ∀ k, k < (walk_eligible st.coeffs seq).length →
        bits_written st + k < 8 * data.length →
        st.coeffs.getD ((walk_eligible st.coeffs seq).getD k 0) 0 = -2 →
        data_bit data ((bits_written st + k) / 8) ((bits_written st + k) % 8) = 0) →
      walk_inv data (seq.foldl (embed_step data r) st)
        (seq.foldl (extract_step (seq.foldl (embed_step data r) st).coeffs data.length) est)
  | [], _, _, _, hinv, _, _ => hinv
  | idx :: rest, hnd, st, est, hinv, h16, hsafe => by
    rw [List.nodup_cons] at hnd
    have hlt8 : st.bit_index < 8 := hinv.2.1
    obtain ⟨hdiv, hmod⟩ := bits_written_div st hlt8
    simp only [List.foldl_cons]
    apply walk_round_trip_at data hdata r rest hnd.2
    · apply step_inv_at data hdata r st est idx _ hinv (h16 idx (List.mem_cons_self _ _))
      · intro h1 h2
        rcases hsafe with h7 | hk
        · exact Or.inl h7
        · by_cases hv : st.coeffs.getD idx 0 = -2
          · right; right
            have hW : walk_eligible st.coeffs (idx :: rest) =
                idx :: walk_eligible st.coeffs rest := by
              rw [walk_eligible_cons, if_neg h2]
            have := hk 0 (by rw [hW]; simp) (by unfold bits_written; omega)
              (by rw [hW]; exact hv)
            rw [Nat.add_zero, hdiv, hmod] at this
            exact this
          · exact Or.inr (Or.inl hv)
      · exact embed_foldl_getD_of_not_mem data r rest _ idx hnd.1
    · intro i hi
      rw [embed_step_getD_of_ne data r st idx i (fun e => hnd.1 (e ▸ hi))]
      exact h16 i (List.mem_cons_of_mem _ hi)
    · rcases hsafe with h7 | hk
      · exact Or.inl h7
      · right
        intro k hkW hkb hval
        rw [walk_eligible_step data r st idx rest hnd.1] at hkW hval
        obtain ⟨hmem, _⟩ := walk_eligible_mem st.coeffs rest k hkW
        have hne : (walk_eligible st.coeffs rest).getD k 0 ≠ idx := fun e => hnd.1 (e ▸ hmem)
        rw [embed_step_getD_of_ne data r st idx _ hne] at hval
        by_cases h1 : st.byte_index ≥ data.length
        · have e1 : embed_step data r st idx = st := by unfold embed_step; rw [if_pos h1]
          rw [e1] at hkb
          unfold bits_written at hkb
          omega
        · by_cases h2 : c_abs (st.coeffs.getD idx 0) < MIN_COEFF_VALUE
          · have e1 : embed_step data r st idx = st := by
              unfold embed_step; rw [if_neg h1, if_pos h2]
            rw [e1] at hkb ⊢
            have hW : walk_eligible st.coeffs (idx :: rest) = walk_eligible st.coeffs rest := by
              rw [walk_eligible_cons, if_pos h2]
            exact hk k (by rw [hW]; exact hkW) hkb (by rw [hW]; exact hval)
          · obtain ⟨_, hbi', hby'⟩ := embed_step_written data r st idx h1 h2
            have hb : bits_written (embed_step data r st idx) = bits_written st + 1 := by
              unfold bits_written
              rw [hbi', hby']
              split <;> omega
            have hW : walk_eligible st.coeffs (idx :: rest) =
                idx :: walk_eligible st.coeffs rest := by
              rw [walk_eligible_cons, if_neg h2]
            rw [hb] at hkb ⊢
            have := hk (k + 1) (by rw [hW, List.length_cons]; omega) (by omega)
              (by rw [hW]; exact hval)
            rw [show bits_written st + (k + 1) = bits_written st + 1 + k by omega] at this
            exact this

/-- On a buffer of 16-bit coefficients where no coefficient equal to `-2` receives the bit 1
below resistance level 7, a successful `embed_bits_with_resistance` is read back exactly by
`extract_bits_with_verification` with `expected_size = data.size()`. The positions are those
of the eligible coefficients of the input buffer in sequence order. -/
theorem extract_after_embed_at (std : StdLib) (jpeg_data : AdvancedJPEGData) (data : List Nat)
    (r : Int) (hdata : ∀ b ∈ data, b < 256)
    (hbuf : ∀ v ∈ jpeg_data.dct_coefficients, is_int16 v)
    (hsafe : r ≥ 7 ∨ ∀ k, k < 8 * data.length →
      jpeg_data.dct_coefficients.getD
        (((generate_secure_embedding_sequence std jpeg_data.dct_coefficients.length
          EMBED_SEED).filter (fun i => decide (eligible jpeg_data.dct_coefficients i))).getD
            k 0) 0 = -2 →
      data_bit data (k / 8) (k % 8) = 0)
    (hsucc : (embed_bits_with_resistance std jpeg_data data r).1 = true) :
    extract_bits_with_verification std (embed_bits_with_resistance std jpeg_data data r).2
      data.length = data := by
  have hlen := embed_bits_length std jpeg_data data r
  unfold extract_bits_with_verification
  rw [hlen]
  unfold embed_bits_with_resistance embed_walk at hsucc ⊢
  simp only [decide_eq_true_eq] at hsucc
  have h16 : ∀ i, is_int16 (jpeg_data.dct_coefficients.getD i 0) := by
    intro i
    by_cases hlt : i < jpeg_data.dct_coefficients.length
    · rw [List.getD_eq_getElem _ _ hlt]
      exact hbuf _ (List.getElem_mem _)
    · rw [List.getD_eq_default _ _ (by omega)]
      decide
  have hinv := walk_round_trip_at data hdata r
    (generate_secure_embedding_sequence std jpeg_data.dct_coefficients.length EMBED_SEED)
    (sequence_nodup std _ _) ⟨jpeg_data.dct_coefficients, 0, 0⟩ ⟨[], 0, 0⟩
    (walk_inv_init data hdata _)
    (fun i _ => h16 i)
    (by
      rcases hsafe with h7 | hk
      · exact Or.inl h7
      · right
        intro k _ hkb hval
        have hb0 : bits_written (⟨jpeg_data.dct_coefficients, 0, 0⟩ : EmbedState) = 0 := rfl
        rw [hb0, Nat.zero_add] at hkb ⊢
        rw [← walk_eligible_eq_filter] at hk
        exact hk k hkb hval)
  obtain ⟨_, _, hle, hres, _⟩ := hinv
  rw [hres, List.take_of_length_le hsucc]

/-! ## Capacity estimate against the coefficients really available -/


theorem verify_of_extract_eq (std : StdLib) (jpeg_data : AdvancedJPEGData) (data : List Nat)
    (h : extract_bits_with_verification std jpeg_data data.length = data) :
    verify_embedding_integrity std jpeg_data data = true := by
  unfold verify_embedding_integrity
  simp only [h]
  simp

theorem push_be32_bytes (v : Nat) : ∀ b ∈ push_be32 v, b < 256 := by
  have h : ∀ x : Nat, x &&& 0xFF < 256 := by
    intro x
    have h := Nat.and_pow_two_sub_one_eq_mod x 8
    norm_num at h
    rw [h]
    exact Nat.mod_lt _ (by norm_num)
  intro b hb
  unfold push_be32 at hb
  simp only [List.mem_cons, List.mem_singleton, List.not_mem_nil, or_false] at hb
  rcases hb with rfl | rfl | rfl | rfl <;> exact h _

theorem frame_message_bytes (md : List Nat) (hmd : ∀ b ∈ md, b < 256) :
    ∀ b ∈ frame_message md, b < 256 := by
  intro b hb
  unfold frame_message at hb
  rw [List.mem_append, List.mem_append] at hb
  rcases hb with (hb | hb) | hb
  · exact push_be32_bytes _ b hb
  · exact push_be32_bytes _ b hb
  · exact hmd b hb

theorem frame_message_length (md : List Nat) : (frame_message md).length = 8 + md.length := by
  unfold frame_message
  simp only [List.length_append, push_be32_length]

theorem prepare_message_data_props (std : StdLib) (message : List Nat)
    (config : Option outguess_config_t) (hmsg : ∀ b ∈ message, b < 256) :
    (∀ b ∈ prepare_message_data std message config, b < 256) ∧
    (prepare_message_data std message config).length = message.length ∧
    recover_message std (prepare_message_data std message config) config = message := by
  unfold prepare_message_data recover_message
  cases config_password config with
  | none => exact ⟨hmsg, rfl, rfl⟩
  | some p =>
    exact ⟨encrypt_bytes std message p, encrypt_length std message p,
      decrypt_encrypt std message p hmsg⟩

theorem write_ok_of_buffer (jpeg_data : AdvancedJPEGData) (r : Int)
    (hbuf : ∀ v ∈ jpeg_data.dct_coefficients, is_int16 v)
    (h2 : r ≥ 7 ∨ ∀ i, i % 64 ≠ 0 → jpeg_data.dct_coefficients.getD i 0 ≠ -2) :
    ∀ i, i % 64 ≠ 0 → write_ok r (jpeg_data.dct_coefficients.getD i 0) := by
  intro i hi
  refine ⟨?_, ?_⟩
  · by_cases hlt : i < jpeg_data.dct_coefficients.length
    · rw [List.getD_eq_getElem _ _ hlt]
      exact hbuf _ (List.getElem_mem _)
    · rw [List.getD_eq_default _ _ (by omega)]
      decide
  · rcases h2 with h | h
    · exact Or.inl h
    · exact Or.inr (h i hi)

/-- When the capacity check passes, the buffer holds enough eligible coefficients for the
frame and no coefficient equal to `-2` receives the bit 1 below resistance level 7,
`outguess_embed_message` succeeds and both extraction walks of a later
`outguess_extract_message` read the frame back. -/
theorem embed_message_reads_back (std : StdLib) (jpeg_data : AdvancedJPEGData)
    (message : List Nat) (config : Option outguess_config_t)
    (hbuf : ∀ v ∈ jpeg_data.dct_coefficients, is_int16 v)
    (hmsg : ∀ b ∈ message, b < 256)
    (hsafe : config_resistance config ≥ 7 ∨ ∀ k, k < 8 * (8 + message.length) →
      jpeg_data.dct_coefficients.getD
        (((generate_secure_embedding_sequence std jpeg_data.dct_coefficients.length
          EMBED_SEED).filter (fun i => decide (eligible jpeg_data.dct_coefficients i))).getD
            k 0) 0 = -2 →
      data_bit (frame_message (prepare_message_data std message config)) (k / 8) (k % 8) = 0)
    (h32 : message.length < 4294967296)
    (hroom : 8 * (8 + message.length) ≤ usable_coefficients jpeg_data)
    (hcap : (message.length : Int) ≤ outguess_get_max_message_size std jpeg_data
      (config_resistance config) (config_quality config)) :
    (outguess_embed_message std true jpeg_data message config).1 =
      ⟨message.length, outguess_error_t.OUTGUESS_SUCCESS, none⟩ ∧
    extract_bits_with_verification std
      (outguess_embed_message std true jpeg_data message config).2 8 =
        push_be32 (prepare_message_data std message config).length ++
          push_be32 (calculate_crc32 (prepare_message_data std message config)) ∧
    extract_bits_with_verification std
      (outguess_embed_message std true jpeg_data message config).2
      (8 + (prepare_message_data std message config).length) =
        push_be32 (prepare_message_data std message config).length ++
          push_be32 (calculate_crc32 (prepare_message_data std message config)) ++
          prepare_message_data std message config := by
  obtain ⟨hmd, hmdlen, _⟩ := prepare_message_data_props std message config hmsg
  set md := prepare_message_data std message config with hmdef
  have hflen := frame_message_length md
  have hsucc : (embed_bits_with_resistance std jpeg_data (frame_message md)
      (config_resistance config)).1 = true := by
    rw [embed_bits_success_iff, hflen, hmdlen]
    exact hroom
  have hrt := extract_after_embed_at std jpeg_data (frame_message md)
    (config_resistance config) (frame_message_bytes md hmd) hbuf
    (by rw [hflen, hmdlen]; exact hsafe) hsucc
  have hver := verify_of_extract_eq std _ _ hrt
  have hemb : outguess_embed_message std true jpeg_data message config =
      (⟨message.length, outguess_error_t.OUTGUESS_SUCCESS, none⟩,
        (embed_bits_with_resistance std jpeg_data (frame_message md)
          (config_resistance config)).2) := by
    unfold outguess_embed_message
    simp only [← hmdef]
    rw [if_neg (by omega)]
    simp [hsucc, hver]
  rw [hemb]
  refine ⟨rfl, ?_⟩
  simp only
  have hmod : md.length % 4294967296 = md.length := Nat.mod_eq_of_lt (by omega)
  have hframe : frame_message md =
      push_be32 md.length ++ push_be32 (calculate_crc32 md) ++ md := by
    unfold frame_message
    rw [hmod]
  rw [hflen] at hrt
  have hfull := hrt.trans hframe
  have h8 := extract_bits_initial std (embed_bits_with_resistance std jpeg_data (frame_message md)
    (config_resistance config)).2 8 (8 + md.length) (by omega)
  rw [hfull] at h8
  have htake : (push_be32 md.length ++ push_be32 (calculate_crc32 md) ++ md).take 8 =
      push_be32 md.length ++ push_be32 (calculate_crc32 md) := by
    rw [List.take_append_of_le_length (by simp [push_be32_length])]
    exact List.take_of_length_le (by simp [push_be32_length])
  rw [htake] at h8
  exact ⟨h8, hfull⟩

/-- A declared length above 10,000,000 is rejected after the header walk. -/
theorem extract_message_oversize (std : StdLib) (jpeg_data : AdvancedJPEGData)
    (config : Option outguess_config_t) (L c : Nat) (hL : 10000000 < L) (hL32 : L < 4294967296)
    (h8 : extract_bits_with_verification std jpeg_data 8 = push_be32 L ++ push_be32 c) :
    outguess_extract_message std jpeg_data config =
      extract_failure outguess_error_t.OUTGUESS_ERROR_EXTRACTION_FAILED
        "Invalid message length detected" := by
  have hP : parse_be32 (push_be32 L ++ push_be32 c) 0 = L := parse_push_be32 L hL32 _
  unfold outguess_extract_message
  simp only [h8, hP]
  rw [if_neg (by simp [push_be32_length]), if_pos hL]

theorem usable_replicate (N : Nat) (v : Int) (hv : ¬ c_abs v < MIN_COEFF_VALUE) :
    usable_coefficients ⟨List.replicate N v⟩ = N - (N + 63) / 64 := by
  rw [← ac_positions_length]
  unfold usable_coefficients ac_positions
  simp only [List.length_replicate]
  congr 1
  apply List.filter_congr
  intro i hi
  rw [List.mem_range] at hi
  have hget : (List.replicate N v).getD i 0 = v := by
    rw [List.getD_eq_getElem _ _ (by simpa using hi)]
    simp
  rw [hget]
  have : decide (c_abs v ≥ MIN_COEFF_VALUE) = true := by
    rw [decide_eq_true_eq]
    omega
  rw [this, Bool.true_and]

/-- Embedding into a buffer of `N` copies of a value a message of `L` copies of a byte, with
`L` above the 10,000,000 limit: embedding succeeds, the walks of a later extraction read the
frame back, and extraction (with any config) is rejected. -/
theorem oversize_round_trip_fails (std : StdLib) (N L : Nat) (v : Int) (b : Nat)
    (config config' : Option outguess_config_t)
    (hv16 : is_int16 v) (hv : ¬ c_abs v < MIN_COEFF_VALUE) (hv2 : v ≠ -2) (hb : b < 256)
    (hL : 10000000 < L) (hL32 : L < 4294967296)
    (hroom : 8 * (8 + L) ≤ N - (N + 63) / 64)
    (hcap : (L : Int) ≤ outguess_get_max_message_size std ⟨List.replicate N v⟩
      (config_resistance config) (config_quality config)) :
    (outguess_embed_message std true ⟨List.replicate N v⟩ (List.replicate L b) config).1 =
      ⟨L, outguess_error_t.OUTGUESS_SUCCESS, none⟩ ∧
    extract_bits_with_verification std
      (outguess_embed_message std true ⟨List.replicate N v⟩ (List.replicate L b) config).2
      (8 + L) = frame_message (prepare_message_data std (List.replicate L b) config) ∧
    outguess_extract_message std
      (outguess_embed_message std true ⟨List.replicate N v⟩ (List.replicate L b) config).2 config'
      = extract_failure outguess_error_t.OUTGUESS_ERROR_EXTRACTION_FAILED
        "Invalid message length detected" := by
  have hlen : (List.replicate L b).length = L := List.length_replicate _ _
  have hmsg : ∀ x ∈ List.replicate L b, x < 256 := by
    intro x hx
    rw [List.eq_of_mem_replicate hx]
    exact hb
  obtain ⟨h1, h8, hfull⟩ := embed_message_reads_back std ⟨List.replicate N v⟩
    (List.replicate L b) config
    (by intro x hx; rw [List.eq_of_mem_replicate hx]; exact hv16)
    hmsg
    (Or.inr (by
      intro k _ h
      exfalso
      revert h
      generalize ((generate_secure_embedding_sequence std
        (⟨List.replicate N v⟩ : AdvancedJPEGData).dct_coefficients.length EMBED_SEED).filter
        (fun i => decide (eligible (⟨List.replicate N v⟩ : AdvancedJPEGData).dct_coefficients
          i))).getD k 0 = i
      show (List.replicate N v).getD i 0 ≠ -2
      by_cases hi : i < (List.replicate N v).length
      · rw [List.getD_eq_getElem _ _ hi]; simpa using hv2
      · rw [List.getD_eq_default _ _ (Nat.le_of_not_lt hi)]; decide))
    (by rw [hlen]; exact hL32)
    (by rw [hlen, usable_replicate N v hv]; exact hroom)
    (by rw [hlen]; exact hcap)
  rw [hlen] at h1
  have hmdlen := (prepare_message_data_props std (List.replicate L b) config hmsg).2.1
  rw [hmdlen, hlen] at h8 hfull
  refine ⟨h1, ?_, extract_message_oversize std _ config' L _ hL hL32 h8⟩
  rw [hfull]
  unfold frame_message
  rw [hmdlen, hlen, Nat.mod_eq_of_lt hL32]

/-! ## Round trip of a message -/

theorem capacity_replicate_large (std : StdLib) :
    ((10000001 : Nat) : Int) ≤
      outguess_get_max_message_size std ⟨List.replicate 82000000 3⟩ 1 100 := by
  have hu := usable_replicate 82000000 3 (by decide)
  rw [max_size_full std _ (by rw [hu]; norm_num), hu]
  apply le_max_of_le_right
  norm_num

theorem embed_coeff_ne_zero (r : Int) (bit : Nat) (v : Int) : embed_coeff r bit v ≠ 0 := by
  unfold embed_coeff
  split_ifs <;> first | decide | assumption

theorem embed_step_zero_free (data : List Nat) (r : Int) (st : EmbedState) (idx i : Nat) :
    (embed_step data r st idx).coeffs.getD i 0 = st.coeffs.getD i 0 ∨
      (embed_step data r st idx).coeffs.getD i 0 ≠ 0 := by
  by_cases hi : i = idx
  · subst hi
    by_cases h1 : st.byte_index ≥ data.length
    · left; unfold embed_step; rw [if_pos h1]
    · by_cases h2 : c_abs (st.coeffs.getD i 0) < MIN_COEFF_VALUE
      · left; unfold embed_step; rw [if_neg h1, if_pos h2]
      · right
        rw [(embed_step_written data r st i h1 h2).1]
        exact embed_coeff_ne_zero _ _ _
  · exact Or.inl (embed_step_getD_of_ne data r st idx i hi)

theorem embed_foldl_zero_free (data : List Nat) (r : Int) :
    ∀ (seq : List Nat) (st : EmbedState) (i : Nat),
      (seq.foldl (embed_step data r) st).coeffs.getD i 0 = st.coeffs.getD i 0 ∨
        (seq.foldl (embed_step data r) st).coeffs.getD i 0 ≠ 0
  | [], _, _ => Or.inl rfl
  | idx :: rest, st, i => by
    rw [List.foldl_cons]
    rcases embed_foldl_zero_free data r rest (embed_step data r st idx) i with h | h
    · rcases embed_step_zero_free data r st idx i with h' | h'
      · exact Or.inl (h.trans h')
      · exact Or.inr (by rw [h]; exact h')
    · exact Or.inr h

/-- The `j`-th bit consumed by a walk goes to the `j`-th position that passes the eligibility
check, and the coefficient there ends as `embed_coeff` of its value before the walk. -/
theorem embed_walk_written (data : List Nat) (r : Int) :
    ∀ (seq : List Nat), seq.Nodup → ∀ (st : EmbedState), st.bit_index < 8 →
      bits_written st ≤ 8 * data.length → ∀ (j : Nat),
      bits_written st + j < bits_written (seq.foldl (embed_step data r) st) →
      j < (walk_eligible st.coeffs seq).length ∧
      (seq.foldl (embed_step data r) st).coeffs.getD ((walk_eligible st.coeffs seq).getD j 0) 0 =
        embed_coeff r (data_bit data ((bits_written st + j) / 8) ((bits_written st + j) % 8))
          (st.coeffs.getD ((walk_eligible st.coeffs seq).getD j 0) 0)
  | [], _, st, _, _, j, hj => by
    simp only [List.foldl_nil] at hj
    omega
  | idx :: rest, hnd, st, h8, hle, j, hj => by
    rw [List.nodup_cons] at hnd
    rw [List.foldl_cons] at hj ⊢
    rw [walk_eligible_cons]
    by_cases h1 : st.byte_index ≥ data.length
    · have e1 : embed_step data r st idx = st := by unfold embed_step; rw [if_pos h1]
      rw [e1] at hj
      have hp := (embed_walk_progress data r rest hnd.2 st h8 hle).2
      rw [hp] at hj
      unfold bits_written at hj hle
      omega
    · by_cases h2 : c_abs (st.coeffs.getD idx 0) < MIN_COEFF_VALUE
      · have e1 : embed_step data r st idx = st := by
          unfold embed_step; rw [if_neg h1, if_pos h2]
        rw [e1] at hj ⊢
        rw [if_pos h2]
        exact embed_walk_written data r rest hnd.2 st h8 hle j hj
      · obtain ⟨hw, hbi', hby'⟩ := embed_step_written data r st idx h1 h2
        have hb : bits_written (embed_step data r st idx) = bits_written st + 1 := by
          unfold bits_written
          rw [hbi', hby']
          split <;> omega
        have h8' : (embed_step data r st idx).bit_index < 8 := by
          rw [hbi']; split <;> omega
        have hle' : bits_written (embed_step data r st idx) ≤ 8 * data.length := by
          rw [hb]; unfold bits_written; omega
        rw [if_neg h2]
        cases j with
        | zero =>
          refine ⟨by simp, ?_⟩
          simp only [List.getD_cons_zero, Nat.add_zero]
          rw [embed_foldl_getD_of_not_mem data r rest _ idx hnd.1, hw]
          have hdiv : bits_written st / 8 = st.byte_index := by unfold bits_written; omega
          have hmod : bits_written st % 8 = st.bit_index := by unfold bits_written; omega
          rw [hdiv, hmod]
        | succ j' =>
          have hj' : bits_written (embed_step data r st idx) + j' <
              bits_written (rest.foldl (embed_step data r) (embed_step data r st idx)) := by
            rw [hb]; omega
          obtain ⟨ih1, ih2⟩ := embed_walk_written data r rest hnd.2 (embed_step data r st idx)
            h8' hle' j' hj'
          rw [walk_eligible_step data r st idx rest hnd.1] at ih1 ih2
          refine ⟨by simp only [List.length_cons]; omega, ?_⟩
          simp only [List.getD_cons_succ]
          have hmem := (walk_eligible_mem st.coeffs rest j' ih1).1
          rw [ih2, hb, embed_step_getD_of_ne data r st idx _ (fun e => hnd.1 (e ▸ hmem))]
          have : bits_written st + 1 + j' = bits_written st + (j' + 1) := by omega
          rw [this]

/-- C7. After `embed_bits_with_resistance` has run on any buffer of 16-bit coefficients with any
data and any resistance level: for every `k` below the number of bits written, the `k`-th
eligible position of the embedding sequence (eligibility as checked by the walk, which is
eligibility in the input buffer) exists and the coefficient `c` there has least significant bit
`c & 1` equal to `(data[k div 8] >> (7 − k mod 8)) & 1`; and no coefficient that the walk has
changed is left equal to 0. -/
theorem C7_embedding_postcondition (std : StdLib) (jpeg_data : AdvancedJPEGData)
    (data : List Nat) (resistance_level : Int)
    (hbuf : ∀ v ∈ jpeg_data.dct_coefficients, is_int16 v) :
    (∀ k, k < bits_written (embed_walk std jpeg_data data resistance_level) →
      k < (walk_eligible jpeg_data.dct_coefficients (generate_secure_embedding_sequence std
        jpeg_data.dct_coefficients.length EMBED_SEED)).length ∧
      c_and ((embed_bits_with_resistance std jpeg_data data
          resistance_level).2.dct_coefficients.getD
        ((walk_eligible jpeg_data.dct_coefficients (generate_secure_embedding_sequence std
          jpeg_data.dct_coefficients.length EMBED_SEED)).getD k 0) 0) 1 =
        ((data_bit data (k / 8) (k % 8) : Nat) : Int)) ∧
    (∀ i, (embed_bits_with_resistance std jpeg_data data resistance_level).2.dct_coefficients.getD
        i 0 ≠ jpeg_data.dct_coefficients.getD i 0 →
      (embed_bits_with_resistance std jpeg_data data resistance_level).2.dct_coefficients.getD
        i 0 ≠ 0) := by
  constructor
  · intro k hk
    unfold embed_walk at hk
    obtain ⟨h1, h2⟩ := embed_walk_written data resistance_level _ (sequence_nodup std _ _)
      ⟨jpeg_data.dct_coefficients, 0, 0⟩ (Nat.zero_lt_succ 7) (by unfold bits_written; simp) k
      (by unfold bits_written at hk ⊢; simpa using hk)
    refine ⟨h1, ?_⟩
    have hel := (walk_eligible_mem _ _ k h1).2
    have h16 : is_int16 (jpeg_data.dct_coefficients.getD ((walk_eligible
        jpeg_data.dct_coefficients (generate_secure_embedding_sequence std
          jpeg_data.dct_coefficients.length EMBED_SEED)).getD k 0) 0) := by
      rw [List.getD_eq_getElem _ _ (lt_length_of_eligible _ _ hel)]
      exact hbuf _ (List.getElem_mem _)
    rw [c_and_one]
    unfold embed_bits_with_resistance embed_walk
    simp only
    rw [h2]
    have hz : bits_written ⟨jpeg_data.dct_coefficients, 0, 0⟩ + k = k := by
      unfold bits_written; simp
    rw [hz, embed_coeff_lsb _ _ _ h16 hel]
    have := data_bit_lt data (k / 8) (k % 8)
    split <;> omega
  · intro i hi
    unfold embed_bits_with_resistance embed_walk at hi ⊢
    rcases embed_foldl_zero_free data resistance_level _ ⟨jpeg_data.dct_coefficients, 0, 0⟩ i
      with h | h
    · exact absurd h hi
    · exact h

set_option maxRecDepth 100000 in
/-- Witness of C7: the byte `0xA5` embedded at resistance level 5 into a 20-coefficient buffer
with the value `-2` at index 3; bit 0 of the data lands on the first eligible position. -/
theorem C7_embedding_postcondition_witness :
    (∀ v ∈ (sample_buffer 20 3 (-2)).dct_coefficients, is_int16 v) ∧
    bits_written (embed_walk plain_std (sample_buffer 20 3 (-2)) [0xA5] 5) = 8 ∧
    c_and ((embed_bits_with_resistance plain_std (sample_buffer 20 3 (-2)) [0xA5]
        5).2.dct_coefficients.getD
      ((walk_eligible (sample_buffer 20 3 (-2)).dct_coefficients
        (generate_secure_embedding_sequence plain_std
          (sample_buffer 20 3 (-2)).dct_coefficients.length EMBED_SEED)).getD 0 0) 0) 1 =
      ((data_bit [0xA5] (0 / 8) (0 % 8) : Nat) : Int) :=
  ⟨by decide, by decide!,
    ((C7_embedding_postcondition plain_std (sample_buffer 20 3 (-2)) [0xA5] 5 (by decide)).1 0
      (by decide!)).2⟩

/-! ## Extraction with another password -/

theorem key_byte_xor (k1 k2 i : Nat) :
    key_byte (k1 ^^^ k2) i = key_byte k1 i ^^^ key_byte k2 i := by
  unfold key_byte
  apply Nat.eq_of_testBit_eq
  intro j
  simp only [Nat.testBit_and, Nat.testBit_xor, Nat.testBit_shiftRight]
  cases (Nat.testBit 255 j) <;> simp

theorem decrypt_other_key (std : StdLib) (P : List Nat) (pw1 pw2 : String)
    (hP : ∀ b ∈ P, b < 256) :
    decrypt_message_aes std (encrypt_message_aes std P pw1) pw2 =
      garbled_message P (derive_key std pw1) (derive_key std pw2) := by
  apply List.ext_getElem
  · simp [garbled_message, decrypt_length, encrypt_length]
  · intro i h1 h2
    have hi : i < P.length := by simpa [garbled_message] using h2
    have h3 : i < (encrypt_message_aes std P pw1).length := by rw [encrypt_length]; exact hi
    have hd := decrypt_getD std _ pw2 (encrypt_bytes std P pw1) i h3
    rw [encrypt_getD std P pw1 hP i hi, List.getD_eq_getElem _ _ h1,
      List.getD_eq_getElem _ _ hi] at hd
    rw [hd]
    simp only [garbled_message, List.getElem_mapIdx]
    rw [key_byte_xor, Nat.xor_assoc]

theorem c_str_ne_of_garbled (P G : List Nat) (hlen : G.length = P.length)
    (h : ∃ i, i < P.length ∧ G.getD i 0 ≠ P.getD i 0) : c_str G ≠ P := by
  intro heq
  have hpre : c_str G <+: G := List.takeWhile_prefix (fun b => b != 0)
  have hG : c_str G = G := hpre.eq_of_length (by rw [heq, hlen])
  obtain ⟨i, _, hne⟩ := h
  apply hne
  rw [← hG, heq]

theorem frame_message_eq (md : List Nat) (h : md.length < 4294967296) :
    frame_message md = push_be32 md.length ++ push_be32 (calculate_crc32 md) ++ md := by
  unfold frame_message
  rw [Nat.mod_eq_of_lt h]

theorem frame_message_take_eight (md : List Nat) (h : md.length < 4294967296) :
    (frame_message md).take 8 = push_be32 md.length ++ push_be32 (calculate_crc32 md) := by
  rw [frame_message_eq md h, List.take_append_of_le_length (by simp [push_be32_length])]
  exact List.take_of_length_le (by simp [push_be32_length])

/-- C6 (amended). For every payload `P` of at most 10,000,000 bytes framed with password `pw1`
and every password `pw2`: whenever both extraction walks read the framed bytes back intact,
extraction with `pw2` passes the checksum and returns Success with `verified = true` and
`message_size = len(P)`; the returned C string is `P` XOR-ed with the keystream of
`key1 XOR key2`, cut at its first zero byte; and it differs from `P` whenever the two derived
keys differ in a byte position `i mod 4` with `i < len(P)`. -/
theorem C6_password_mismatch (std : StdLib) (jpeg_data : AdvancedJPEGData) (P : List Nat)
    (pw1 pw2 : String) (config : Option outguess_config_t)
    (hP : ∀ b ∈ P, b < 256) (h10 : P.length ≤ 10000000)
    (hpw : config_password config = some pw2)
    (h8 : extract_bits_with_verification std jpeg_data 8 =
      (frame_message (encrypt_message_aes std P pw1)).take 8)
    (hfull : extract_bits_with_verification std jpeg_data (8 + P.length) =
      frame_message (encrypt_message_aes std P pw1)) :
    outguess_extract_message std jpeg_data config =
      ⟨some (c_str (garbled_message P (derive_key std pw1) (derive_key std pw2))), P.length,
        true, outguess_error_t.OUTGUESS_SUCCESS, none⟩ ∧
    ((∃ i, i < P.length ∧
        key_byte (derive_key std pw1) i ≠ key_byte (derive_key std pw2) i) →
      c_str (garbled_message P (derive_key std pw1) (derive_key std pw2)) ≠ P) := by
  have hlen := encrypt_length std P pw1
  have h32 : (encrypt_message_aes std P pw1).length < 4294967296 := by omega
  rw [frame_message_take_eight _ h32] at h8
  rw [frame_message_eq _ h32, ← hlen] at hfull
  have hres := extract_message_of_stream std jpeg_data config (encrypt_message_aes std P pw1)
    (calculate_crc32 (encrypt_message_aes std P pw1)) (by omega) (calculate_crc32_lt _) h8 hfull
  have hrec : recover_message std (encrypt_message_aes std P pw1) config =
      garbled_message P (derive_key std pw1) (derive_key std pw2) := by
    unfold recover_message
    rw [hpw]
    exact decrypt_other_key std P pw1 pw2 hP
  have hglen : (garbled_message P (derive_key std pw1) (derive_key std pw2)).length = P.length := by
    simp [garbled_message]
  constructor
  · rw [hres, if_neg (by simp), hrec, hglen]
  · rintro ⟨i, hi, hne⟩
    apply c_str_ne_of_garbled P _ hglen
    refine ⟨i, hi, ?_⟩
    rw [List.getD_eq_getElem _ _ (by rw [hglen]; exact hi), List.getD_eq_getElem _ _ hi]
    simp only [garbled_message, List.getElem_mapIdx]
    rw [key_byte_xor]
    intro heq
    apply hne
    have h0 : key_byte (derive_key std pw1) i ^^^ key_byte (derive_key std pw2) i = 0 := by
      have h1 : P[i] ^^^ (key_byte (derive_key std pw1) i ^^^ key_byte (derive_key std pw2) i)
          = P[i] ^^^ 0 := by rw [heq]; simp
      exact Nat.xor_right_injective h1
    exact Nat.xor_eq_zero.mp h0

set_option maxRecDepth 100000 in
/-- Witness of C6: `"HELLO"` embedded with password `"secret123"` and extracted with password
`"wrong"`, at resistance level 1 and quality 100 in a 110-coefficient buffer. -/
theorem C6_password_mismatch_witness :
    extract_bits_with_verification keyed_std
      (outguess_embed_message keyed_std true (sample_buffer 110 0 3) [72, 69, 76, 76, 79]
        (password_config "secret123" 1 100)).2 (8 + [72, 69, 76, 76, 79].length) =
      frame_message (encrypt_message_aes keyed_std [72, 69, 76, 76, 79] "secret123") ∧
    outguess_extract_message keyed_std
      (outguess_embed_message keyed_std true (sample_buffer 110 0 3) [72, 69, 76, 76, 79]
        (password_config "secret123" 1 100)).2 (password_config "wrong" 1 100) =
      ⟨some (c_str (garbled_message [72, 69, 76, 76, 79] (derive_key keyed_std "secret123")
        (derive_key keyed_std "wrong"))), 5, true, outguess_error_t.OUTGUESS_SUCCESS, none⟩ :=
  ⟨by decide!,
    (C6_password_mismatch keyed_std
      (outguess_embed_message keyed_std true (sample_buffer 110 0 3) [72, 69, 76, 76, 79]
        (password_config "secret123" 1 100)).2 [72, 69, 76, 76, 79] "secret123" "wrong"
      (password_config "wrong" 1 100) (by decide) (by decide) rfl (by decide!) (by decide!)).1⟩

set_option maxRecDepth 100000 in
/-- C6 as stated fails on the code, in two ways.
(a) `"ABC"` is embedded with password `"secret123"` and read back intact; extraction with
password `"wrong"` returns Success with `verified = true`, but the returned C string is empty
whereas `"ABC"` XOR-ed with the keystream of `key1 XOR key2` is the three bytes `0, 6, 7`: the
copy made by `strdup` stops at the zero byte.
(b) A payload of 10,000,001 bytes is embedded with password `"secret123"` and read back
intact; extraction with password `"wrong"` returns ExtractionFailed, not Success. -/
theorem C6_password_mismatch_counterexample :
    (extract_bits_with_verification keyed_std
        (outguess_embed_message keyed_std true (sample_buffer 110 0 3) [65, 66, 67]
          (password_config "secret123" 1 100)).2 (8 + [65, 66, 67].length) =
        frame_message (encrypt_message_aes keyed_std [65, 66, 67] "secret123") ∧
      outguess_extract_message keyed_std
        (outguess_embed_message keyed_std true (sample_buffer 110 0 3) [65, 66, 67]
          (password_config "secret123" 1 100)).2 (password_config "wrong" 1 100) =
        ⟨some [], 3, true, outguess_error_t.OUTGUESS_SUCCESS, none⟩ ∧
      garbled_message [65, 66, 67] (derive_key keyed_std "secret123")
        (derive_key keyed_std "wrong") = [0, 6, 7]) ∧
    (extract_bits_with_verification keyed_std
        (outguess_embed_message keyed_std true ⟨List.replicate 82000000 3⟩
          (List.replicate 10000001 65) (password_config "secret123" 1 100)).2
        (8 + 10000001) =
        frame_message (encrypt_message_aes keyed_std (List.replicate 10000001 65) "secret123") ∧
      (outguess_extract_message keyed_std
        (outguess_embed_message keyed_std true ⟨List.replicate 82000000 3⟩
          (List.replicate 10000001 65) (password_config "secret123" 1 100)).2
        (password_config "wrong" 1 100)).error_code =
        outguess_error_t.OUTGUESS_ERROR_EXTRACTION_FAILED) := by
  refine ⟨⟨by decide!, by decide!, by decide!⟩, ?_⟩
  have hbig := oversize_round_trip_fails keyed_std 82000000 10000001 3 65
    (password_config "secret123" 1 100) (password_config "wrong" 1 100)
    (by decide) (by decide) (by decide) (by decide) (by decide) (by decide) (by decide)
    (capacity_replicate_large keyed_std)
  refine ⟨hbig.2.1, ?_⟩
  rw [hbig.2.2]
  rfl

/-! ## Header bytes and the values they encode -/

theorem byte_testBit_high (a j : Nat) (ha : a < 256) (hj : 8 ≤ j) : a.testBit j = false :=
  Nat.testBit_lt_two_pow (lt_of_lt_of_le ha (by
    calc 256 = 2 ^ 8 := rfl
      _ ≤ 2 ^ j := Nat.pow_le_pow_right (by norm_num) hj))

theorem be32_testBit (a b c d n : Nat) (_ha : a < 256) (hb : b < 256) (hc : c < 256)
    (hd : d < 256) :
    (((a <<< 24) ||| (b <<< 16) ||| (c <<< 8) ||| d) % 4294967296).testBit n =
      if n < 8 then d.testBit n else if n < 16 then c.testBit (n - 8)
      else if n < 24 then b.testBit (n - 16) else if n < 32 then a.testBit (n - 24)
      else false := by
  have e32 : (4294967296 : Nat) = 2 ^ 32 := rfl
  rw [e32]
  simp only [Nat.testBit_mod_two_pow, Nat.testBit_or, Nat.testBit_shiftLeft]
  by_cases h8 : n < 8
  · have h1 : ¬ n ≥ 24 := by omega
    have h2 : ¬ n ≥ 16 := by omega
    have h3 : ¬ n ≥ 8 := by omega
    have h4 : n < 32 := by omega
    simp [h8, h1, h2, h3, h4]
  · by_cases h16 : n < 16
    · have h1 : ¬ n ≥ 24 := by omega
      have h2 : ¬ n ≥ 16 := by omega
      have h3 : n ≥ 8 := by omega
      have h4 : n < 32 := by omega
      simp [h8, h16, h1, h2, h3, h4, byte_testBit_high d n hd (by omega)]
    · by_cases h24 : n < 24
      · have h1 : ¬ n ≥ 24 := by omega
        have h2 : n ≥ 16 := by omega
        have h3 : n ≥ 8 := by omega
        have h4 : n < 32 := by omega
        simp [h8, h16, h24, h1, h2, h3, h4, byte_testBit_high d n hd (by omega),
          byte_testBit_high c (n - 8) hc (by omega)]
      · by_cases h32 : n < 32
        · have h1 : n ≥ 24 := by omega
          have h2 : n ≥ 16 := by omega
          have h3 : n ≥ 8 := by omega
          simp [h8, h16, h24, h32, h1, h2, h3, byte_testBit_high d n hd (by omega),
            byte_testBit_high c (n - 8) hc (by omega),
            byte_testBit_high b (n - 16) hb (by omega)]
        · simp [h8, h16, h24, h32]

theorem and_255_testBit (x j : Nat) :
    (x &&& 0xFF).testBit j = (x.testBit j && decide (j < 8)) := by
  have e255 : (0xFF : Nat) = 2 ^ 8 - 1 := rfl
  rw [e255, Nat.testBit_and, Nat.testBit_two_pow_sub_one]

/-- The four bytes of the value parsed from four bytes are those bytes. -/
theorem push_parse_be32 (a b c d : Nat) (ha : a < 256) (hb : b < 256) (hc : c < 256)
    (hd : d < 256) :
    push_be32 (((a <<< 24) ||| (b <<< 16) ||| (c <<< 8) ||| d) % 4294967296) = [a, b, c, d] := by
  unfold push_be32
  have hA : ∀ (s : Nat) (x : Nat), x < 256 →
      (∀ j, j < 8 → (((a <<< 24) ||| (b <<< 16) ||| (c <<< 8) ||| d) % 4294967296).testBit
        (s + j) = x.testBit j) →
      ((((a <<< 24) ||| (b <<< 16) ||| (c <<< 8) ||| d) % 4294967296) >>> s) &&& 0xFF = x := by
    intro s x hx h
    apply Nat.eq_of_testBit_eq
    intro j
    rw [and_255_testBit, Nat.testBit_shiftRight]
    by_cases hj : j < 8
    · rw [h j hj]; simp [hj]
    · simp [hj, byte_testBit_high x j hx (by omega)]
  have h24 := hA 24 a ha (by
    intro j hj
    rw [be32_testBit a b c d _ ha hb hc hd]
    have e : 24 + j - 24 = j := by omega
    simp [show ¬ 24 + j < 8 by omega, show ¬ 24 + j < 16 by omega, show ¬ 24 + j < 24 by omega,
      show 24 + j < 32 by omega, e])
  have h16 := hA 16 b hb (by
    intro j hj
    rw [be32_testBit a b c d _ ha hb hc hd]
    have e : 16 + j - 16 = j := by omega
    simp [show ¬ 16 + j < 8 by omega, show ¬ 16 + j < 16 by omega, show 16 + j < 24 by omega, e])
  have h8 := hA 8 c hc (by
    intro j hj
    rw [be32_testBit a b c d _ ha hb hc hd]
    have e : 8 + j - 8 = j := by omega
    simp [show ¬ 8 + j < 8 by omega, show 8 + j < 16 by omega, e])
  have h0 := hA 0 d hd (by
    intro j hj
    rw [be32_testBit a b c d _ ha hb hc hd]
    simp [hj])
  rw [h24, h16, h8]
  rw [Nat.shiftRight_zero] at h0
  rw [h0]

theorem parse_be32_congr (h h' : List Nat) (i : Nat)
    (hc : ∀ j, j < 4 → h.getD (i + j) 0 = h'.getD (i + j) 0) :
    parse_be32 h i = parse_be32 h' i := by
  unfold parse_be32
  have h0 := hc 0 (by omega)
  rw [Nat.add_zero] at h0
  rw [h0, hc 1 (by omega), hc 2 (by omega), hc 3 (by omega)]

theorem parse_be32_injective (h h' : List Nat) (i : Nat)
    (hb : ∀ j, j < 4 → h.getD (i + j) 0 < 256) (hb' : ∀ j, j < 4 → h'.getD (i + j) 0 < 256)
    (he : parse_be32 h i = parse_be32 h' i) :
    ∀ j, j < 4 → h.getD (i + j) 0 = h'.getD (i + j) 0 := by
  have h0 := hb 0 (by omega)
  have h0' := hb' 0 (by omega)
  rw [Nat.add_zero] at h0 h0'
  have p1 := push_parse_be32 _ _ _ _ h0 (hb 1 (by omega)) (hb 2 (by omega)) (hb 3 (by omega))
  have p2 := push_parse_be32 _ _ _ _ h0' (hb' 1 (by omega)) (hb' 2 (by omega)) (hb' 3 (by omega))
  unfold parse_be32 at he
  rw [he, p2] at p1
  simp only [List.cons.injEq, and_true] at p1
  obtain ⟨e0, e1, e2, e3⟩ := p1
  intro j hj
  have : j = 0 ∨ j = 1 ∨ j = 2 ∨ j = 3 := by omega
  rcases this with rfl | rfl | rfl | rfl
  · exact e0.symm
  · exact e1.symm
  · exact e2.symm
  · exact e3.symm

/-- A parsed length of at least `2^24` whenever the first header byte is not zero. -/
theorem parse_be32_large (h : List Nat) (hb : ∀ j, j < 4 → h.getD (0 + j) 0 < 256)
    (h0 : h.getD 0 0 ≠ 0) : 16777216 ≤ parse_be32 h 0 := by
  have hz := hb 0 (by omega)
  rw [Nat.add_zero] at hz
  have p1 := push_parse_be32 _ _ _ _ hz (hb 1 (by omega)) (hb 2 (by omega)) (hb 3 (by omega))
  by_contra hlt
  have hsmall : parse_be32 h 0 >>> 24 = 0 := by
    rw [Nat.shiftRight_eq_div_pow]
    exact Nat.div_eq_of_lt (by norm_num; omega)
  unfold push_be32 at p1
  unfold parse_be32 at hsmall
  rw [hsmall] at p1
  simp only [List.cons.injEq, and_true] at p1
  exact h0 (by rw [← p1.1]; rfl)

/-! ## Decoding an arbitrary header -/

theorem extract_message_header_oversize (std : StdLib) (jpeg_data : AdvancedJPEGData)
    (config : Option outguess_config_t) (hdr : List Nat) (hh : hdr.length = 8)
    (hL : 10000000 < parse_be32 hdr 0)
    (h8 : extract_bits_with_verification std jpeg_data 8 = hdr) :
    outguess_extract_message std jpeg_data config =
      extract_failure outguess_error_t.OUTGUESS_ERROR_EXTRACTION_FAILED
        "Invalid message length detected" := by
  unfold outguess_extract_message
  simp only [h8]
  rw [if_neg (by omega), if_pos hL]

theorem extract_message_of_header (std : StdLib) (jpeg_data : AdvancedJPEGData)
    (config : Option outguess_config_t) (hdr md : List Nat) (hh : hdr.length = 8)
    (hL : parse_be32 hdr 0 = md.length) (h10 : md.length ≤ 10000000)
    (h8 : extract_bits_with_verification std jpeg_data 8 = hdr)
    (hfull : extract_bits_with_verification std jpeg_data (8 + md.length) = hdr ++ md) :
    outguess_extract_message std jpeg_data config =
      if calculate_crc32 md ≠ parse_be32 hdr 4 then
        extract_failure outguess_error_t.OUTGUESS_ERROR_EXTRACTION_FAILED
          "Message integrity check failed"
      else
        ⟨some (c_str (recover_message std md config)), (recover_message std md config).length,
          true, outguess_error_t.OUTGUESS_SUCCESS, none⟩ := by
  unfold outguess_extract_message
  simp only [h8, hL, hfull]
  rw [if_neg (by omega), if_neg (by omega), if_neg (by simp [hh])]
  have hdrop : (hdr ++ md).drop 8 = md := by
    rw [← hh]
    exact List.drop_left _ _
  rw [hdrop]

/-! ## A flipped bit in the stream -/

theorem flip_bit_append (hdr md : List Nat) (k : Nat) (hk : k / 8 < hdr.length) :
    flip_bit (hdr ++ md) k = flip_bit hdr k ++ md := by
  unfold flip_bit
  rw [List.getD_append _ _ _ _ hk, List.set_append_left _ _ hk]

theorem flip_bit_length (s : List Nat) (k : Nat) : (flip_bit s k).length = s.length := by
  unfold flip_bit
  exact List.length_set _ _ _

theorem flip_bit_getD_ne (s : List Nat) (k i : Nat) (h : i ≠ k / 8) :
    (flip_bit s k).getD i 0 = s.getD i 0 := by
  unfold flip_bit
  simp [List.getD_eq_getElem?_getD, List.getElem?_set_ne (Ne.symm h)]

theorem flip_bit_getD_eq (s : List Nat) (k : Nat) (h : k / 8 < s.length) :
    (flip_bit s k).getD (k / 8) 0 = s.getD (k / 8) 0 ^^^ (1 <<< (7 - k % 8)) := by
  unfold flip_bit
  simp [List.getD_eq_getElem?_getD, h]

theorem flip_mask_props (k : Nat) : 1 <<< (7 - k % 8) ≠ 0 ∧ 1 <<< (7 - k % 8) < 256 := by
  have h : ∀ j, j < 8 → 1 <<< (7 - j) ≠ 0 ∧ 1 <<< (7 - j) < 256 := by decide
  exact h (k % 8) (Nat.mod_lt _ (by norm_num))

theorem xor_mask_ne (b m : Nat) (hm : m ≠ 0) : b ^^^ m ≠ b := by
  intro h
  apply hm
  have h1 : b ^^^ m = b ^^^ 0 := by rw [h]; simp
  exact Nat.xor_right_injective h1

theorem header_bytes (L c : Nat) (i : Nat) : (push_be32 L ++ push_be32 c).getD i 0 < 256 := by
  by_cases h : i < (push_be32 L ++ push_be32 c).length
  · rw [List.getD_eq_getElem _ _ h]
    have hm : (push_be32 L ++ push_be32 c)[i] ∈ push_be32 L ++ push_be32 c := List.getElem_mem _
    rcases List.mem_append.mp hm with h1 | h1
    · exact push_be32_bytes _ _ h1
    · exact push_be32_bytes _ _ h1
  · rw [List.getD_eq_default _ _ (Nat.le_of_not_lt h)]
    decide

theorem flipped_bytes (hdr : List Nat) (hb : ∀ i, hdr.getD i 0 < 256) (k i : Nat)
    (hk : k / 8 < hdr.length) : (flip_bit hdr k).getD i 0 < 256 := by
  by_cases h : i = k / 8
  · subst h
    rw [flip_bit_getD_eq _ _ hk]
    exact xor_byte_lt (hb _) (flip_mask_props k).2
  · rw [flip_bit_getD_ne _ _ _ h]
    exact hb i

/-- A header with one bit flipped in its first byte (which was 0) or in its checksum field is
rejected by `outguess_extract_message`. -/
theorem flipped_header_rejected (std : StdLib) (jpeg_data : AdvancedJPEGData)
    (config : Option outguess_config_t) (hdr md : List Nat) (k : Nat)
    (hh : hdr.length = 8) (hb : ∀ i, hdr.getD i 0 < 256)
    (hL : parse_be32 hdr 0 = md.length) (hC : parse_be32 hdr 4 = calculate_crc32 md)
    (h0 : hdr.getD 0 0 = 0) (h10 : md.length ≤ 10000000)
    (hk : k < 8 ∨ (32 ≤ k ∧ k < 64))
    (h8 : extract_bits_with_verification std jpeg_data 8 = flip_bit hdr k)
    (hfull : extract_bits_with_verification std jpeg_data (8 + md.length) = flip_bit hdr k ++ md) :
    (outguess_extract_message std jpeg_data config).error_code =
      outguess_error_t.OUTGUESS_ERROR_EXTRACTION_FAILED := by
  have hk8 : k / 8 < hdr.length := by omega
  have hfl : (flip_bit hdr k).length = 8 := by rw [flip_bit_length, hh]
  have hfb : ∀ i, (flip_bit hdr k).getD i 0 < 256 := fun i => flipped_bytes hdr hb k i hk8
  rcases hk with hk | hk
  · have hk0 : k / 8 = 0 := by omega
    have hne : (flip_bit hdr k).getD 0 0 ≠ 0 := by
      have hx := flip_bit_getD_eq hdr k hk8
      rw [hk0] at hx
      rw [hx, h0, Nat.zero_xor]
      exact (flip_mask_props k).1
    have hlarge := parse_be32_large (flip_bit hdr k) (fun j _ => hfb (0 + j)) hne
    rw [extract_message_header_oversize std jpeg_data config (flip_bit hdr k) hfl (by omega) h8]
    rfl
  · have hL' : parse_be32 (flip_bit hdr k) 0 = md.length := by
      rw [← hL]
      apply parse_be32_congr
      intro j hj
      exact flip_bit_getD_ne hdr k (0 + j) (by omega)
    have hC' : parse_be32 (flip_bit hdr k) 4 ≠ calculate_crc32 md := by
      intro heq
      rw [← hC] at heq
      have hinj := parse_be32_injective (flip_bit hdr k) hdr 4 (fun j _ => hfb (4 + j))
        (fun j _ => hb (4 + j)) heq (k / 8 - 4) (by omega)
      have e : 4 + (k / 8 - 4) = k / 8 := by omega
      rw [e, flip_bit_getD_eq hdr k hk8] at hinj
      exact xor_mask_ne _ _ (flip_mask_props k).1 hinj
    rw [extract_message_of_header std jpeg_data config (flip_bit hdr k) md hfl hL' h10 h8 hfull,
      if_pos (fun h => hC' h.symm)]
    rfl

theorem header_first_byte (L c : Nat) (hL : L ≤ 10000000) :
    (push_be32 L ++ push_be32 c).getD 0 0 = 0 := by
  have hs : L >>> 24 = 0 := by
    rw [Nat.shiftRight_eq_div_pow]
    exact Nat.div_eq_of_lt (by norm_num; omega)
  unfold push_be32
  simp [hs]

/-- A flip in the first byte of the length field, or anywhere in the checksum field, of a frame
that declares at most 10,000,000 bytes makes extraction fail. -/
theorem flipped_frame_rejected (std : StdLib) (jpeg_data : AdvancedJPEGData)
    (config : Option outguess_config_t) (md : List Nat) (k : Nat)
    (h10 : md.length ≤ 10000000) (hk : k < 8 ∨ (32 ≤ k ∧ k < 64))
    (h8 : extract_bits_with_verification std jpeg_data 8 = (flip_bit (frame_message md) k).take 8)
    (hfull : extract_bits_with_verification std jpeg_data (8 + md.length) =
      flip_bit (frame_message md) k) :
    (outguess_extract_message std jpeg_data config).error_code =
      outguess_error_t.OUTGUESS_ERROR_EXTRACTION_FAILED := by
  have h32 : md.length < 4294967296 := by omega
  have hhl : (push_be32 md.length ++ push_be32 (calculate_crc32 md)).length = 8 := by
    simp [push_be32_length]
  have hflip : flip_bit (frame_message md) k =
      flip_bit (push_be32 md.length ++ push_be32 (calculate_crc32 md)) k ++ md := by
    rw [frame_message_eq md h32, flip_bit_append _ _ _ (by rw [hhl]; omega)]
  have hfl : (flip_bit (push_be32 md.length ++ push_be32 (calculate_crc32 md)) k).length = 8 := by
    rw [flip_bit_length, hhl]
  rw [hflip] at h8 hfull
  rw [List.take_append_of_le_length (by omega), List.take_of_length_le (by omega)] at h8
  have hC0 : parse_be32 (push_be32 md.length ++ push_be32 (calculate_crc32 md)) 4 =
      calculate_crc32 md := by
    have := parse_push_be32_second md.length (calculate_crc32 md) (calculate_crc32_lt md) []
    simpa using this
  exact flipped_header_rejected std jpeg_data config _ md k hhl
    (header_bytes md.length (calculate_crc32 md)) (parse_push_be32 md.length h32 _) hC0
    (header_first_byte _ _ h10) h10 hk h8 hfull

theorem extract_success_only_if (std : StdLib) (jpeg_data : AdvancedJPEGData)
    (config : Option outguess_config_t)
    (h : (outguess_extract_message std jpeg_data config).error_code =
      outguess_error_t.OUTGUESS_SUCCESS) :
    8 ≤ (extract_bits_with_verification std jpeg_data 8).length ∧
    parse_be32 (extract_bits_with_verification std jpeg_data 8) 0 ≤ 10000000 ∧
    8 + parse_be32 (extract_bits_with_verification std jpeg_data 8) 0 ≤
      (extract_bits_with_verification std jpeg_data
        (8 + parse_be32 (extract_bits_with_verification std jpeg_data 8) 0)).length ∧
    calculate_crc32 ((extract_bits_with_verification std jpeg_data
        (8 + parse_be32 (extract_bits_with_verification std jpeg_data 8) 0)).drop 8) =
      parse_be32 (extract_bits_with_verification std jpeg_data 8) 4 := by
  unfold outguess_extract_message at h
  simp only at h
  split_ifs at h with h1 h2 h3 h4
  · exact absurd h (by decide)
  · exact absurd h (by decide)
  · exact absurd h (by decide)
  · exact absurd h (by decide)
  · exact ⟨by omega, by omega, by omega, by simpa using h4⟩

set_option maxRecDepth 100000 in
/-- C3 (code defect). `"HELLO"` is embedded without password at resistance level 1 into a
110-coefficient buffer (AC values `3`, identity shuffle, so stream bit `k` sits in the `k`-th AC
coefficient).
(a) Stream bit 103, the last payload bit, sits in coefficient 105; with its least significant
bit flipped (`3` becomes `2`) the walks read the frame with exactly that bit flipped and
extraction returns Success with `"HELLN"`.
(b) Stream bit 31, the last bit of the length field, sits in coefficient 32; with it flipped
the declared length is 4 and extraction returns Success with `"HELL"`.
Both pass the integrity check because `calculate_crc32`, with the table as the source
initialises it, is `0xFFFFFFFF` on `"HELLO"`, `"HELLN"` and `"HELL"` alike; the standard CRC-32
tells the three apart. -/
theorem C3_corruption_detection :
    (extract_bits_with_verification plain_std
        ⟨(outguess_embed_message plain_std true (sample_buffer 110 0 3) [72, 69, 76, 76, 79]
          (plain_config 1 100)).2.dct_coefficients.set 105 2⟩ 13 =
        flip_bit (frame_message [72, 69, 76, 76, 79]) 103 ∧
      outguess_extract_message plain_std
        ⟨(outguess_embed_message plain_std true (sample_buffer 110 0 3) [72, 69, 76, 76, 79]
          (plain_config 1 100)).2.dct_coefficients.set 105 2⟩ (plain_config 1 100) =
        ⟨some [72, 69, 76, 76, 78], 5, true, outguess_error_t.OUTGUESS_SUCCESS, none⟩) ∧
    (extract_bits_with_verification plain_std
        ⟨(outguess_embed_message plain_std true (sample_buffer 110 0 3) [72, 69, 76, 76, 79]
          (plain_config 1 100)).2.dct_coefficients.set 32 2⟩ 13 =
        flip_bit (frame_message [72, 69, 76, 76, 79]) 31 ∧
      outguess_extract_message plain_std
        ⟨(outguess_embed_message plain_std true (sample_buffer 110 0 3) [72, 69, 76, 76, 79]
          (plain_config 1 100)).2.dct_coefficients.set 32 2⟩ (plain_config 1 100) =
        ⟨some [72, 69, 76, 76], 4, true, outguess_error_t.OUTGUESS_SUCCESS, none⟩) ∧
    (calculate_crc32 [72, 69, 76, 76, 79] = 4294967295 ∧
      calculate_crc32 [72, 69, 76, 76, 78] = 4294967295 ∧
      calculate_crc32 [72, 69, 76, 76] = 4294967295) ∧
    (crc32_spec [72, 69, 76, 76, 79] ≠ crc32_spec [72, 69, 76, 76, 78] ∧
      crc32_spec [72, 69, 76, 76, 79] ≠ crc32_spec [72, 69, 76, 76]) := by
  refine ⟨⟨by decide!, by decide!⟩, ⟨by decide!, by decide!⟩,
    ⟨by decide!, by decide!, by decide!⟩, ⟨by decide!, by decide!⟩⟩

/-! ## Rejection of an oversized payload -/

/-- C11. For every buffer, config and payload whose length is greater than the capacity estimate
for that buffer and config (in particular exactly one byte over it), `outguess_embed_message`
returns MessageTooLarge, whatever the outcome of saving would be, and the in-memory buffer is
the one that was loaded: no coefficient has been written. -/
theorem C11_message_too_large (std : StdLib) (save_ok : Bool) (jpeg_data : AdvancedJPEGData)
    (message : List Nat) (config : Option outguess_config_t)
    (h : outguess_get_max_message_size std jpeg_data (config_resistance config)
      (config_quality config) < (message.length : Int)) :
    (outguess_embed_message std save_ok jpeg_data message config).1 =
      embed_failure outguess_error_t.OUTGUESS_ERROR_MESSAGE_TOO_LARGE
        "Message too large for image capacity" ∧
    (outguess_embed_message std save_ok jpeg_data message config).1.error_code =
      outguess_error_t.OUTGUESS_ERROR_MESSAGE_TOO_LARGE ∧
    (outguess_embed_message std save_ok jpeg_data message config).2 = jpeg_data := by
  unfold outguess_embed_message
  simp only
  rw [if_pos h]
  exact ⟨rfl, rfl, rfl⟩

set_option maxRecDepth 100000 in
/-- Witness of C11: a buffer with 200 eligible coefficients has capacity estimate 2 at
resistance level 8 and quality 100 (the product of the factors, computed in `double`, falls just
below 88), and the payload `"ABC"` is exactly one byte over it. -/
theorem C11_message_too_large_witness :
    outguess_get_max_message_size plain_std (sample_buffer 204 0 3) 8 100 + 1 =
      (([65, 66, 67] : List Nat).length : Int) ∧
    (outguess_embed_message plain_std true (sample_buffer 204 0 3) [65, 66, 67]
        (plain_config 8 100)).1.error_code = outguess_error_t.OUTGUESS_ERROR_MESSAGE_TOO_LARGE ∧
    (outguess_embed_message plain_std true (sample_buffer 204 0 3) [65, 66, 67]
      (plain_config 8 100)).2 = sample_buffer 204 0 3 :=
  ⟨by decide!,
    (C11_message_too_large plain_std true (sample_buffer 204 0 3) [65, 66, 67]
      (plain_config 8 100) (by decide!)).2⟩

/-! ## Success of the embedding walk -/

/-- C12. For every buffer, data and resistance level, `embed_bits_with_resistance` returns
`true` if and only if the input buffer holds at least `8 × len(data)` eligible coefficients
(index not divisible by 64, absolute value at least 2); and whenever the walk reaches a
position, the coefficient there still has its value from the input buffer, so the live
eligibility check decides as the check on the unmodified buffer would. -/
theorem C12_embed_bits_success (std : StdLib) (jpeg_data : AdvancedJPEGData) (data : List Nat)
    (resistance_level : Int) :
    ((embed_bits_with_resistance std jpeg_data data resistance_level).1 = true ↔
      8 * data.length ≤ eligible_count jpeg_data.dct_coefficients) ∧
    (∀ (before : List Nat) (idx : Nat) (after : List Nat),
      generate_secure_embedding_sequence std jpeg_data.dct_coefficients.length EMBED_SEED =
        before ++ idx :: after →
      (before.foldl (embed_step data resistance_level)
        ⟨jpeg_data.dct_coefficients, 0, 0⟩).coeffs.getD idx 0 =
        jpeg_data.dct_coefficients.getD idx 0) := by
  constructor
  · rw [embed_bits_success_iff, usable_eq_eligible_count]
  · intro before idx after hseq
    have hnd := sequence_nodup std jpeg_data.dct_coefficients.length EMBED_SEED
    rw [hseq] at hnd
    have hnot : idx ∉ before := by
      intro hmem
      have hdis := (List.nodup_append.mp hnd).2.2
      exact hdis hmem (List.mem_cons_self _ _)
    exact embed_foldl_getD_of_not_mem data resistance_level before _ idx hnot

/-! ## The length guard of extraction -/

/-- C14. For every buffer whose header walk delivers 8 bytes: when these declare a big-endian
length greater than 10,000,000, extraction returns ExtractionFailed from the length guard, a
result fixed before the second walk and independent of the CRC field and of the rest of the
buffer; when they declare exactly 10,000,000, the result is not the one of the length guard. -/
theorem C14_length_guard (std : StdLib) (jpeg_data : AdvancedJPEGData)
    (config : Option outguess_config_t)
    (h8 : 8 ≤ (extract_bits_with_verification std jpeg_data 8).length) :
    (10000000 < parse_be32 (extract_bits_with_verification std jpeg_data 8) 0 →
      outguess_extract_message std jpeg_data config =
        extract_failure outguess_error_t.OUTGUESS_ERROR_EXTRACTION_FAILED
          "Invalid message length detected") ∧
    (parse_be32 (extract_bits_with_verification std jpeg_data 8) 0 = 10000000 →
      (outguess_extract_message std jpeg_data config).error_message ≠
        some "Invalid message length detected") := by
  constructor
  · intro hL
    unfold outguess_extract_message
    simp only
    rw [if_neg (by omega), if_pos hL]
  · intro hL
    unfold outguess_extract_message
    simp only
    rw [if_neg (by omega), if_neg (by omega)]
    split_ifs <;> simp [extract_failure]

set_option maxRecDepth 100000 in
/-- Witness of C14: in a 70-coefficient buffer whose AC coefficients are all `3` the header
reads as eight bytes `0xFF`, a declared length of 4,294,967,295. -/
theorem C14_length_guard_witness :
    8 ≤ (extract_bits_with_verification plain_std (sample_buffer 70 0 3) 8).length ∧
    10000000 < parse_be32 (extract_bits_with_verification plain_std (sample_buffer 70 0 3) 8) 0 ∧
    outguess_extract_message plain_std (sample_buffer 70 0 3) none =
      extract_failure outguess_error_t.OUTGUESS_ERROR_EXTRACTION_FAILED
        "Invalid message length detected" :=
  ⟨by decide!, by decide!,
    (C14_length_guard plain_std (sample_buffer 70 0 3) none (by decide!)).1 (by decide!)⟩

/-! ## Framing -/

theorem push_be32_eq_spec (v : Nat) : push_be32 v = be32_spec v := by
  have h : ∀ x : Nat, x &&& 0xFF = x % 256 := by
    intro x
    have h := Nat.and_pow_two_sub_one_eq_mod x 8
    norm_num at h
    exact h
  unfold push_be32 be32_spec
  simp only [h, Nat.shiftRight_eq_div_pow]

/-- C15. For every payload `M` (possibly cipher-transformed) shorter than `2^32` bytes, the
framed data has length `8 + len(M)` and is the 4-byte big-endian encoding of `len(M)`, followed
by the 4-byte big-endian encoding of `calculate_crc32(M)`, followed by `M`; and the decoder's
parse of the first 8 framed bytes returns exactly `len(M)` and `calculate_crc32(M)`. -/
theorem C15_framing (M : List Nat) (hM : M.length < 4294967296) :
    (frame_message M).length = 8 + M.length ∧
    frame_message M = be32_spec M.length ++ be32_spec (calculate_crc32 M) ++ M ∧
    parse_be32 ((frame_message M).take 8) 0 = M.length ∧
    parse_be32 ((frame_message M).take 8) 4 = calculate_crc32 M := by
  refine ⟨frame_message_length M, ?_, ?_, ?_⟩
  · rw [frame_message_eq M hM, push_be32_eq_spec, push_be32_eq_spec]
  · rw [frame_message_take_eight M hM]
    exact parse_push_be32 M.length hM _
  · rw [frame_message_take_eight M hM]
    have := parse_push_be32_second M.length (calculate_crc32 M) (calculate_crc32_lt M) []
    simpa using this

/-- Witness of C15 on the payload `"HELLO"`. -/
theorem C15_framing_witness :
    ([72, 69, 76, 76, 79] : List Nat).length < 4294967296 ∧
    frame_message [72, 69, 76, 76, 79] =
      be32_spec 5 ++ be32_spec (calculate_crc32 [72, 69, 76, 76, 79]) ++ [72, 69, 76, 76, 79] :=
  ⟨by decide, (C15_framing [72, 69, 76, 76, 79] (by decide)).2.1⟩

/-! ## Magnitude at high resistance -/

/-- C16 (amended). At resistance level at least 7, for every eligible coefficient value `v`
with `-32767 ≤ v ≤ 32766` and every target bit, the value written by the embedding step has
absolute value at least `|v|`; it is strictly greater unless the value is left unchanged, which
happens exactly when `v` is positive and even with target bit 0, or negative and odd with target
bit 1. -/
theorem C16_magnitude_pushed (resistance_level : Int) (bit : Nat) (v : Int)
    (hr : resistance_level ≥ 7) (hv : -32767 ≤ v ∧ v ≤ 32766) (he : 2 ≤ |v|) :
    |v| ≤ |embed_coeff resistance_level bit v| ∧
    (|v| < |embed_coeff resistance_level bit v| ↔ embed_coeff resistance_level bit v ≠ v) ∧
    (embed_coeff resistance_level bit v = v ↔
      (0 < v ∧ v % 2 = 0 ∧ bit = 0) ∨ (v < 0 ∧ v % 2 = 1 ∧ bit ≠ 0)) := by
  have h16 : is_int16 v := ⟨by omega, by omega⟩
  have hel : ¬ c_abs v < MIN_COEFF_VALUE := by
    rw [c_abs_eq_abs]
    unfold MIN_COEFF_VALUE
    omega
  rw [embed_coeff_eq_modify resistance_level bit v h16 hel,
    modify_coeff_eq resistance_level bit v h16, if_pos hr]
  rw [← c_abs_eq_abs] at he ⊢
  rw [← c_abs_eq_abs]
  obtain ⟨h1, h2⟩ := hv
  unfold to_int16
  by_cases hb : bit = 0
  · rw [if_neg (by simpa using hb)]
    by_cases hpos : v > 0
    · rw [if_pos hpos]
      unfold c_abs at he ⊢
      refine ⟨?_, ?_, ?_⟩ <;> omega
    · rw [if_neg hpos]
      unfold c_abs at he ⊢
      refine ⟨?_, ?_, ?_⟩ <;> omega
  · rw [if_pos hb]
    by_cases hpos : v > 0
    · rw [if_pos hpos]
      unfold c_abs at he ⊢
      refine ⟨?_, ?_, ?_⟩ <;> omega
    · rw [if_neg hpos]
      unfold c_abs at he ⊢
      refine ⟨?_, ?_, ?_⟩ <;> omega

/-- Witness of C16: the value `5` with target bit 1 becomes `7`. -/
theorem C16_magnitude_pushed_witness :
    ((7 : Int) ≥ 7 ∧ (-32767 : Int) ≤ 5 ∧ (5 : Int) ≤ 32766 ∧ (2 : Int) ≤ |5|) ∧
    embed_coeff 7 1 5 = 7 ∧ |(5 : Int)| < |embed_coeff 7 1 5| :=
  ⟨by decide, by decide,
    (C16_magnitude_pushed 7 1 5 (by decide) (by decide) (by decide)).2.1.mpr (by decide)⟩

/-- C16 as stated fails on the code: at resistance level 7 the eligible value `2` with target
bit 0 is written back as `2`, and `-3` with target bit 1 as `-3`, so the absolute value is not
increased; at the ends of the 16-bit range `32767` with target bit 1 becomes `-32767` and
`-32768` with target bit 1 becomes `32767`, of smaller absolute value. -/
theorem C16_magnitude_pushed_counterexample :
    embed_coeff 7 0 2 = 2 ∧ embed_coeff 7 1 (-3) = -3 ∧
    embed_coeff 7 1 32767 = -32767 ∧ embed_coeff 7 1 (-32768) = 32767 ∧
    ¬ (|(2 : Int)| < |embed_coeff 7 0 2|) ∧ ¬ (|(-32768 : Int)| < |embed_coeff 7 1 (-32768)|) := by
  refine ⟨by decide, by decide, by decide, by decide, by decide, by decide⟩

/-! ## What the embedding walk leaves untouched -/

theorem embed_foldl_frozen (data : List Nat) (r : Int) :
    ∀ (seq : List Nat) (st : EmbedState), st.byte_index ≥ data.length →
      seq.foldl (embed_step data r) st = st
  | [], _, _ => rfl
  | idx :: rest, st, h => by
    have e1 : embed_step data r st idx = st := by unfold embed_step; rw [if_pos h]
    rw [List.foldl_cons, e1]
    exact embed_foldl_frozen data r rest st h

/-- A coefficient changed by a walk sits at one of the first positions that pass the
eligibility check, as many of them as bits were consumed. -/
theorem embed_walk_changed (data : List Nat) (r : Int) :
    ∀ (seq : List Nat), seq.Nodup → ∀ (st : EmbedState), st.bit_index < 8 →
      bits_written st ≤ 8 * data.length → ∀ (i : Nat),
      (seq.foldl (embed_step data r) st).coeffs.getD i 0 ≠ st.coeffs.getD i 0 →
      i ∈ (walk_eligible st.coeffs seq).take
        (bits_written (seq.foldl (embed_step data r) st) - bits_written st)
  | [], _, st, _, _, i, hi => absurd rfl hi
  | idx :: rest, hnd, st, h8, hle, i, hi => by
    rw [List.nodup_cons] at hnd
    rw [List.foldl_cons] at hi ⊢
    rw [walk_eligible_cons]
    by_cases h1 : st.byte_index ≥ data.length
    · have e1 : embed_step data r st idx = st := by unfold embed_step; rw [if_pos h1]
      rw [e1, embed_foldl_frozen data r rest st h1] at hi
      exact absurd rfl hi
    · by_cases h2 : c_abs (st.coeffs.getD idx 0) < MIN_COEFF_VALUE
      · have e1 : embed_step data r st idx = st := by
          unfold embed_step; rw [if_neg h1, if_pos h2]
        rw [e1] at hi ⊢
        rw [if_pos h2]
        exact embed_walk_changed data r rest hnd.2 st h8 hle i hi
      · obtain ⟨_, hbi', hby'⟩ := embed_step_written data r st idx h1 h2
        have hb : bits_written (embed_step data r st idx) = bits_written st + 1 := by
          unfold bits_written
          rw [hbi', hby']
          split <;> omega
        have h8' : (embed_step data r st idx).bit_index < 8 := by
          rw [hbi']; split <;> omega
        have hle' : bits_written (embed_step data r st idx) ≤ 8 * data.length := by
          rw [hb]; unfold bits_written at hle ⊢; omega
        have hprog := (embed_walk_progress data r rest hnd.2 (embed_step data r st idx)
          h8' hle').2
        have hge : bits_written st + 1 ≤
            bits_written (rest.foldl (embed_step data r) (embed_step data r st idx)) := by
          rw [hprog, hb]; rw [hb] at hle'; omega
        have hsplit : bits_written (rest.foldl (embed_step data r) (embed_step data r st idx))
            - bits_written st =
            (bits_written (rest.foldl (embed_step data r) (embed_step data r st idx))
              - bits_written (embed_step data r st idx)) + 1 := by
          rw [hb]; omega
        rw [if_neg h2, hsplit, List.take_succ_cons]
        by_cases hidx : i = idx
        · rw [hidx]; exact List.mem_cons_self _ _
        · have hi' : (rest.foldl (embed_step data r) (embed_step data r st idx)).coeffs.getD i 0
              ≠ (embed_step data r st idx).coeffs.getD i 0 := by
            rw [embed_step_getD_of_ne data r st idx i hidx]
            exact hi
          have ih := embed_walk_changed data r rest hnd.2 (embed_step data r st idx) h8' hle'
            i hi'
          rw [walk_eligible_step data r st idx rest hnd.1] at ih
          exact List.mem_cons_of_mem _ ih

theorem walk_eligible_is_eligible (std : StdLib) (coeffs : List Int) (i : Nat)
    (h : i ∈ walk_eligible coeffs
      (generate_secure_embedding_sequence std coeffs.length EMBED_SEED)) :
    eligible coeffs i := by
  unfold walk_eligible at h
  rw [List.mem_filter] at h
  obtain ⟨hm, he⟩ := h
  rw [Bool.not_eq_true', decide_eq_false_iff_not, c_abs_eq_abs] at he
  unfold MIN_COEFF_VALUE at he
  exact ⟨((mem_sequence std _ _ i).mp hm).2, by omega⟩

/-- C18. For every buffer, data and resistance level, `embed_bits_with_resistance` leaves the
buffer length unchanged, leaves unchanged every coefficient at an index divisible by 64 and
every coefficient whose absolute value was below 2; every coefficient it changes was eligible in
the input buffer, and at most `8 × len(data)` coefficients are changed. -/
theorem C18_embedding_frame (std : StdLib) (jpeg_data : AdvancedJPEGData) (data : List Nat)
    (resistance_level : Int) :
    (embed_bits_with_resistance std jpeg_data data resistance_level).2.dct_coefficients.length =
      jpeg_data.dct_coefficients.length ∧
    (∀ i, i % 64 = 0 ∨ |jpeg_data.dct_coefficients.getD i 0| < 2 →
      (embed_bits_with_resistance std jpeg_data data resistance_level).2.dct_coefficients.getD
        i 0 = jpeg_data.dct_coefficients.getD i 0) ∧
    (∀ i, (embed_bits_with_resistance std jpeg_data data
        resistance_level).2.dct_coefficients.getD i 0 ≠ jpeg_data.dct_coefficients.getD i 0 →
      eligible jpeg_data.dct_coefficients i) ∧
    ((List.range jpeg_data.dct_coefficients.length).filter (fun i =>
      decide ((embed_bits_with_resistance std jpeg_data data
        resistance_level).2.dct_coefficients.getD i 0 ≠
          jpeg_data.dct_coefficients.getD i 0))).length ≤ 8 * data.length := by
  have hnd := sequence_nodup std jpeg_data.dct_coefficients.length EMBED_SEED
  have hchanged : ∀ i, (embed_bits_with_resistance std jpeg_data data
      resistance_level).2.dct_coefficients.getD i 0 ≠ jpeg_data.dct_coefficients.getD i 0 →
      i ∈ (walk_eligible jpeg_data.dct_coefficients
        (generate_secure_embedding_sequence std jpeg_data.dct_coefficients.length
          EMBED_SEED)).take (bits_written (embed_walk std jpeg_data data resistance_level)) := by
    intro i hi
    have := embed_walk_changed data resistance_level _ hnd ⟨jpeg_data.dct_coefficients, 0, 0⟩
      (Nat.zero_lt_succ 7) (by unfold bits_written; simp) i hi
    simpa [bits_written, embed_walk] using this
  have hel : ∀ i, (embed_bits_with_resistance std jpeg_data data
      resistance_level).2.dct_coefficients.getD i 0 ≠ jpeg_data.dct_coefficients.getD i 0 →
      eligible jpeg_data.dct_coefficients i := fun i hi =>
    walk_eligible_is_eligible std _ i (List.mem_of_mem_take (hchanged i hi))
  refine ⟨embed_bits_length std jpeg_data data resistance_level, ?_, hel, ?_⟩
  · intro i hi
    by_contra hne
    obtain ⟨h64, habs⟩ := hel i hne
    rcases hi with h | h
    · exact h64 h
    · omega
  · have hbits : bits_written (embed_walk std jpeg_data data resistance_level)
        ≤ 8 * data.length := by
      have := (embed_walk_progress data resistance_level _ hnd
        ⟨jpeg_data.dct_coefficients, 0, 0⟩ (Nat.zero_lt_succ 7)
        (by unfold bits_written; simp)).2
      unfold embed_walk
      rw [this]
      exact Nat.min_le_left _ _
    have hsub : (List.range jpeg_data.dct_coefficients.length).filter (fun i =>
        decide ((embed_bits_with_resistance std jpeg_data data
          resistance_level).2.dct_coefficients.getD i 0 ≠
            jpeg_data.dct_coefficients.getD i 0)) ⊆
        (walk_eligible jpeg_data.dct_coefficients
          (generate_secure_embedding_sequence std jpeg_data.dct_coefficients.length
            EMBED_SEED)).take (bits_written (embed_walk std jpeg_data data resistance_level)) := by
      intro i hi
      rw [List.mem_filter] at hi
      exact hchanged i (by simpa using hi.2)
    have hnd2 : ((List.range jpeg_data.dct_coefficients.length).filter (fun i =>
        decide ((embed_bits_with_resistance std jpeg_data data
          resistance_level).2.dct_coefficients.getD i 0 ≠
            jpeg_data.dct_coefficients.getD i 0))).Nodup :=
      (List.nodup_range _).filter _
    have hlen := (List.subperm_of_subset hnd2 hsub).length_le
    rw [List.length_take] at hlen
    omega

/-! ## The short read of the extraction walk -/

theorem extract_step_eq_read (coeffs : List Int) (n : Nat) (st : ExtractState) (idx : Nat)
    (h : ¬ c_abs (coeffs.getD idx 0) < MIN_COEFF_VALUE) :
    extract_step coeffs n st idx = read_step n st (coeff_lsb (coeffs.getD idx 0)) := by
  unfold read_step coeff_lsb
  by_cases h1 : st.result.length ≥ n
  · rw [extract_step_break coeffs n st idx h1, if_pos h1]
  · rw [extract_step_read coeffs n st idx h1 h, if_neg h1, extracted_bit_eq]

theorem extract_foldl_eq_read (coeffs : List Int) (n : Nat) :
    ∀ (seq : List Nat) (st : ExtractState),
      seq.foldl (extract_step coeffs n) st =
        ((walk_eligible coeffs seq).map (fun i => coeff_lsb (coeffs.getD i 0))).foldl
          (read_step n) st
  | [], _ => rfl
  | idx :: rest, st => by
    rw [List.foldl_cons, walk_eligible_cons]
    by_cases h : c_abs (coeffs.getD idx 0) < MIN_COEFF_VALUE
    · have e1 : extract_step coeffs n st idx = st := by
        by_cases h1 : st.result.length ≥ n
        · exact extract_step_break coeffs n st idx h1
        · exact extract_step_skip coeffs n st idx h1 h
      rw [if_pos h, e1]
      exact extract_foldl_eq_read coeffs n rest st
    · rw [if_neg h, List.map_cons, List.foldl_cons, extract_step_eq_read coeffs n st idx h]
      exact extract_foldl_eq_read coeffs n rest _

theorem read_foldl_frozen (n : Nat) :
    ∀ (bits : List Nat) (st : ExtractState), st.result.length ≥ n →
      bits.foldl (read_step n) st = st
  | [], _, _ => rfl
  | b :: rest, st, h => by
    have e1 : read_step n st b = st := by unfold read_step; rw [if_pos h]
    rw [List.foldl_cons, e1]
    exact read_foldl_frozen n rest st h

theorem read_foldl_short (n : Nat) :
    ∀ (bits : List Nat) (st : ExtractState), st.bit_index + bits.length < 8 →
      (bits.foldl (read_step n) st).result = st.result
  | [], _, _ => rfl
  | b :: rest, st, h => by
    rw [List.length_cons] at h
    rw [List.foldl_cons]
    by_cases h1 : st.result.length ≥ n
    · have e1 : read_step n st b = st := by unfold read_step; rw [if_pos h1]
      rw [e1]
      exact read_foldl_short n rest st (by omega)
    · have h2 : ¬ st.bit_index + 1 ≥ 8 := by omega
      have e1 : read_step n st b = ⟨st.result, st.bit_index + 1,
          (st.current_byte ||| (b <<< (7 - st.bit_index))) % 256⟩ := by
        unfold read_step; rw [if_neg h1, if_neg h2]
      rw [e1]
      exact read_foldl_short n rest _ (by show st.bit_index + 1 + rest.length < 8; omega)

theorem exists_eight : ∀ (bits : List Nat), 8 ≤ bits.length →
    ∃ b0 b1 b2 b3 b4 b5 b6 b7 rest, bits = b0 :: b1 :: b2 :: b3 :: b4 :: b5 :: b6 :: b7 :: rest
  | b0 :: b1 :: b2 :: b3 :: b4 :: b5 :: b6 :: b7 :: rest, _ =>
    ⟨b0, b1, b2, b3, b4, b5, b6, b7, rest, rfl⟩
  | [], h => absurd h (by simp)
  | [_], h => absurd h (by simp)
  | [_, _], h => absurd h (by simp)
  | [_, _, _], h => absurd h (by simp)
  | [_, _, _, _], h => absurd h (by simp)
  | [_, _, _, _, _], h => absurd h (by simp)
  | [_, _, _, _, _, _], h => absurd h (by simp)
  | [_, _, _, _, _, _, _], h => absurd h (by simp)

theorem pack_bytes_short : ∀ (bits : List Nat), bits.length < 8 → pack_bytes bits = []
  | _ :: _ :: _ :: _ :: _ :: _ :: _ :: _ :: _, h => absurd h (by simp)
  | [], _ => rfl
  | [_], _ => rfl
  | [_, _], _ => rfl
  | [_, _, _], _ => rfl
  | [_, _, _, _], _ => rfl
  | [_, _, _, _, _], _ => rfl
  | [_, _, _, _, _, _], _ => rfl
  | [_, _, _, _, _, _, _], _ => rfl

theorem assemble_byte : ∀ (b0 b1 b2 b3 b4 b5 b6 b7 : Fin 2),
    ((((((((((((((((0 ||| (b0.val <<< (7 - 0))) % 256) ||| (b1.val <<< (7 - 1))) % 256) |||
      (b2.val <<< (7 - 2))) % 256) ||| (b3.val <<< (7 - 3))) % 256) |||
      (b4.val <<< (7 - 4))) % 256) ||| (b5.val <<< (7 - 5))) % 256) |||
      (b6.val <<< (7 - 6))) % 256) ||| (b7.val <<< (7 - 7))) % 256) =
    128 * b0.val + 64 * b1.val + 32 * b2.val + 16 * b3.val + 8 * b4.val + 4 * b5.val
      + 2 * b6.val + b7.val := by
  decide!

theorem read_step_mid (n : Nat) (res : List Nat) (k k1 cur b : Nat) (h : ¬ res.length ≥ n)
    (hk : k1 = k + 1) (h8 : k1 < 8) :
    read_step n ⟨res, k, cur⟩ b = ⟨res, k1, (cur ||| (b <<< (7 - k))) % 256⟩ := by
  subst hk
  unfold read_step
  rw [if_neg h, if_neg (by show ¬ k + 1 ≥ 8; omega)]

theorem read_step_last (n : Nat) (res : List Nat) (cur b : Nat) (h : ¬ res.length ≥ n) :
    read_step n ⟨res, 7, cur⟩ b = ⟨res ++ [(cur ||| (b <<< (7 - 7))) % 256], 0, 0⟩ := by
  unfold read_step
  rw [if_neg h, if_pos (by show 7 + 1 ≥ 8; omega)]

theorem read_eight (n : Nat) (res : List Nat) (b0 b1 b2 b3 b4 b5 b6 b7 : Nat)
    (h : ¬ res.length ≥ n) (h0 : b0 < 2) (h1 : b1 < 2) (h2 : b2 < 2) (h3 : b3 < 2)
    (h4 : b4 < 2) (h5 : b5 < 2) (h6 : b6 < 2) (h7 : b7 < 2) :
    [b0, b1, b2, b3, b4, b5, b6, b7].foldl (read_step n) ⟨res, 0, 0⟩ =
      ⟨res ++ [128 * b0 + 64 * b1 + 32 * b2 + 16 * b3 + 8 * b4 + 4 * b5 + 2 * b6 + b7], 0, 0⟩ := by
  have key := assemble_byte ⟨b0, h0⟩ ⟨b1, h1⟩ ⟨b2, h2⟩ ⟨b3, h3⟩ ⟨b4, h4⟩ ⟨b5, h5⟩ ⟨b6, h6⟩ ⟨b7, h7⟩
  rw [List.foldl_cons, read_step_mid n res 0 1 0 b0 h rfl (by omega),
    List.foldl_cons, read_step_mid n res 1 2 _ b1 h rfl (by omega),
    List.foldl_cons, read_step_mid n res 2 3 _ b2 h rfl (by omega),
    List.foldl_cons, read_step_mid n res 3 4 _ b3 h rfl (by omega),
    List.foldl_cons, read_step_mid n res 4 5 _ b4 h rfl (by omega),
    List.foldl_cons, read_step_mid n res 5 6 _ b5 h rfl (by omega),
    List.foldl_cons, read_step_mid n res 6 7 _ b6 h rfl (by omega),
    List.foldl_cons, read_step_last n res _ b7 h, List.foldl_nil]
  exact congrArg (fun x => (⟨res ++ [x], 0, 0⟩ : ExtractState)) key

theorem read_foldl_pack (n : Nat) : ∀ (k : Nat) (bits : List Nat), bits.length < k →
    (∀ b ∈ bits, b < 2) → ∀ (res : List Nat),
    (bits.foldl (read_step n) ⟨res, 0, 0⟩).result =
      res ++ (pack_bytes bits).take (n - res.length)
  | 0, _, h, _, _ => absurd h (Nat.not_lt_zero _)
  | k + 1, bits, h, hb, res => by
    by_cases hs : bits.length < 8
    · rw [read_foldl_short n bits ⟨res, 0, 0⟩ (by show 0 + bits.length < 8; omega),
        pack_bytes_short bits hs, List.take_nil, List.append_nil]
    · obtain ⟨b0, b1, b2, b3, b4, b5, b6, b7, rest, rfl⟩ := exists_eight bits (by omega)
      by_cases hn : res.length ≥ n
      · rw [read_foldl_frozen n _ ⟨res, 0, 0⟩ hn, Nat.sub_eq_zero_of_le hn, List.take_zero,
          List.append_nil]
      · have hb0 := hb b0 (by simp)
        have hb1 := hb b1 (by simp)
        have hb2 := hb b2 (by simp)
        have hb3 := hb b3 (by simp)
        have hb4 := hb b4 (by simp)
        have hb5 := hb b5 (by simp)
        have hb6 := hb b6 (by simp)
        have hb7 := hb b7 (by simp)
        have hrest : ∀ b ∈ rest, b < 2 := fun b hm => hb b (by simp [hm])
        have hsplit : b0 :: b1 :: b2 :: b3 :: b4 :: b5 :: b6 :: b7 :: rest =
            [b0, b1, b2, b3, b4, b5, b6, b7] ++ rest := rfl
        have hlen : rest.length < k := by
          simp only [List.length_cons] at h
          omega
        have ih := read_foldl_pack n k rest hlen hrest
          (res ++ [128 * b0 + 64 * b1 + 32 * b2 + 16 * b3 + 8 * b4 + 4 * b5 + 2 * b6 + b7])
        have hsub : n - res.length = (n - (res.length + 1)) + 1 := by omega
        rw [hsplit, List.foldl_append, read_eight n res b0 b1 b2 b3 b4 b5 b6 b7 hn hb0 hb1 hb2
          hb3 hb4 hb5 hb6 hb7, ih, ← hsplit, pack_bytes, hsub, List.take_succ_cons,
          List.length_append, List.length_singleton, List.append_assoc, List.singleton_append]

theorem pack_bytes_length : ∀ (k : Nat) (bits : List Nat), bits.length < k →
    (pack_bytes bits).length = bits.length / 8
  | 0, _, h => absurd h (Nat.not_lt_zero _)
  | k + 1, bits, h => by
    by_cases hs : bits.length < 8
    · rw [pack_bytes_short bits hs, List.length_nil]
      omega
    · obtain ⟨b0, b1, b2, b3, b4, b5, b6, b7, rest, rfl⟩ := exists_eight bits (by omega)
      simp only [List.length_cons] at h
      have ih := pack_bytes_length k rest (by omega)
      rw [pack_bytes, List.length_cons, ih]
      simp only [List.length_cons]
      omega

theorem pack_bytes_getD : ∀ (j : Nat) (bits : List Nat), j < bits.length / 8 →
    (pack_bytes bits).getD j 0 =
      128 * bits.getD (8 * j) 0 + 64 * bits.getD (8 * j + 1) 0 + 32 * bits.getD (8 * j + 2) 0
        + 16 * bits.getD (8 * j + 3) 0 + 8 * bits.getD (8 * j + 4) 0
        + 4 * bits.getD (8 * j + 5) 0 + 2 * bits.getD (8 * j + 6) 0 + bits.getD (8 * j + 7) 0
  | 0, bits, h => by
    obtain ⟨b0, b1, b2, b3, b4, b5, b6, b7, rest, rfl⟩ := exists_eight bits (by omega)
    rfl
  | j + 1, bits, h => by
    obtain ⟨b0, b1, b2, b3, b4, b5, b6, b7, rest, rfl⟩ := exists_eight bits (by omega)
    simp only [List.length_cons] at h
    have ih := pack_bytes_getD j rest (by omega)
    have e : ∀ t, (b0 :: b1 :: b2 :: b3 :: b4 :: b5 :: b6 :: b7 :: rest).getD
        (8 * (j + 1) + t) 0 = rest.getD (8 * j + t) 0 := by
      intro t
      have : 8 * (j + 1) + t = (8 * j + t) + 1 + 1 + 1 + 1 + 1 + 1 + 1 + 1 := by omega
      rw [this]
      rfl
    have e0 := e 0
    rw [Nat.add_zero] at e0
    rw [pack_bytes, e0, e 1, e 2, e 3, e 4, e 5, e 6, e 7]
    exact ih

theorem getD_take_of_lt : ∀ (l : List Nat) (n j : Nat), j < n →
    (l.take n).getD j 0 = l.getD j 0
  | [], _, _, _ => by rw [List.take_nil]
  | _ :: _, 0, _, h => absurd h (Nat.not_lt_zero _)
  | _ :: _, _ + 1, 0, _ => rfl
  | _ :: l, n + 1, j + 1, h => by
    rw [List.take_succ_cons]
    exact getD_take_of_lt l n j (by omega)

theorem coeff_lsb_lt (v : Int) : coeff_lsb v < 2 := by
  unfold coeff_lsb
  omega

/-- C13. For every buffer and every `expected_size`, `extract_bits_with_verification` returns
the first `expected_size` bytes packed from the least significant bits of the eligible
coefficients taken in sequence order, eight bits to a byte and the first bit the most
significant. It returns exactly `min(expected_size, floor(E / 8))` bytes, `E` being the number
of eligible coefficients of the buffer, so fewer than `expected_size` bytes exactly when
`E < 8 × expected_size`; and byte `j` of the result is
`128·b(8j) + 64·b(8j+1) + … + b(8j+7)` for the bits `b` of that list. -/
theorem C13_short_read (std : StdLib) (jpeg_data : AdvancedJPEGData) (expected_size : Nat) :
    extract_bits_with_verification std jpeg_data expected_size =
      (pack_bytes (eligible_bits std jpeg_data)).take expected_size ∧
    eligible_bits std jpeg_data =
      ((generate_secure_embedding_sequence std jpeg_data.dct_coefficients.length
        EMBED_SEED).filter (fun i => decide (eligible jpeg_data.dct_coefficients i))).map
        (fun i => coeff_lsb (jpeg_data.dct_coefficients.getD i 0)) ∧
    (eligible_bits std jpeg_data).length = eligible_count jpeg_data.dct_coefficients ∧
    (extract_bits_with_verification std jpeg_data expected_size).length =
      min expected_size (eligible_count jpeg_data.dct_coefficients / 8) ∧
    ((extract_bits_with_verification std jpeg_data expected_size).length < expected_size ↔
      eligible_count jpeg_data.dct_coefficients < 8 * expected_size) ∧
    (∀ j, j < (extract_bits_with_verification std jpeg_data expected_size).length →
      (extract_bits_with_verification std jpeg_data expected_size).getD j 0 =
        128 * (eligible_bits std jpeg_data).getD (8 * j) 0
        + 64 * (eligible_bits std jpeg_data).getD (8 * j + 1) 0
        + 32 * (eligible_bits std jpeg_data).getD (8 * j + 2) 0
        + 16 * (eligible_bits std jpeg_data).getD (8 * j + 3) 0
        + 8 * (eligible_bits std jpeg_data).getD (8 * j + 4) 0
        + 4 * (eligible_bits std jpeg_data).getD (8 * j + 5) 0
        + 2 * (eligible_bits std jpeg_data).getD (8 * j + 6) 0
        + (eligible_bits std jpeg_data).getD (8 * j + 7) 0) := by
  have hbits : ∀ b ∈ eligible_bits std jpeg_data, b < 2 := by
    intro b hb
    unfold eligible_bits at hb
    rw [List.mem_map] at hb
    obtain ⟨i, _, rfl⟩ := hb
    exact coeff_lsb_lt _
  have hres : extract_bits_with_verification std jpeg_data expected_size =
      (pack_bytes (eligible_bits std jpeg_data)).take expected_size := by
    unfold extract_bits_with_verification
    rw [extract_foldl_eq_read]
    have := read_foldl_pack expected_size ((eligible_bits std jpeg_data).length + 1)
      (eligible_bits std jpeg_data) (Nat.lt_succ_self _) hbits []
    rw [List.nil_append, List.length_nil, Nat.sub_zero] at this
    exact this
  have hE : (eligible_bits std jpeg_data).length = eligible_count jpeg_data.dct_coefficients := by
    unfold eligible_bits
    rw [List.length_map, walk_eligible_length, usable_eq_eligible_count]
  have hlen : (extract_bits_with_verification std jpeg_data expected_size).length =
      min expected_size (eligible_count jpeg_data.dct_coefficients / 8) := by
    rw [hres, List.length_take, pack_bytes_length _ _ (Nat.lt_succ_self _), hE]
  refine ⟨hres, ?_, hE, hlen, ?_, ?_⟩
  · unfold eligible_bits
    rw [walk_eligible_eq_filter]
  · rw [hlen]
    omega
  · intro j hj
    rw [hlen] at hj
    rw [hres, getD_take_of_lt _ _ _ (by omega)]
    exact pack_bytes_getD j _ (by rw [hE]; omega)

/-! ## The detection heuristic -/

theorem lsb_check_step_eligible (coeffs : List Int) (st : LsbState) (i : Nat)
    (ht : st.total_checked < 5000) (he : eligible coeffs i) :
    lsb_check_step coeffs st i =
      ⟨st.lsb0 + (if coeff_lsb (coeffs.getD i 0) = 0 then 1 else 0),
        st.lsb1 + (if coeff_lsb (coeffs.getD i 0) = 0 then 0 else 1), st.total_checked + 1⟩ := by
  have hc : c_abs (coeffs.getD i 0) ≥ MIN_COEFF_VALUE ∧ i % DCT_BLOCK_SIZE ≠ 0 := by
    rw [c_abs_eq_abs]
    unfold MIN_COEFF_VALUE DCT_BLOCK_SIZE
    exact ⟨he.2, he.1⟩
  have hz : c_and (coeffs.getD i 0) 1 = 0 ↔ coeff_lsb (coeffs.getD i 0) = 0 := by
    rw [c_and_one]
    unfold coeff_lsb
    omega
  unfold lsb_check_step
  rw [if_neg (not_not.mpr ht), if_pos hc]
  by_cases h0 : coeff_lsb (coeffs.getD i 0) = 0
  · rw [if_pos (hz.mpr h0), if_pos h0, if_pos h0]
    rfl
  · rw [if_neg (fun h => h0 (hz.mp h)), if_neg h0, if_neg h0]
    rfl

theorem lsb_check_step_other (coeffs : List Int) (st : LsbState) (i : Nat)
    (h : ¬ st.total_checked < 5000 ∨ ¬ eligible coeffs i) :
    lsb_check_step coeffs st i = st := by
  unfold lsb_check_step
  by_cases ht : st.total_checked < 5000
  · have hne : ¬ eligible coeffs i := h.resolve_left (not_not.mpr ht)
    have hc : ¬ (c_abs (coeffs.getD i 0) ≥ MIN_COEFF_VALUE ∧ i % DCT_BLOCK_SIZE ≠ 0) := by
      rw [c_abs_eq_abs]
      unfold MIN_COEFF_VALUE DCT_BLOCK_SIZE
      exact fun hc => hne ⟨hc.2, hc.1⟩
    rw [if_neg (not_not.mpr ht), if_neg hc]
  · rw [if_pos ht]

theorem lsb_check_foldl (coeffs : List Int) :
    ∀ (l : List Nat) (st : LsbState), st.total_checked ≤ 5000 →
      (l.foldl (lsb_check_step coeffs) st).total_checked = st.total_checked +
        ((l.filter (fun i => decide (eligible coeffs i))).take
          (5000 - st.total_checked)).length ∧
      (l.foldl (lsb_check_step coeffs) st).lsb0 = st.lsb0 +
        (((l.filter (fun i => decide (eligible coeffs i))).take
          (5000 - st.total_checked)).filter
            (fun i => coeff_lsb (coeffs.getD i 0) == 0)).length
  | [], st, _ => ⟨by simp, by simp⟩
  | i :: rest, st, hle => by
    rw [List.foldl_cons]
    by_cases he : eligible coeffs i
    · rw [List.filter_cons_of_pos (by rw [decide_eq_true_eq]; exact he)]
      by_cases ht : st.total_checked < 5000
      · have ih := lsb_check_foldl coeffs rest
          ⟨st.lsb0 + (if coeff_lsb (coeffs.getD i 0) = 0 then 1 else 0),
            st.lsb1 + (if coeff_lsb (coeffs.getD i 0) = 0 then 0 else 1),
            st.total_checked + 1⟩ (by show st.total_checked + 1 ≤ 5000; omega)
        simp only at ih
        have hsub : 5000 - st.total_checked = (5000 - (st.total_checked + 1)) + 1 := by omega
        rw [lsb_check_step_eligible coeffs st i ht he, hsub, List.take_succ_cons,
          List.length_cons, ih.1, ih.2]
        refine ⟨by omega, ?_⟩
        by_cases h0 : coeff_lsb (coeffs.getD i 0) = 0
        · rw [List.filter_cons_of_pos (by rw [beq_iff_eq]; exact h0), List.length_cons,
            if_pos h0]
          omega
        · rw [List.filter_cons_of_neg (by rw [beq_iff_eq]; exact h0), if_neg h0]
          omega
      · have h0 : 5000 - st.total_checked = 0 := by omega
        have ih := lsb_check_foldl coeffs rest st hle
        rw [h0, List.take_zero] at ih
        rw [lsb_check_step_other coeffs st i (Or.inl ht), h0, List.take_zero]
        exact ih
    · rw [List.filter_cons_of_neg (by rw [decide_eq_true_eq]; exact he),
        lsb_check_step_other coeffs st i (Or.inr he)]
      exact lsb_check_foldl coeffs rest st hle

theorem lsb_check_eq_sample (jpeg_data : AdvancedJPEGData) :
    (lsb_check jpeg_data).total_checked = (lsb_sample jpeg_data.dct_coefficients).length ∧
    (lsb_check jpeg_data).lsb0 = lsb_sample_zeros jpeg_data.dct_coefficients := by
  have h := lsb_check_foldl jpeg_data.dct_coefficients
    (List.range jpeg_data.dct_coefficients.length) ⟨0, 0, 0⟩ (Nat.zero_le _)
  simp only [Nat.zero_add, Nat.sub_zero] at h
  exact h

theorem entropy_foldl (g : Int → ℚ) : ∀ (l : List Int) (e : ℚ),
    l.foldl (fun entropy v => entropy - g v) e = e - (l.map g).sum
  | [], e => by simp
  | v :: rest, e => by
    rw [List.foldl_cons, entropy_foldl g rest, List.map_cons, List.sum_cons]
    ring

theorem histogram_probability_pos (jpeg_data : AdvancedJPEGData) (v : Int)
    (hv : v ∈ jpeg_data.dct_coefficients) : histogram_probability jpeg_data v > 0 := by
  unfold histogram_probability
  have h1 : 0 < jpeg_data.dct_coefficients.count v := List.count_pos_iff.mpr hv
  have h2 : 0 < jpeg_data.dct_coefficients.length := List.length_pos_of_mem hv
  exact div_pos (by exact_mod_cast h1) (by exact_mod_cast h2)

/-- Source: `calculate_image_entropy` returns the Shannon entropy of the histogram of the
coefficient values: minus the sum, over the distinct values, of `p * log2 p`, `p` being the
relative frequency of the value. -/
theorem calculate_image_entropy_eq (log2 : ℚ → ℚ) (jpeg_data : AdvancedJPEGData) :
    calculate_image_entropy log2 jpeg_data = shannon_entropy log2 jpeg_data.dct_coefficients := by
  have hfun : (fun (entropy : ℚ) (v : Int) =>
      if histogram_probability jpeg_data v > 0 then
        entropy - histogram_probability jpeg_data v * log2 (histogram_probability jpeg_data v)
      else entropy) =
      (fun entropy v => entropy - (if histogram_probability jpeg_data v > 0 then
        histogram_probability jpeg_data v * log2 (histogram_probability jpeg_data v)
        else 0)) := by
    funext entropy v
    split_ifs <;> simp
  unfold calculate_image_entropy shannon_entropy
  rw [hfun, entropy_foldl, zero_sub]
  congr 1
  unfold histogram_keys
  rw [(List.Perm.map _ (List.perm_insertionSort _ _)).sum_eq,
    ← List.sum_toFinset _ (List.nodup_dedup _),
    (List.toFinset.ext (fun _ => List.mem_dedup) :
      jpeg_data.dct_coefficients.dedup.toFinset = jpeg_data.dct_coefficients.toFinset)]
  apply Finset.sum_congr rfl
  intro v hv
  rw [if_pos (histogram_probability_pos jpeg_data v (List.mem_toFinset.mp hv))]
  rfl

theorem shannon_entropy_eq_sum (log2 : ℚ → ℚ) (coeffs : List Int) :
    shannon_entropy log2 coeffs =
      - ((coeffs.dedup.map (fun v =>
          ((coeffs.count v : ℚ) / (coeffs.length : ℚ)) *
            log2 ((coeffs.count v : ℚ) / (coeffs.length : ℚ)))).sum) := by
  unfold shannon_entropy
  rw [← List.sum_toFinset _ (List.nodup_dedup _),
    (List.toFinset.ext (fun _ => List.mem_dedup) : coeffs.dedup.toFinset = coeffs.toFinset)]

/-- The conversion to `int` of a `double` between `-1` and `1` is 0. -/
theorem trunc_to_int_of_small (std : StdLib) {x : ℚ} (h1 : -1 < x) (h2 : x < 1) :
    trunc_to_int std x = 0 := by
  rcases le_or_lt 0 x with hx | hx
  · rw [trunc_to_int_of_nonneg std hx (by linarith), Int.floor_eq_zero_iff]
    exact ⟨hx, h2⟩
  · have hneg : Int.tdiv x.num x.den = 0 := by
      have hn : x.num < 0 := Rat.num_neg.mpr hx
      have hlt : (-x).num < ((-x).den : Int) := Rat.lt_one_iff_num_lt_denom.mp (by linarith)
      rw [Rat.neg_num, Rat.neg_den] at hlt
      have h0 : Int.tdiv (-x.num) x.den = 0 :=
        Int.tdiv_eq_zero_of_lt (by omega) hlt
      rw [Int.neg_tdiv] at h0
      omega
    unfold trunc_to_int
    rw [hneg]
    exact int_result_of_range std 0 ⟨by decide, by decide⟩

theorem lsb_sample_zeros_le (coeffs : List Int) :
    lsb_sample_zeros coeffs ≤ (lsb_sample coeffs).length := by
  unfold lsb_sample_zeros
  exact List.length_filter_le _ _

theorem double_0_1_eq : double_0_1 = 3602879701896397 / 36028797018963968 := by decide!

theorem lsb_deviation_above : round_double (round_double (30001 / 50000) - 1 / 2) > 3602879701896397 / 36028797018963968 := by decide!
theorem lsb_deviation_below : round_double (round_double (19999 / 50000) - 1 / 2) < - (3602879701896397 / 36028797018963968) := by decide!
theorem lsb_deviation_three_fifths : round_double (round_double (3 / 5) - 1 / 2) ≤ 3602879701896397 / 36028797018963968 := by decide!
theorem lsb_deviation_two_fifths : - (3602879701896397 / 36028797018963968) ≤ round_double (round_double (2 / 5) - 1 / 2) := by decide!
theorem lsb_deviation_one : round_double (round_double 1 - 1 / 2) = 1 / 2 := by decide!
theorem lsb_deviation_zero : round_double (round_double 0 - 1 / 2) = -(1 / 2) := by decide!

/-- The rounded deviation grows with the exact ratio. -/
theorem lsb_deviation_mono {x y : ℚ} (h : x ≤ y) :
    round_double (round_double x - 1 / 2) ≤ round_double (round_double y - 1 / 2) := by
  apply round_double_mono
  have := round_double_mono h
  linarith

theorem lsb_deviation_small (k n : Nat) (hn : 0 < n) (hk : k ≤ n) :
    -1 < lsb_deviation k n ∧ lsb_deviation k n < 1 := by
  have hpos : (0 : ℚ) < (n : ℚ) := by exact_mod_cast hn
  have h0 : (0 : ℚ) ≤ (k : ℚ) / (n : ℚ) := by positivity
  have h1 : (k : ℚ) / (n : ℚ) ≤ 1 := by
    rw [div_le_one hpos]
    exact_mod_cast hk
  have a := lsb_deviation_mono h0
  have b := lsb_deviation_mono h1
  rw [lsb_deviation_zero] at a
  rw [lsb_deviation_one] at b
  unfold lsb_deviation
  constructor <;> linarith

/-- For a sample of at most 5000 members the comparison of the rounded deviation with the
`double` `0.1` decides as the comparison of the exact deviation with 1/10. -/
theorem lsb_vote_iff (k n : Nat) (hn : 0 < n) (hn5 : n ≤ 5000) :
    |lsb_deviation k n| > double_0_1 ↔ |(k : ℚ) / (n : ℚ) - 1 / 2| > 1 / 10 := by
  have hpos : (0 : ℚ) < (n : ℚ) := by exact_mod_cast hn
  have hn5q : (n : ℚ) ≤ 5000 := by exact_mod_cast hn5
  rw [double_0_1_eq]
  unfold lsb_deviation
  constructor
  · intro h
    by_contra hc
    push_neg at hc
    rw [abs_le] at hc
    have a := lsb_deviation_mono (show (2 : ℚ) / 5 ≤ (k : ℚ) / (n : ℚ) by linarith)
    have b := lsb_deviation_mono (show (k : ℚ) / (n : ℚ) ≤ 3 / 5 by linarith)
    have := lsb_deviation_three_fifths
    have := lsb_deviation_two_fifths
    have : |round_double (round_double ((k : ℚ) / (n : ℚ)) - 1 / 2)| ≤
        3602879701896397 / 36028797018963968 := by
      rw [abs_le]
      constructor <;> linarith
    linarith
  · intro h
    rw [gt_iff_lt, lt_abs] at h
    rcases h with h | h
    · have hk : 6 * (n : ℚ) < 10 * (k : ℚ) := by
        have : (3 : ℚ) / 5 < (k : ℚ) / (n : ℚ) := by linarith
        rw [div_lt_div_iff₀ (by norm_num) hpos] at this
        linarith
      have hk' : 6 * n + 1 ≤ 10 * k := by
        have : 6 * n < 10 * k := by exact_mod_cast hk
        omega
      have hkq : 6 * (n : ℚ) + 1 ≤ 10 * (k : ℚ) := by exact_mod_cast hk'
      have hx : (30001 : ℚ) / 50000 ≤ (k : ℚ) / (n : ℚ) := by
        rw [div_le_div_iff₀ (by norm_num) hpos]
        linarith
      have a := lsb_deviation_mono hx
      have := lsb_deviation_above
      rw [gt_iff_lt, lt_abs]
      left
      linarith
    · have hk : 10 * (k : ℚ) < 4 * (n : ℚ) := by
        have : (k : ℚ) / (n : ℚ) < 2 / 5 := by linarith
        rw [div_lt_div_iff₀ hpos (by norm_num)] at this
        linarith
      have hk' : 10 * k + 1 ≤ 4 * n := by
        have : 10 * k < 4 * n := by exact_mod_cast hk
        omega
      have hkq : 10 * (k : ℚ) + 1 ≤ 4 * (n : ℚ) := by exact_mod_cast hk'
      have hx : (k : ℚ) / (n : ℚ) ≤ (19999 : ℚ) / 50000 := by
        rw [div_le_div_iff₀ hpos (by norm_num)]
        linarith
      have a := lsb_deviation_mono hx
      have := lsb_deviation_below
      rw [gt_iff_lt, lt_abs]
      right
      linarith

set_option maxRecDepth 100000 in
/-- C17 (code defect). `suspicious_patterns` applies the unqualified `abs` to the `double`
`lsb_ratio - 0.5`.
Where that name denotes `double abs(double)` (libc++), `outguess_has_hidden_data` is positive
exactly when both votes are cast: (a) the sample made of the first `min(5000, E)` eligible
coefficients in buffer order has more than 100 members and the fraction of them with least
significant bit 0 differs from 1/2 by more than 1/10 (the code compares in `double`
arithmetic, which for these samples decides as the exact comparison), and (b) the Shannon
entropy of the histogram of coefficient values exceeds 7/10; a buffer with at most 100 eligible
coefficients is reported negative.
Where it denotes `int abs(int)` (libstdc++), the difference, which lies between `-1/2` and
`1/2`, is converted to the `int` 0, vote (a) is never cast and the result is negative for every
buffer: so it is on the buffer of 130 coefficients `2, 4, 2, 4, …`, whose sample has 127
members, all with least significant bit 0, and whose entropy is 1 for a `log2` with
`log2(1/2) = -1`. -/
theorem C17_detector_policy (std : StdLib) (log2 : ℚ → ℚ) (jpeg_data : AdvancedJPEGData) :
    (outguess_has_hidden_data std abs_overload.floating log2 jpeg_data = true ↔
      ((lsb_sample jpeg_data.dct_coefficients).length > 100 ∧
        |(lsb_sample_zeros jpeg_data.dct_coefficients : ℚ) /
          ((lsb_sample jpeg_data.dct_coefficients).length : ℚ) - 1 / 2| > 1 / 10) ∧
      shannon_entropy log2 jpeg_data.dct_coefficients > 7 / 10) ∧
    (lsb_sample jpeg_data.dct_coefficients).length =
      min 5000 (eligible_count jpeg_data.dct_coefficients) ∧
    (eligible_count jpeg_data.dct_coefficients ≤ 100 →
      outguess_has_hidden_data std abs_overload.floating log2 jpeg_data = false) ∧
    outguess_has_hidden_data std abs_overload.integer log2 jpeg_data = false ∧
    ((lsb_sample two_level_buffer.dct_coefficients).length = 127 ∧
      lsb_sample_zeros two_level_buffer.dct_coefficients = 127 ∧
      (log2 (1 / 2) = -1 →
        shannon_entropy log2 two_level_buffer.dct_coefficients = 1 ∧
        outguess_has_hidden_data std abs_overload.floating log2 two_level_buffer = true ∧
        outguess_has_hidden_data std abs_overload.integer log2 two_level_buffer = false)) := by
  have hlen : ∀ jd : AdvancedJPEGData, (lsb_sample jd.dct_coefficients).length =
      min 5000 (eligible_count jd.dct_coefficients) := by
    intro jd
    unfold lsb_sample eligible_count
    rw [List.length_take]
  have hiff : ∀ jd : AdvancedJPEGData,
      (outguess_has_hidden_data std abs_overload.floating log2 jd = true ↔
      ((lsb_sample jd.dct_coefficients).length > 100 ∧
        |(lsb_sample_zeros jd.dct_coefficients : ℚ) /
          ((lsb_sample jd.dct_coefficients).length : ℚ) - 1 / 2| > 1 / 10) ∧
      shannon_entropy log2 jd.dct_coefficients > 7 / 10) := by
    intro jd
    obtain ⟨ht, hz⟩ := lsb_check_eq_sample jd
    rw [← calculate_image_entropy_eq]
    unfold outguess_has_hidden_data suspicious_patterns abs_of_double
    simp only
    rw [ht, hz, decide_eq_true_eq]
    by_cases h1 : (lsb_sample jd.dct_coefficients).length > 100
    · have hv := lsb_vote_iff (lsb_sample_zeros jd.dct_coefficients)
        (lsb_sample jd.dct_coefficients).length (by omega)
        (by rw [hlen]; exact Nat.min_le_left _ _)
      by_cases h2 : |(lsb_sample_zeros jd.dct_coefficients : ℚ) /
          ((lsb_sample jd.dct_coefficients).length : ℚ) - 1 / 2| > 1 / 10
      · by_cases h3 : calculate_image_entropy log2 jd > 7 / 10
        · rw [if_pos h1, if_pos (hv.mpr h2), if_pos h3]
          exact ⟨fun _ => ⟨⟨h1, h2⟩, h3⟩, fun _ => Nat.le_refl 2⟩
        · rw [if_pos h1, if_pos (hv.mpr h2), if_neg h3]
          exact ⟨fun h => absurd h (by decide), fun h => absurd h.2 h3⟩
      · rw [if_pos h1, if_neg (fun h => h2 (hv.mp h))]
        constructor
        · intro h
          split_ifs at h <;> omega
        · exact fun h => absurd h.1.2 h2
    · rw [if_neg h1]
      constructor
      · intro h
        split_ifs at h <;> omega
      · exact fun h => absurd h.1.1 h1
  have hint : ∀ jd : AdvancedJPEGData,
      outguess_has_hidden_data std abs_overload.integer log2 jd = false := by
    intro jd
    obtain ⟨ht, hz⟩ := lsb_check_eq_sample jd
    have hzle := lsb_sample_zeros_le jd.dct_coefficients
    unfold outguess_has_hidden_data suspicious_patterns abs_of_double
    simp only
    rw [ht, hz, decide_eq_false_iff_not]
    by_cases h1 : (lsb_sample jd.dct_coefficients).length > 100
    · have hsm := lsb_deviation_small _ _
        (show 0 < (lsb_sample jd.dct_coefficients).length by omega) hzle
      rw [if_pos h1, trunc_to_int_of_small std hsm.1 hsm.2]
      have : ¬ (((c_abs 0 : Int) : ℚ) > double_0_1) := by
        rw [double_0_1_eq]
        unfold c_abs
        norm_num
      rw [if_neg this]
      split_ifs <;> omega
    · rw [if_neg h1]
      split_ifs <;> omega
  have hs : (lsb_sample two_level_buffer.dct_coefficients).length = 127 := by decide!
  have hz : lsb_sample_zeros two_level_buffer.dct_coefficients = 127 := by decide!
  refine ⟨hiff jpeg_data, hlen jpeg_data, ?_, hint jpeg_data, hs, hz, ?_⟩
  · intro hE
    rw [Bool.eq_false_iff]
    intro hpos
    have := ((hiff jpeg_data).mp hpos).1.1
    rw [hlen] at this
    omega
  · intro hlog
    have hd : two_level_buffer.dct_coefficients.dedup = [2, 4] := by decide!
    have hc2 : two_level_buffer.dct_coefficients.count 2 = 65 := by decide!
    have hc4 : two_level_buffer.dct_coefficients.count 4 = 65 := by decide!
    have hl : two_level_buffer.dct_coefficients.length = 130 := by decide!
    have hent : shannon_entropy log2 two_level_buffer.dct_coefficients = 1 := by
      rw [shannon_entropy_eq_sum, hd]
      simp only [List.map_cons, List.map_nil, List.sum_cons, List.sum_nil, hc2, hc4, hl]
      have h12 : ((65 : Nat) : ℚ) / ((130 : Nat) : ℚ) = 1 / 2 := by norm_num
      rw [h12, hlog]
      norm_num
    refine ⟨hent, ?_, hint two_level_buffer⟩
    rw [hiff two_level_buffer, hs, hz, hent]
    norm_num
    rw [abs_of_pos (by norm_num : (0 : ℚ) < 1 / 2)]
    norm_num

/-! ## The compression-resistance self-test -/

set_option maxRecDepth 100000 in
/-- C20 (code defect). `outguess_test_compression_resistance` computes the perturbed buffer and
never extracts from it: its answer comes from thresholds on the quality. On the buffer that
holds `"Hi"`, at quality 90 and with every call of `rand()` returning 0, the test reports
survival although extraction from the perturbed buffer fails; at quality 30 and with every call
of `rand()` returning 1 the perturbed buffer is the buffer itself and extraction from it returns
`"Hi"`, yet the test reports no survival. The test does report `false` whenever the initial
extraction fails. -/
theorem C20_self_test_ignores_perturbed_buffer :
    outguess_extract_message plain_std stego_sample (some ⟨none, 0, 0, false, 0⟩) =
      ⟨some [72, 105], 2, true, outguess_error_t.OUTGUESS_SUCCESS, none⟩ ∧
    (outguess_test_compression_resistance plain_std stego_sample 90 none = true ∧
      outguess_extract_message plain_std (simulate_compression (fun _ => 0) 90 stego_sample)
        (some ⟨none, 0, 0, false, 0⟩) =
        extract_failure outguess_error_t.OUTGUESS_ERROR_EXTRACTION_FAILED
          "Failed to extract message header") ∧
    (outguess_test_compression_resistance plain_std stego_sample 30 none = false ∧
      simulate_compression (fun _ => 1) 30 stego_sample = stego_sample ∧
      outguess_extract_message plain_std (simulate_compression (fun _ => 1) 30 stego_sample)
        (some ⟨none, 0, 0, false, 0⟩) =
        ⟨some [72, 105], 2, true, outguess_error_t.OUTGUESS_SUCCESS, none⟩) ∧
    (∀ (std : StdLib) (jpeg_data : AdvancedJPEGData) (compression_quality : Int)
      (password : Option String),
      (outguess_extract_message std jpeg_data (some ⟨password, 0, 0, false, 0⟩)).error_code ≠
        outguess_error_t.OUTGUESS_SUCCESS →
      outguess_test_compression_resistance std jpeg_data compression_quality password =
        false) := by
  have h1 : outguess_extract_message plain_std stego_sample (some ⟨none, 0, 0, false, 0⟩) =
      ⟨some [72, 105], 2, true, outguess_error_t.OUTGUESS_SUCCESS, none⟩ := by decide!
  have h5 : simulate_compression (fun _ => 1) 30 stego_sample = stego_sample := by decide!
  refine ⟨h1, ⟨?_, by decide!⟩, ⟨?_, h5, ?_⟩, ?_⟩
  · unfold outguess_test_compression_resistance
    rw [h1]
    decide
  · unfold outguess_test_compression_resistance
    rw [h1]
    decide
  · rw [h5]
    exact h1
  · intro std jpeg_data compression_quality password h
    unfold outguess_test_compression_resistance
    simp only
    rw [if_pos h]

/-! ## The embedding step on one coefficient -/

/-- C21 (amended). At resistance level at least 7, for every eligible 16-bit coefficient value
`v` and every target bit, the value stored back is positive when `v` is positive and negative
when `v` is negative exactly when `v` is neither `32767` nor `-32768`: within
`-32767 ≤ v ≤ 32766` the sign is preserved, at the two ends of the 16-bit range it is not. -/
theorem C21_sign_preserved (resistance_level : Int) (bit : Nat) (v : Int)
    (hr : resistance_level ≥ 7) (hv : is_int16 v) (he : 2 ≤ |v|) :
    (((0 < v → 0 < embed_coeff resistance_level bit v) ∧
      (v < 0 → embed_coeff resistance_level bit v < 0)) ↔ (-32767 ≤ v ∧ v ≤ 32766)) ∧
    (-32767 ≤ v ∧ v ≤ 32766 →
      (0 < v → v ≤ embed_coeff resistance_level bit v) ∧
      (v < 0 → embed_coeff resistance_level bit v ≤ v)) := by
  have hel : ¬ c_abs v < MIN_COEFF_VALUE := by
    rw [c_abs_eq_abs]
    unfold MIN_COEFF_VALUE
    omega
  rw [embed_coeff_eq_modify resistance_level bit v hv hel,
    modify_coeff_eq resistance_level bit v hv, if_pos hr]
  rw [← c_abs_eq_abs] at he
  obtain ⟨h1, h2⟩ := hv
  unfold c_abs at he
  unfold to_int16
  by_cases hb : bit ≠ 0
  · rw [if_pos hb]
    by_cases hpos : v > 0
    · rw [if_pos hpos]
      refine ⟨?_, ?_⟩ <;> omega
    · rw [if_neg hpos]
      refine ⟨?_, ?_⟩ <;> omega
  · rw [if_neg hb]
    by_cases hpos : v > 0
    · rw [if_pos hpos]
      refine ⟨?_, ?_⟩ <;> omega
    · rw [if_neg hpos]
      refine ⟨?_, ?_⟩ <;> omega

/-- Witness of C21: at resistance level 7 the value `-5` with target bit 0 becomes `-6`. -/
theorem C21_sign_preserved_witness :
    ((7 : Int) ≥ 7 ∧ is_int16 (-5) ∧ (2 : Int) ≤ |(-5)|) ∧ embed_coeff 7 0 (-5) = -6 ∧
    (((0 : Int) < -5 → 0 < embed_coeff 7 0 (-5)) ∧ ((-5 : Int) < 0 → embed_coeff 7 0 (-5) < 0)) :=
  ⟨by decide, by decide,
    (C21_sign_preserved 7 0 (-5) (by decide) (by decide) (by decide)).1.mpr (by decide)⟩

/-- C21 as stated fails on the code: at resistance level 7 the positive eligible value `32767`
is stored back as `-32767` (target bit 1) or `-32768` (target bit 0), and the negative value
`-32768` as `32767` (target bit 1) or `32766` (target bit 0). -/
theorem C21_sign_preserved_counterexample :
    is_int16 32767 ∧ (2 : Int) ≤ |32767| ∧ (0 : Int) < 32767 ∧
    embed_coeff 7 1 32767 = -32767 ∧ embed_coeff 7 0 32767 = -32768 ∧
    ¬ (0 < embed_coeff 7 1 32767) ∧
    is_int16 (-32768) ∧ (2 : Int) ≤ |(-32768)| ∧ (-32768 : Int) < 0 ∧
    embed_coeff 7 1 (-32768) = 32767 ∧ embed_coeff 7 0 (-32768) = 32766 ∧
    ¬ (embed_coeff 7 1 (-32768) < 0) := by
  refine ⟨by decide, by decide, by decide, by decide, by decide, by decide, by decide,
    by decide, by decide, by decide, by decide, by decide⟩

/-- C23. At resistance level below 7, for every eligible 16-bit coefficient value `v` and target
bit `b`, the written value is still eligible unless `v = -2` and `b = 1`: eligibility is lost
if and only if `v = -2` and `b = 1`, the written value is then `-1`, and an extraction walk
that meets a coefficient holding `-1` leaves its state as it is. -/
theorem C23_eligibility_after_write (resistance_level : Int) (bit : Nat) (v : Int)
    (hr : resistance_level < 7) (hb : bit < 2) (hv : is_int16 v) (he : 2 ≤ |v|) :
    (|embed_coeff resistance_level bit v| < 2 ↔ v = -2 ∧ bit = 1) ∧
    (v = -2 ∧ bit = 1 → embed_coeff resistance_level bit v = -1) ∧
    (∀ (coeffs : List Int) (expected_size : Nat) (st : ExtractState) (coeff_idx : Nat),
      coeffs.getD coeff_idx 0 = -1 → extract_step coeffs expected_size st coeff_idx = st) := by
  have hel : ¬ c_abs v < MIN_COEFF_VALUE := by
    rw [c_abs_eq_abs]
    unfold MIN_COEFF_VALUE
    omega
  refine ⟨?_, ?_, ?_⟩
  · rw [← c_abs_eq_abs, embed_coeff_eq_modify resistance_level bit v hv hel,
      modify_coeff_eq resistance_level bit v hv, if_neg (by omega)]
    rw [← c_abs_eq_abs] at he
    obtain ⟨h1, h2⟩ := hv
    unfold c_abs at he ⊢
    unfold to_int16
    by_cases hb0 : bit ≠ 0
    · rw [if_pos hb0]
      omega
    · rw [if_neg hb0]
      omega
  · rintro ⟨rfl, rfl⟩
    rw [embed_coeff_eq_modify resistance_level 1 (-2) hv hel,
      modify_coeff_eq resistance_level 1 (-2) hv, if_neg (by omega), if_pos (by decide)]
    decide
  · intro coeffs expected_size st coeff_idx h
    by_cases h1 : st.result.length ≥ expected_size
    · exact extract_step_break coeffs expected_size st coeff_idx h1
    · exact extract_step_skip coeffs expected_size st coeff_idx h1 (by rw [h]; decide)

/-- Witness of C23: at resistance level 1 the value `-2` with target bit 1 becomes `-1`. -/
theorem C23_eligibility_after_write_witness :
    ((1 : Int) < 7 ∧ (1 : Nat) < 2 ∧ is_int16 (-2) ∧ (2 : Int) ≤ |(-2)|) ∧
    embed_coeff 1 1 (-2) = -1 ∧ |embed_coeff 1 1 (-2)| < 2 :=
  ⟨by decide,
    (C23_eligibility_after_write 1 1 (-2) (by decide) (by decide) (by decide)
      (by decide)).2.1 ⟨rfl, rfl⟩,
    (C23_eligibility_after_write 1 1 (-2) (by decide) (by decide) (by decide)
      (by decide)).1.mpr ⟨rfl, rfl⟩⟩

/-- C24. For every eligible 16-bit coefficient value, every target bit and every resistance
level, the value computed by the LSB or magnitude-push step is already non-zero, so the branch
`if (coeff == 0) coeff = bit ? 1 : -1` is not taken and the value stored is the computed one.
Had the branch been taken with target bit 0 it would store `-1`, whose least significant bit
is 1, as it does on the ineligible value `1` at resistance level 1. -/
theorem C24_zero_guard_unreachable (resistance_level : Int) (bit : Nat) (v : Int)
    (hv : is_int16 v) (he : 2 ≤ |v|) :
    modify_coeff resistance_level bit v ≠ 0 ∧
    embed_coeff resistance_level bit v = modify_coeff resistance_level bit v ∧
    (modify_coeff 1 0 1 = 0 ∧ embed_coeff 1 0 1 = -1 ∧ c_and (-1) 1 = 1) := by
  have hel : ¬ c_abs v < MIN_COEFF_VALUE := by
    rw [c_abs_eq_abs]
    unfold MIN_COEFF_VALUE
    omega
  exact ⟨modify_coeff_ne_zero resistance_level bit v hv hel,
    embed_coeff_eq_modify resistance_level bit v hv hel, by decide, by decide, by decide⟩

/-- Witness of C24: the value `-2` with target bit 0 at resistance level 7 is computed as
`-4`. -/
theorem C24_zero_guard_unreachable_witness :
    (is_int16 (-2) ∧ (2 : Int) ≤ |(-2)|) ∧ modify_coeff 7 0 (-2) = -4 ∧
    modify_coeff 7 0 (-2) ≠ 0 :=
  ⟨by decide, by decide,
    (C24_zero_guard_unreachable 7 0 (-2) (by decide) (by decide)).1⟩

/-- C27. For every eligible 16-bit coefficient value `v` and target bit, the embedding step
changes the value by at most 1 at resistance level below 7, and by at most 2 at resistance
level at least 7 provided `-32767 ≤ v ≤ 32766`. -/
theorem C27_bounded_distortion (resistance_level : Int) (bit : Nat) (v : Int)
    (hv : is_int16 v) (he : 2 ≤ |v|) :
    (resistance_level < 7 → |embed_coeff resistance_level bit v - v| ≤ 1) ∧
    (resistance_level ≥ 7 → -32767 ≤ v ∧ v ≤ 32766 →
      |embed_coeff resistance_level bit v - v| ≤ 2) := by
  have hel : ¬ c_abs v < MIN_COEFF_VALUE := by
    rw [c_abs_eq_abs]
    unfold MIN_COEFF_VALUE
    omega
  rw [embed_coeff_eq_modify resistance_level bit v hv hel,
    modify_coeff_eq resistance_level bit v hv]
  rw [← c_abs_eq_abs] at he
  obtain ⟨h1, h2⟩ := hv
  unfold c_abs at he
  unfold to_int16
  constructor
  · intro hr
    rw [if_neg (by omega), ← c_abs_eq_abs]
    unfold c_abs
    by_cases hb : bit ≠ 0
    · rw [if_pos hb]
      omega
    · rw [if_neg hb]
      omega
  · intro hr hrange
    rw [if_pos hr, ← c_abs_eq_abs]
    unfold c_abs
    by_cases hb : bit ≠ 0
    · rw [if_pos hb]
      by_cases hpos : v > 0
      · rw [if_pos hpos]
        omega
      · rw [if_neg hpos]
        omega
    · rw [if_neg hb]
      by_cases hpos : v > 0
      · rw [if_pos hpos]
        omega
      · rw [if_neg hpos]
        omega

/-- Witness of C27: the value `3` becomes `2` with target bit 0 at resistance level 1, and `5`
with target bit 1 at resistance level 7. -/
theorem C27_bounded_distortion_witness :
    (is_int16 3 ∧ (2 : Int) ≤ |3|) ∧ embed_coeff 1 0 3 = 2 ∧ embed_coeff 7 1 3 = 5 ∧
    |embed_coeff 1 0 3 - 3| ≤ 1 ∧ |embed_coeff 7 1 3 - 3| ≤ 2 :=
  ⟨by decide, by decide, by decide,
    (C27_bounded_distortion 1 0 3 (by decide) (by decide)).1 (by decide),
    (C27_bounded_distortion 7 1 3 (by decide) (by decide)).2 (by decide) (by decide)⟩

/-! ## Round trip of the bit walks at high resistance -/

/-- C22. For every buffer of 16-bit coefficients (the values `-32768` and `32767` included),
every byte string `data` and every resistance level at least 7: when
`embed_bits_with_resistance` returns `true`, `extract_bits_with_verification` on the output
buffer with `expected_size = len(data)` returns `data`, and `verify_embedding_integrity`
passes. -/
theorem C22_bit_round_trip (std : StdLib) (jpeg_data : AdvancedJPEGData) (data : List Nat)
    (resistance_level : Int)
    (hbuf : ∀ v ∈ jpeg_data.dct_coefficients, is_int16 v)
    (hdata : ∀ b ∈ data, b < 256)
    (hr : resistance_level ≥ 7)
    (hsucc : (embed_bits_with_resistance std jpeg_data data resistance_level).1 = true) :
    extract_bits_with_verification std
      (embed_bits_with_resistance std jpeg_data data resistance_level).2 data.length = data ∧
    verify_embedding_integrity std
      (embed_bits_with_resistance std jpeg_data data resistance_level).2 data = true := by
  have h := extract_after_embed std jpeg_data data resistance_level hdata
    (write_ok_of_buffer jpeg_data resistance_level hbuf (Or.inl hr)) hsucc
  exact ⟨h, verify_of_extract_eq std _ data h⟩

set_option maxRecDepth 100000 in
/-- Witness of C22: the byte `0xA5` embedded at resistance level 7 in a buffer that holds
`32767` and `-32768`. -/
theorem C22_bit_round_trip_witness :
    (embed_bits_with_resistance plain_std extreme_buffer [165] 7).1 = true ∧
    extract_bits_with_verification plain_std
      (embed_bits_with_resistance plain_std extreme_buffer [165] 7).2 1 = [165] :=
  ⟨by decide!,
    (C22_bit_round_trip plain_std extreme_buffer [165] 7 (by decide) (by decide) (by decide)
      (by decide!)).1⟩

/-! ## Extraction walks of different sizes -/

/-- C25. For every buffer and all sizes `n ≤ m`, `extract_bits_with_verification(buffer, n)` is
the list of the first `n` bytes of `extract_bits_with_verification(buffer, m)`, hence a prefix
of it; in particular the 8-byte header read by the first walk of `outguess_extract_message` is
the first 8 bytes of its second walk for `8 + length` bytes. Both walks read the same buffer,
which they receive read-only. -/
theorem C25_extraction_consistent (std : StdLib) (jpeg_data : AdvancedJPEGData) (n m : Nat)
    (hnm : n ≤ m) :
    extract_bits_with_verification std jpeg_data n =
      (extract_bits_with_verification std jpeg_data m).take n ∧
    (∃ t, extract_bits_with_verification std jpeg_data m =
      extract_bits_with_verification std jpeg_data n ++ t) ∧
    (∀ message_length : Nat, extract_bits_with_verification std jpeg_data 8 =
      (extract_bits_with_verification std jpeg_data (8 + message_length)).take 8) := by
  have h := extract_bits_initial std jpeg_data n m hnm
  refine ⟨h, ⟨(extract_bits_with_verification std jpeg_data m).drop n, ?_⟩, ?_⟩
  · rw [h, List.take_append_drop]
  · intro message_length
    exact extract_bits_initial std jpeg_data 8 (8 + message_length) (Nat.le_add_right _ _)

set_option maxRecDepth 100000 in
/-- Witness of C25 on the buffer that holds `"Hi"`: the walk for 8 bytes returns the header,
the first 8 bytes of the walk for 10 bytes. -/
theorem C25_extraction_consistent_witness :
    (8 : Nat) ≤ 10 ∧
    extract_bits_with_verification plain_std stego_sample 10 = frame_message [72, 105] ∧
    extract_bits_with_verification plain_std stego_sample 8 =
      (extract_bits_with_verification plain_std stego_sample 10).take 8 :=
  ⟨by decide, by decide!, (C25_extraction_consistent plain_std stego_sample 8 10 (by decide)).1⟩

/-! ## Soundness of the capacity estimate -/

/-- C26. For every buffer, every resistance level in 1..10, every quality in 1..100 and every
non-empty payload `P` whose length is at most the capacity estimate,
`8 × (len(P) + 8)` is at most the number of eligible coefficients of the buffer; so
`embed_bits_with_resistance` returns `true` on the framed payload, with or without password,
and more generally on every data of `len(P) + 8` bytes. The estimate is the one the code
computes in `double` arithmetic or the value of the formula with the arithmetic taken
exactly. -/
theorem C26_capacity_sound (std : StdLib) (jpeg_data : AdvancedJPEGData) (r q : Int)
    (P : List Nat) (config : Option outguess_config_t)
    (hr : 1 ≤ r ∧ r ≤ 10) (hq : 1 ≤ q ∧ q ≤ 100) (hP : P ≠ [])
    (hcap : (P.length : Int) ≤ outguess_get_max_message_size std jpeg_data r q ∨
      (P.length : Int) ≤ capacity_formula (eligible_count jpeg_data.dct_coefficients) r q) :
    8 * (P.length + 8) ≤ eligible_count jpeg_data.dct_coefficients ∧
    (∀ (data : List Nat) (resistance_level : Int), data.length = P.length + 8 →
      (embed_bits_with_resistance std jpeg_data data resistance_level).1 = true) ∧
    (embed_bits_with_resistance std jpeg_data
      (frame_message (prepare_message_data std P config)) r).1 = true := by
  have hL : 1 ≤ P.length := List.length_pos.mpr hP
  obtain ⟨hrf, hqf⟩ := factors_in_unit std r q ⟨by omega, by omega⟩ ⟨by omega, by omega⟩
  have h : 8 * (8 + P.length) ≤ usable_coefficients jpeg_data := by
    rcases hcap with hcap | hcap
    · exact capacity_sound std jpeg_data r q P.length hrf hqf hL hcap
    · rw [usable_eq_eligible_count]
      exact capacity_formula_sound _ r q P.length hr hq hL hcap
  have hall : ∀ (data : List Nat) (resistance_level : Int), data.length = P.length + 8 →
      (embed_bits_with_resistance std jpeg_data data resistance_level).1 = true := by
    intro data resistance_level hlen
    rw [embed_bits_success_iff, hlen]
    omega
  refine ⟨?_, hall, ?_⟩
  · rw [← usable_eq_eligible_count]
    omega
  · apply hall
    rw [frame_message_length]
    unfold prepare_message_data
    cases config_password config with
    | none => exact Nat.add_comm _ _
    | some p =>
      show 8 + (encrypt_message_aes std P p).length = P.length + 8
      rw [encrypt_length]
      exact Nat.add_comm _ _

set_option maxRecDepth 100000 in
/-- Witness of C26: the payload `"Hi"` at resistance level 1 and quality 100 in a buffer of 90
coefficients, 88 of them eligible. -/
theorem C26_capacity_sound_witness :
    ((2 : Int) ≤ outguess_get_max_message_size plain_std (sample_buffer 90 5 7) 1 100) ∧
    8 * (([72, 105] : List Nat).length + 8) ≤
      eligible_count (sample_buffer 90 5 7).dct_coefficients :=
  ⟨by decide!,
    (C26_capacity_sound plain_std (sample_buffer 90 5 7) 1 100 [72, 105] (plain_config 1 100)
      (by decide) (by decide) (by decide) (Or.inl (by decide!))).1⟩

end Outguess
